import Mathlib

/-!
# statsd-mini: a verification development for `main.go`

The file embeds the parse → aggregate → flush pipeline of `main.go`
(`handleMessage`, `monitor`, `submit`) and checks the statements of its
specification (numbered `C1`, `C2`, …) against it.

Modelling conventions

* Go strings are lists of characters (`Str`).
* `float32` / `float64` are IEEE-754 binary32 / binary64, modelled exactly
  (sign, odd integer significand, binary exponent, infinities, NaN) with
  round-to-nearest-even after every operation.
* Go `int` is the 64-bit two's-complement integer of the 64-bit ports.
* Go maps are association lists without duplicate keys; the iteration order
  of `range` is the list order (Go leaves it unspecified, and no theorem
  below depends on it).
* `monitor`'s `select` loop is a step function over events (a tick of the
  ticker or a packet received from the channel `In`).
-/

namespace StatsdMini

/-- Go strings, as lists of characters. -/
abbrev Str := List Char

/-! ## IEEE-754 binary floating point -/

/-- A floating-point datum.  `fin neg m e` is `(-1)^neg · m · 2^e`; the
operations below only build canonical finite values (`m` odd, or `m = 0` and
`e = 0`), so that equality of data is equality of values (with `+0 ≠ -0`). -/
inductive Flt where
  | fin (neg : Bool) (m : Nat) (e : Int)
  | inf (neg : Bool)
  | nan
  deriving DecidableEq, Repr

/-- A binary interchange format: precision in bits and largest exponent. -/
structure Fmt where
  prec : Nat
  emax : Int
  deriving DecidableEq, Repr

/-- IEEE-754 binary32, Go's `float32`. -/
def binary32 : Fmt := ⟨24, 127⟩

/-- IEEE-754 binary64, Go's `float64`. -/
def binary64 : Fmt := ⟨53, 1023⟩

/-- Exponent of the least significant bit of a subnormal number. -/
def Fmt.eminSub (F : Fmt) : Int := 2 - F.emax - F.prec

/-- Divide out factors of two (at most `fuel` of them), raising the exponent. -/
def stripZeros : Nat → Nat → Int → Nat × Int
  | 0, m, e => (m, e)
  | fuel + 1, m, e =>
    if m % 2 = 0 ∧ m ≠ 0 then stripZeros fuel (m / 2) (e + 1) else (m, e)

/-- Canonical finite datum for `(-1)^neg · m · 2^e`. -/
def Flt.mk (F : Fmt) (neg : Bool) (m : Nat) (e : Int) : Flt :=
  if m = 0 then .fin neg 0 0
  else
    let r := stripZeros (F.prec + 1) m e
    .fin neg r.1 r.2

/-- One step of a binary search for the bit length: when `2^k ≤ n`, shift `n`
right by `k` bits and count them. -/
def log2Step (k : Nat) (p : Nat × Nat) : Nat × Nat :=
  if 2 ^ k ≤ p.1 then (p.1 / 2 ^ k, p.2 + k) else p

/-- Integer part of the binary logarithm of a number below `2^64`. -/
def log2Word (n : Nat) : Nat :=
  (log2Step 1 (log2Step 2 (log2Step 4 (log2Step 8 (log2Step 16 (log2Step 32 (n, 0))))))).2

/-- Binary logarithm, one 64-bit word per step, at most `fuel` words. -/
def log2Fuel : Nat → Nat → Nat
  | 0, _ => 0
  | fuel + 1, n => if n < 2 ^ 64 then log2Word n else log2Fuel fuel (n / 2 ^ 64) + 64

/-- Integer part of the binary logarithm (`0` at `0`). -/
def log2 (n : Nat) : Nat := log2Fuel n n

/-- Integer part of the binary logarithm of `n / d`, for `n, d > 0`. -/
def ilog2Ratio (n d : Nat) : Int :=
  let k : Int := (log2 n : Int) - (log2 d : Int)
  let ge : Bool := if 0 ≤ k then d * 2 ^ k.toNat ≤ n else d ≤ n * 2 ^ (-k).toNat
  if ge then k else k - 1

/-- Round the non-negative rational `n / d` (`d > 0`) to the nearest datum of
format `F`, ties to even, with sign `neg`; magnitudes that round beyond the
largest finite number become infinite, tiny ones become subnormal or zero. -/
def roundQ (F : Fmt) (neg : Bool) (n d : Nat) : Flt :=
  if n = 0 then .fin neg 0 0
  else
    let e : Int := max (ilog2Ratio n d - (F.prec - 1)) F.eminSub
    let num : Nat := if 0 ≤ e then n else n * 2 ^ (-e).toNat
    let den : Nat := if 0 ≤ e then d * 2 ^ e.toNat else d
    let q := num / den
    let r := num % den
    let m := if 2 * r < den then q else if den < 2 * r then q + 1
             else if q % 2 = 0 then q else q + 1
    if F.emax < (log2 m : Int) + e then .inf neg else Flt.mk F neg m e

/-- Round the exact value `(-1)^neg · m · 2^e` to format `F`. -/
def roundDyadic (F : Fmt) (neg : Bool) (m : Nat) (e : Int) : Flt :=
  if 0 ≤ e then roundQ F neg (m * 2 ^ e.toNat) 1 else roundQ F neg m (2 ^ (-e).toNat)

/-- Conversion between formats (`float32(x)` for a `float64` `x`). -/
def Flt.convert (F : Fmt) : Flt → Flt
  | .fin neg m e => roundDyadic F neg m e
  | x => x

/-- Conversion of an integer (`float64(i)`). -/
def Flt.ofInt (F : Fmt) (i : Int) : Flt := roundQ F (decide (i < 0)) i.natAbs 1

/-- Floating-point product. -/
def Flt.mul (F : Fmt) : Flt → Flt → Flt
  | .nan, _ => .nan
  | _, .nan => .nan
  | .inf s, .inf t => .inf (xor s t)
  | .inf s, .fin t m _ => if m = 0 then .nan else .inf (xor s t)
  | .fin s m _, .inf t => if m = 0 then .nan else .inf (xor s t)
  | .fin s m e, .fin t n f => roundDyadic F (xor s t) (m * n) (e + f)

/-- Floating-point quotient; division by zero yields an infinity or NaN and
never faults. -/
def Flt.div (F : Fmt) : Flt → Flt → Flt
  | .nan, _ => .nan
  | _, .nan => .nan
  | .inf _, .inf _ => .nan
  | .inf s, .fin t _ _ => .inf (xor s t)
  | .fin s _ _, .inf t => .fin (xor s t) 0 0
  | .fin s m e, .fin t n f =>
    if n = 0 then (if m = 0 then .nan else .inf (xor s t))
    else
      let k := e - f
      if 0 ≤ k then roundQ F (xor s t) (m * 2 ^ k.toNat) n
      else roundQ F (xor s t) m (n * 2 ^ (-k).toNat)

/-- Floating-point sum. -/
def Flt.add (F : Fmt) : Flt → Flt → Flt
  | .nan, _ => .nan
  | _, .nan => .nan
  | .inf s, .inf t => if s = t then .inf s else .nan
  | .inf s, .fin _ _ _ => .inf s
  | .fin _ _ _, .inf t => .inf t
  | .fin s m e, .fin t n f =>
    let g := min e f
    let a : Int := (if s then -1 else 1) * ((m * 2 ^ (e - g).toNat : Nat) : Int)
    let b : Int := (if t then -1 else 1) * ((n * 2 ^ (f - g).toNat : Nat) : Int)
    let c := a + b
    if c = 0 then .fin (s && t) 0 0
    else roundDyadic F (decide (c < 0)) c.natAbs g

/-- The exact rational value of a finite datum (`none` for infinities and NaN). -/
def Flt.toRat? : Flt → Option ℚ
  | .fin neg m e => some ((if neg then -1 else 1) * (m : ℚ) * (2 : ℚ) ^ e)
  | _ => none

/-- The data of format `F`, in canonical form: zero, or an odd significand of
at most `prec` bits with an exponent that is neither below the subnormal
range nor beyond the largest finite number; infinities and NaN. -/
def Flt.inFormat (F : Fmt) : Flt → Prop
  | .fin _ m e =>
    (m = 0 ∧ e = 0) ∨
    (m % 2 = 1 ∧ m < 2 ^ F.prec ∧ F.eminSub ≤ e ∧ (log2 m : Int) + e ≤ F.emax)
  | _ => True

/-- The float constant `1`. -/
def Flt.one : Flt := .fin false 1 0

/-- The float constant `+0`. -/
def Flt.zero : Flt := .fin false 0 0

/-! ## Integers and float-to-integer conversion -/

/-- Two's-complement wrap-around of Go's 64-bit `int`. -/
def wrapInt64 (i : Int) : Int := (i + 2 ^ 63) % 2 ^ 64 - 2 ^ 63

/-- What the Go specification leaves to the implementation: the result of
converting to `int` a float that `int` cannot represent (out of range,
infinite or NaN). -/
structure Platform where
  intOfUnrepresentable : Flt → Int

/-- The gc compiler on amd64: `CVTTSS2SQ` yields the "integer indefinite"
value `-2^63` for every unrepresentable operand. -/
def amd64 : Platform := ⟨fun _ => -(2 ^ 63)⟩

/-- The gc compiler on arm64: `FCVTZS` saturates and maps NaN to `0`. -/
def arm64 : Platform :=
  ⟨fun x => match x with
    | .fin true _ _ => -(2 ^ 63)
    | .fin false _ _ => 2 ^ 63 - 1
    | .inf true => -(2 ^ 63)
    | .inf false => 2 ^ 63 - 1
    | .nan => 0⟩

/-- The fractional part of a finite datum is discarded (truncation towards
zero); `none` when the result does not fit Go's `int`. -/
def Flt.truncate? : Flt → Option Int
  | .fin neg m e =>
    let mag : Nat := if 0 ≤ e then m * 2 ^ e.toNat else m / 2 ^ (-e).toNat
    let v : Int := if neg then -(mag : Int) else (mag : Int)
    if -(2 ^ 63) ≤ v ∧ v < 2 ^ 63 then some v else none
  | _ => none

/-- Go's conversion `int(x)` of a float. -/
def Flt.toInt (P : Platform) (x : Flt) : Int :=
  match x.truncate? with
  | some v => v
  | none => wrapInt64 (P.intOfUnrepresentable x)

/-! ## `strconv.ParseFloat`

Only the plain decimal syntax is modelled: an optional sign, digits, at most
one point.  The texts `handleMessage` hands to `ParseFloat` are capture groups
over `[0-9.-]` (or the empty string), so the other syntaxes Go accepts
(exponents, hexadecimal, `inf`, `nan`, underscores) cannot occur there; here
they are reported as syntax errors. -/

/-- The class `[0-9]`. -/
def isDigit (c : Char) : Bool := decide ('0'.toNat ≤ c.toNat) && decide (c.toNat ≤ '9'.toNat)

/-- Read a run of decimal digits: accumulated value, number of digits read,
and the unread rest. -/
def readDigits : Nat → Nat → Str → Nat × Nat × Str
  | acc, cnt, [] => (acc, cnt, [])
  | acc, cnt, c :: t =>
    if isDigit c then readDigits (acc * 10 + (c.toNat - '0'.toNat)) (cnt + 1) t
    else (acc, cnt, c :: t)

/-- The syntax of a decimal literal: sign, all digits as one number, and the
number of digits after the point.  `none` is `strconv.ErrSyntax` (no digit at
all, or text left over, such as a second point). -/
def readFloat (s : Str) : Option (Bool × Nat × Nat) :=
  let signed : Bool × Str :=
    match s with
    | '-' :: t => (true, t)
    | '+' :: t => (false, t)
    | _ => (false, s)
  let ip := readDigits 0 0 signed.2
  let fp : Nat × Nat × Str :=
    match ip.2.2 with
    | '.' :: t => readDigits ip.1 0 t
    | r => (ip.1, 0, r)
  if ip.2.1 + fp.2.1 = 0 then none
  else if fp.2.2 ≠ [] then none
  else some (signed.1, fp.1, fp.2.1)

/-- Result of `strconv.ParseFloat(s, bitSize)`: the value and whether `err != nil`.
A syntax error yields `0`; a literal that rounds beyond the largest finite
number yields an infinity together with `strconv.ErrRange`. -/
def parseFloat (F : Fmt) (s : Str) : Flt × Bool :=
  match readFloat s with
  | none => (Flt.zero, true)
  | some (neg, digits, scale) =>
    match roundQ F neg digits (10 ^ scale) with
    | .inf sg => (.inf sg, true)
    | v => (v, false)

/-! ## Regular expressions

Go's `regexp` returns the leftmost match and, among the matches that start
there, the one a backtracking search finds first.  The matcher below is that
backtracking search, for the constructs the two patterns of `handleMessage`
use. -/

/-- Regular expressions (the fragment used by `handleMessage`). -/
inductive Re where
  | chr (c : Char)
  | cls (p : Char → Bool)
  | seq (a b : Re)
  | alt (a b : Re)
  | opt (a : Re)
  | plus (a : Re)
  | group (i : Nat) (a : Re)

/-- Capture groups: the text of group `i`, if it took part in the match. -/
abbrev Caps := Nat → Option Str

/-- No group has matched yet. -/
def Caps.none : Caps := fun _ => Option.none

/-- Record the text of group `i`. -/
def Caps.set (c : Caps) (i : Nat) (v : Str) : Caps := fun j => if j = i then some v else c j

/-- What a continuation returns: the captures and the unread input. -/
abbrev MatchResult := Option (Caps × Str)

/-- Greedy `a+`, given the matcher `m` of `a`: one `a`, then as many more as
possible before giving the continuation a chance. -/
def plusLoop (m : Str → Caps → (Str → Caps → MatchResult) → MatchResult) :
    Nat → Str → Caps → (Str → Caps → MatchResult) → MatchResult
  | 0, _, _, _ => none
  | n + 1, s, c, k =>
    m s c (fun s1 c1 =>
      if s1.length < s.length then (plusLoop m n s1 c1 k).orElse (fun _ => k s1 c1)
      else k s1 c1)

/-- Backtracking match of `re` at the head of the input, continuing with `k`
on the rest; alternatives are tried in the order Go (like Perl) tries them. -/
def Re.exec : Re → Str → Caps → (Str → Caps → MatchResult) → MatchResult
  | .chr ch, s, c, k =>
    match s with
    | x :: t => if x = ch then k t c else none
    | [] => none
  | .cls p, s, c, k =>
    match s with
    | x :: t => if p x then k t c else none
    | [] => none
  | .seq a b, s, c, k => a.exec s c (fun s1 c1 => b.exec s1 c1 k)
  | .alt a b, s, c, k => (a.exec s c k).orElse (fun _ => b.exec s c k)
  | .opt a, s, c, k => (a.exec s c k).orElse (fun _ => k s c)
  | .plus a, s, c, k => plusLoop a.exec (s.length + 1) s c k
  | .group i a, s, c, k =>
    a.exec s c (fun s1 c1 => k s1 (c1.set i (s.take (s.length - s1.length))))

/-- Anchored match: captures (group `0` is the whole match) and the rest. -/
def Re.matchAt (re : Re) (s : Str) : MatchResult :=
  (Re.group 0 re).exec s Caps.none (fun r c => some (c, r))

/-- Leftmost match: the text skipped before it, its captures and the rest. -/
def Re.find (re : Re) : Str → Option (Str × Caps × Str)
  | [] => (re.matchAt []).map (fun m => ([], m.1, m.2))
  | x :: t =>
    match re.matchAt (x :: t) with
    | some m => some ([], m.1, m.2)
    | none => (re.find t).map (fun r => (x :: r.1, r.2))

/-- Successive non-overlapping matches, each search resuming where the
previous match ended.  (A match that consumes nothing ends the scan; the
patterns used here cannot match the empty string.) -/
def Re.findAllFuel (re : Re) : Nat → Str → List Caps
  | 0, _ => []
  | n + 1, s =>
    match re.find s with
    | none => []
    | some r => if r.2.2.length < s.length then r.2.1 :: re.findAllFuel n r.2.2 else [r.2.1]

/-- Go's `FindAllStringSubmatch(s, -1)`. -/
def Re.findAllStringSubmatch (re : Re) (s : Str) : List Caps := re.findAllFuel (s.length + 1) s

/-- Copy the text between successive matches, putting `repl` for each match. -/
def Re.replaceAllFuel (re : Re) (repl : Str) : Nat → Str → Str
  | 0, s => s
  | n + 1, s =>
    match re.find s with
    | none => s
    | some r =>
      if r.2.2.length < s.length then r.1 ++ repl ++ re.replaceAllFuel repl n r.2.2
      else r.1 ++ repl ++ r.2.2

/-- Go's `ReplaceAllString(src, repl)` for a template without `$`. -/
def Re.replaceAllString (re : Re) (src repl : Str) : Str :=
  re.replaceAllFuel repl (src.length + 1) src

/-- Go's `item[i]` of a submatch: the empty string for a group that did not
take part. -/
def Caps.item (c : Caps) (i : Nat) : Str := (c i).getD []

/-! ### The language of a pattern

What a successful run of the matcher has read, as a relation; used to state
the soundness of the matcher. -/

/-- One or more consecutive matches of `R`, the captures threaded through. -/
inductive Iter (R : Str → Caps → Caps → Prop) : Str → Caps → Caps → Prop where
  | one (w : Str) (c c1 : Caps) : R w c c1 → Iter R w c c1
  | more (w1 w2 : Str) (c c2 c1 : Caps) : R w1 c c2 → Iter R w2 c2 c1 → Iter R (w1 ++ w2) c c1

/-- The text `w` is in the language of `re`, the captures `c` becoming `c1`. -/
def Re.Matches : Re → Str → Caps → Caps → Prop
  | .chr ch, w, c, c1 => w = [ch] ∧ c1 = c
  | .cls p, w, c, c1 => ∃ x, p x = true ∧ w = [x] ∧ c1 = c
  | .seq a b, w, c, c1 => ∃ w1 w2 c2, w = w1 ++ w2 ∧ a.Matches w1 c c2 ∧ b.Matches w2 c2 c1
  | .alt a b, w, c, c1 => a.Matches w c c1 ∨ b.Matches w c c1
  | .opt a, w, c, c1 => a.Matches w c c1 ∨ (w = [] ∧ c1 = c)
  | .plus a, w, c, c1 => Iter a.Matches w c c1
  | .group i a, w, c, c1 => ∃ c2, a.Matches w c c2 ∧ c1 = c2.set i w

/-! ## `handleMessage` -/

/-- The type `Packet` of `main.go`. -/
structure Packet where
  Bucket : Str
  Value : Str
  Modifier : Str
  Sampling : Flt
  deriving DecidableEq, Repr

/-- The class `[a-zA-Z]`. -/
def isLetter (c : Char) : Bool :=
  (decide ('a'.toNat ≤ c.toNat) && decide (c.toNat ≤ 'z'.toNat)) ||
  (decide ('A'.toNat ≤ c.toNat) && decide (c.toNat ≤ 'Z'.toNat))

/-- The class `[a-zA-Z0-9\-_\.:\|@]` whose complement `sanitizeRegexp` matches. -/
def isSanitary (c : Char) : Bool :=
  isLetter c || isDigit c || c == '-' || c == '_' || c == '.' || c == ':' || c == '|' || c == '@'

/-- The class `[a-zA-Z0-9_\.]` of bucket names. -/
def isBucketChar (c : Char) : Bool := isLetter c || isDigit c || c == '_' || c == '.'

/-- The class `[0-9\.]` of values and sampling rates. -/
def isValueChar (c : Char) : Bool := isDigit c || c == '.'

/-- The pattern `[^a-zA-Z0-9\-_\.:\|@]`. -/
def sanitizeRegexp : Re := .cls (fun c => !isSanitary c)

/-- The group `([a-zA-Z0-9_\.]+)`. -/
def bucketGroup : Re := .group 1 (.plus (.cls isBucketChar))

/-- The group `(\-?[0-9\.]+)`. -/
def valueGroup : Re := .group 2 (.seq (.opt (.chr '-')) (.plus (.cls isValueChar)))

/-- The group `(c|ms|g)`. -/
def kindGroup : Re := .group 3 (.alt (.chr 'c') (.alt (.seq (.chr 'm') (.chr 's')) (.chr 'g')))

/-- The group `(\|@([0-9\.]+))`. -/
def rateGroup : Re :=
  .group 4 (.seq (.chr '|') (.seq (.chr '@') (.group 5 (.plus (.cls isValueChar)))))

/-- The pattern
`([a-zA-Z0-9_\.]+):(\-?[0-9\.]+)\|(c|ms|g)(\|@([0-9\.]+))?`. -/
def packetRegexp : Re :=
  .seq bucketGroup (.seq (.chr ':') (.seq valueGroup (.seq (.chr '|')
    (.seq kindGroup (.opt rateGroup)))))

/-- The body of the `for ... range` loop of `handleMessage`: the packet sent
on `In` for one submatch. -/
def packetOfItem (item : Nat → Str) : Packet :=
  let value : Str :=
    if item 3 = ['m', 's'] then
      (if (parseFloat binary32 (item 2)).2 then ['0'] else item 2)
    else item 2
  let parsed := parseFloat binary32 (item 5)
  let sampleRate : Flt := if parsed.2 then Flt.one else parsed.1
  { Bucket := item 1, Value := value, Modifier := item 3,
    Sampling := Flt.convert binary32 sampleRate }

/-- The packets `handleMessage` sends on the channel `In`, in order, for the
datagram text `buf`. -/
def handleMessage (buf : Str) : List Packet :=
  let s := sanitizeRegexp.replaceAllString buf []
  (packetRegexp.findAllStringSubmatch s).map (fun c => packetOfItem c.item)

/-! ## Encodings

The wire format `<bucket>:<value>|<kind>[|@<samplingRate>]`, as text that the
whole of `packetRegexp` matches. -/

/-- The parts of one metric encoding. -/
structure Encoding where
  bucket : Str
  minus : Bool
  digits : Str
  kind : Str
  rate : Option Str
  deriving DecidableEq, Repr

/-- The value text: an optional `-`, then digits and points. -/
def Encoding.value (e : Encoding) : Str := (if e.minus then ['-'] else []) ++ e.digits

/-- The optional trailing `|@<samplingRate>`. -/
def Encoding.rateText (e : Encoding) : Str :=
  match e.rate with
  | none => []
  | some r => '|' :: '@' :: r

/-- The encoding as it travels in a datagram. -/
def Encoding.text (e : Encoding) : Str :=
  e.bucket ++ ':' :: (e.value ++ '|' :: (e.kind ++ e.rateText))

/-- Each part is non-empty and drawn from the character class of its group,
and the kind is one of `c`, `ms`, `g`. -/
def Encoding.valid (e : Encoding) : Bool :=
  !e.bucket.isEmpty && e.bucket.all isBucketChar &&
  !e.digits.isEmpty && e.digits.all isValueChar &&
  (e.kind == ['c'] || e.kind == ['m', 's'] || e.kind == ['g']) &&
  (match e.rate with
   | none => true
   | some r => !r.isEmpty && r.all isValueChar)

/-- The captures of groups `1`–`5` when the pattern matches the encoding,
added to `c`. -/
def Encoding.groups (e : Encoding) (c : Caps) : Caps :=
  let c3 := ((c.set 1 e.bucket).set 2 e.value).set 3 e.kind
  match e.rate with
  | none => c3
  | some r => (c3.set 5 r).set 4 ('|' :: '@' :: r)

/-- The submatch Go reports when the pattern matches the encoding. -/
def Encoding.caps (e : Encoding) : Caps := (e.groups Caps.none).set 0 e.text

/-- What may follow an encoding in a datagram without changing how the
pattern matches it: nothing that would extend the sampling rate, or start one. -/
def Encoding.delimitedBy (e : Encoding) (tail : Str) : Prop :=
  match e.rate with
  | some _ => ∀ x t, tail = x :: t → isValueChar x = false
  | none => ∀ x t, tail = '|' :: '@' :: x :: t → isValueChar x = false

/-! ## Go maps -/

/-- Value stored under key `k`, if any. -/
def assocGet {α : Type} (k : Str) : List (Str × α) → Option α
  | [] => none
  | (k1, v1) :: t => if k1 = k then some v1 else assocGet k t

/-- Store `v` under key `k`: overwrite the entry in place, or add one. -/
def assocSet {α : Type} (k : Str) (v : α) : List (Str × α) → List (Str × α)
  | [] => [(k, v)]
  | (k1, v1) :: t => if k1 = k then (k, v) :: t else (k1, v1) :: assocSet k v t

theorem assocSet_keys {α : Type} (k : Str) (v : α) (l : List (Str × α)) :
    (assocSet k v l).map Prod.fst =
      if k ∈ l.map Prod.fst then l.map Prod.fst else l.map Prod.fst ++ [k] := by
  induction l with
  | nil => rfl
  | cons hd t ih =>
    obtain ⟨k1, v1⟩ := hd
    by_cases h : k1 = k
    · subst h
      simp only [assocSet, if_true, List.map_cons, List.mem_cons, true_or]
    · have h2 : ¬ k = k1 := fun e => h e.symm
      simp only [assocSet, h, if_false, List.map_cons, ih, List.mem_cons, h2, false_or]
      split <;> rfl

theorem assocSet_nodup {α : Type} (k : Str) (v : α) (l : List (Str × α))
    (h : (l.map Prod.fst).Nodup) : ((assocSet k v l).map Prod.fst).Nodup := by
  rw [assocSet_keys]
  split
  · exact h
  · rename_i hk
    refine List.Nodup.append h (List.nodup_singleton k) ?_
    intro a ha hb
    rw [List.mem_singleton] at hb
    exact hk (hb ▸ ha)

/-- A Go `map[string]α`: entries with pairwise distinct keys. -/
structure GoMap (α : Type) where
  entries : List (Str × α)
  nodup : (entries.map Prod.fst).Nodup

/-- The result of `make(map[string]α)`. -/
def GoMap.empty {α : Type} : GoMap α := ⟨[], List.nodup_nil⟩

/-- The comma-ok lookup `v, ok := m[k]`. -/
def GoMap.get? {α : Type} (m : GoMap α) (k : Str) : Option α := assocGet k m.entries

/-- The lookup `m[k]`, which yields the zero value `z` for a missing key. -/
def GoMap.getD {α : Type} (m : GoMap α) (k : Str) (z : α) : α := (m.get? k).getD z

/-- The assignment `m[k] = v`. -/
def GoMap.set {α : Type} (m : GoMap α) (k : Str) (v : α) : GoMap α :=
  ⟨assocSet k v m.entries, assocSet_nodup k v m.entries m.nodup⟩

/-- The keys of the map. -/
def GoMap.keys {α : Type} (m : GoMap α) : List Str := m.entries.map Prod.fst

/-! ## `monitor` -/

/-- The package-level variables `counters` and `timers`. -/
structure State where
  counters : GoMap Int
  timers : GoMap (List Flt)

/-- The maps as `main.go` initialises them. -/
def State.init : State := ⟨GoMap.empty, GoMap.empty⟩

/-- The `case s := <-In` branch of `monitor`. -/
def applyPacket (P : Platform) (st : State) (s : Packet) : State :=
  if s.Modifier = ['m', 's'] then
    let timers1 : GoMap (List Flt) :=
      match st.timers.get? s.Bucket with
      | some _ => st.timers
      | none => st.timers.set s.Bucket []
    let floatValue := (parseFloat binary64 s.Value).1
    { st with timers := timers1.set s.Bucket (timers1.getD s.Bucket [] ++ [floatValue]) }
  else if s.Modifier = ['g'] then st
  else
    let counters1 : GoMap Int :=
      match st.counters.get? s.Bucket with
      | some _ => st.counters
      | none => st.counters.set s.Bucket 0
    let floatValue := (parseFloat binary32 s.Value).1
    let delta : Int :=
      Flt.toInt P (Flt.mul binary32 (Flt.convert binary32 floatValue)
        (Flt.div binary32 Flt.one s.Sampling))
    { st with counters := counters1.set s.Bucket (wrapInt64 (counters1.getD s.Bucket 0 + delta)) }

/-! ## `submit` -/

/-- The command-line flags that `monitor` and `submit` read. -/
structure Config where
  gangliaAddress : Str
  calculationInterval : Int

/-- One call `gmSubmitFloat(name, unit, value)`. -/
structure Metric where
  name : Str
  unit : Str
  value : Flt
  deriving DecidableEq, Repr

/-- What one run of `submit` hands to its sink closure `gmSubmitFloat`, call
by call, and whether the closure forwards the calls to gmond (`useGanglia`). -/
structure Flush where
  useGanglia : Bool
  calls : List Metric
  deriving DecidableEq, Repr

/-- `strings.Split(s, sep)` for a one-character separator. -/
def splitOn (sep : Char) : Str → List Str
  | [] => [[]]
  | c :: t =>
    if c = sep then [] :: splitOn sep t
    else
      match splitOn sep t with
      | [] => [[c]]
      | h :: r => (c :: h) :: r

/-- The loop over `segs` in `submit`: `net.ResolveIPAddr` on each segment in
turn, a failure being a `panic` (`resolves seg` tells whether the resolver
answers for `seg`). -/
def addServers (resolves : Str → Bool) : List Str → Except Str Unit
  | [] => .ok ()
  | seg :: rest => if resolves seg then addServers resolves rest else .error seg

/-- Lines 89–115 of `submit`: set up the gmond client; the result is
`useGanglia`, an error is a `panic`. -/
def setupGanglia (cfg : Config) (resolves : Str → Bool) : Except Str Bool :=
  if cfg.gangliaAddress ≠ [] then
    if ',' ∈ cfg.gangliaAddress then
      match addServers resolves (splitOn ',' cfg.gangliaAddress) with
      | .ok _ => .ok true
      | .error e => .error e
    else if resolves cfg.gangliaAddress then .ok true
    else .error cfg.gangliaAddress
  else .ok false

/-- The first loop of `submit`, over `counters`: one call per entry, and the
entry is set to zero. -/
def submitCounters (cfg : Config) :
    List (Str × Int) → GoMap Int → List Metric × GoMap Int
  | [], counters => ([], counters)
  | (name, value) :: rest, counters =>
    let averageOverInterval :=
      Flt.div binary64 (Flt.ofInt binary64 value) (Flt.ofInt binary64 cfg.calculationInterval)
    let r := submitCounters cfg rest (counters.set name 0)
    (⟨"count_".toList ++ name, "count".toList, averageOverInterval⟩ :: r.1, r.2)

/-- The body of the second loop of `submit`, for one entry of `timers`. -/
def submitTimer (name : Str) (timerValues : List Flt) : Metric :=
  if timerValues.length = 0 then ⟨"avg_".toList ++ name, "ms".toList, Flt.zero⟩
  else
    let sum := timerValues.foldl (Flt.add binary64) Flt.zero
    let avg := Flt.div binary64 sum (Flt.ofInt binary64 timerValues.length)
    ⟨"avg_".toList ++ name, "ms".toList, avg⟩

/-- The function `submit`: an error is a `panic`; otherwise the calls made to
the sink closure and the state left behind. -/
def submit (cfg : Config) (resolves : Str → Bool) (st : State) : Except Str (Flush × State) :=
  match setupGanglia cfg resolves with
  | .error e => .error e
  | .ok useGanglia =>
    let cs := submitCounters cfg st.counters.entries st.counters
    let ts := st.timers.entries.map (fun nt => submitTimer nt.1 nt.2)
    .ok (⟨useGanglia, cs.1 ++ ts⟩, { st with counters := cs.2 })

/-! ## The event loop of `monitor` -/

/-- What the `select` of `monitor` can receive: a tick of the ticker (together
with the answers the resolver gives during that flush) or a packet. -/
inductive Event where
  | tick (resolves : Str → Bool)
  | packet (s : Packet)

/-- One iteration of the `for { select { ... } }` loop. -/
def monitorStep (cfg : Config) (P : Platform) (st : State) : Event → Except Str (List Flush × State)
  | .tick resolves =>
    match submit cfg resolves st with
    | .ok r => .ok ([r.1], r.2)
    | .error e => .error e
  | .packet s => .ok ([], applyPacket P st s)

/-- The loop of `monitor` on a finite sequence of events, from state `st`:
the flushes performed, in order, and the final state. -/
def run (cfg : Config) (P : Platform) : State → List Event → Except Str (List Flush × State)
  | st, [] => .ok ([], st)
  | st, ev :: rest =>
    match monitorStep cfg P st ev with
    | .error e => .error e
    | .ok r =>
      match run cfg P r.2 rest with
      | .error e => .error e
      | .ok r2 => .ok (r.1 ++ r2.1, r2.2)

/-- The function `monitor`: `time.NewTicker` panics on a non-positive
duration, otherwise the loop runs from the initial maps. -/
def monitor (cfg : Config) (P : Platform) (events : List Event) : Except Str (List Flush × State) :=
  if wrapInt64 (wrapInt64 cfg.calculationInterval * 1000000000) ≤ 0 then
    .error "non-positive interval for NewTicker".toList
  else run cfg P State.init events

/-- Whether the event is a tick of the flush ticker. -/
def Event.isTick : Event → Bool
  | .tick _ => true
  | .packet _ => false

/-- The packets received after the most recent tick of a sequence of events
(all of them when there was no tick). -/
def updatesSinceFlush : List Event → List Packet
  | [] => []
  | .tick _ :: rest => updatesSinceFlush rest
  | .packet s :: rest =>
    if rest.any Event.isTick then updatesSinceFlush rest else s :: updatesSinceFlush rest

/-! ## Lemmas on maps -/

theorem assocGet_assocSet_self {α : Type} (k : Str) (v : α) (l : List (Str × α)) :
    assocGet k (assocSet k v l) = some v := by
  induction l with
  | nil => simp [assocSet, assocGet]
  | cons hd t ih =>
    obtain ⟨k1, v1⟩ := hd
    by_cases h : k1 = k
    · simp [assocSet, assocGet, h]
    · simp [assocSet, assocGet, h, ih]

theorem assocGet_assocSet_ne {α : Type} (k k2 : Str) (v : α) (l : List (Str × α))
    (hne : k2 ≠ k) : assocGet k2 (assocSet k v l) = assocGet k2 l := by
  induction l with
  | nil =>
    have h : ¬ k = k2 := fun e => hne e.symm
    simp [assocSet, assocGet, h]
  | cons hd t ih =>
    obtain ⟨k1, v1⟩ := hd
    by_cases h : k1 = k
    · subst h
      have h2 : ¬ k1 = k2 := fun e => hne e.symm
      simp [assocSet, assocGet, h2]
    · by_cases h3 : k1 = k2
      · subst h3
        simp only [assocSet, assocGet, h, if_false, if_true]
      · simp only [assocSet, assocGet, h, h3, if_false, ih]

theorem assocGet_eq_none {α : Type} (k : Str) (l : List (Str × α)) :
    assocGet k l = none ↔ k ∉ l.map Prod.fst := by
  induction l with
  | nil => simp only [assocGet, List.map_nil, List.not_mem_nil, not_false_eq_true]
  | cons hd t ih =>
    obtain ⟨k1, v1⟩ := hd
    by_cases h : k1 = k
    · subst h
      simp only [assocGet, if_true, List.map_cons, List.mem_cons, true_or, not_true_eq_false,
        reduceCtorEq]
    · have h2 : ¬ k = k1 := fun e => h e.symm
      simp only [assocGet, h, if_false, ih, List.map_cons, List.mem_cons, h2, false_or]

theorem GoMap.get?_set_self {α : Type} (m : GoMap α) (k : Str) (v : α) :
    (m.set k v).get? k = some v := assocGet_assocSet_self k v m.entries

theorem GoMap.get?_set_ne {α : Type} (m : GoMap α) (k k2 : Str) (v : α) (hne : k2 ≠ k) :
    (m.set k v).get? k2 = m.get? k2 := assocGet_assocSet_ne k k2 v m.entries hne

theorem GoMap.get?_eq_none {α : Type} (m : GoMap α) (k : Str) :
    m.get? k = none ↔ k ∉ m.keys := assocGet_eq_none k m.entries

theorem GoMap.ext_entries {α : Type} (m1 m2 : GoMap α) (h : m1.entries = m2.entries) :
    m1 = m2 := by
  cases m1; cases m2; cases h; rfl

/-- In a list of calls named `pre ++ key`, one per entry of a map, the calls
named `pre ++ b` are exactly the one made for the entry of `b`. -/
theorem filter_name_of_entries {α : Type} (pre : Str) (g : Str × α → Metric)
    (hg : ∀ e, (g e).name = pre ++ e.1) (b : Str) (v : α) (l : List (Str × α))
    (hnd : (l.map Prod.fst).Nodup) (hget : assocGet b l = some v) :
    (l.map g).filter (fun m => decide (m.name = pre ++ b)) = [g (b, v)] := by
  induction l with
  | nil => simp [assocGet] at hget
  | cons hd t ih =>
    obtain ⟨k1, v1⟩ := hd
    rw [List.map_cons, List.nodup_cons] at hnd
    by_cases h : k1 = b
    · subst h
      simp only [assocGet, if_true, Option.some.injEq] at hget
      subst hget
      have hnone : ∀ e ∈ t, ¬ (g e).name = pre ++ k1 := by
        intro e he hname
        rw [hg e] at hname
        have : e.1 = k1 := List.append_cancel_left hname
        exact hnd.1 (List.mem_map.mpr ⟨e, he, this⟩)
      have hfil : (t.map g).filter (fun m => decide (m.name = pre ++ k1)) = [] := by
        rw [List.filter_eq_nil_iff]
        intro m hm
        obtain ⟨e, he, rfl⟩ := List.mem_map.mp hm
        simpa using hnone e he
      rw [List.map_cons, List.filter_cons]
      simp [hg, hfil]
    · simp only [assocGet, h, if_false] at hget
      have hn : ¬ (g (k1, v1)).name = pre ++ b := by
        rw [hg]
        intro e
        exact h (List.append_cancel_left e)
      rw [List.map_cons, List.filter_cons]
      simp [hn, ih hnd.2 hget]

/-- Calls named `pre ++ key` are never named `pre2 ++ b` when no text with
the one prefix is a text with the other. -/
theorem filter_name_disjoint {α : Type} (pre pre2 : Str)
    (g : Str × α → Metric) (hg : ∀ e, (g e).name = pre ++ e.1)
    (hne : ∀ x y : Str, pre ++ x ≠ pre2 ++ y) (b : Str) (l : List (Str × α)) :
    (l.map g).filter (fun m => decide (m.name = pre2 ++ b)) = [] := by
  rw [List.filter_eq_nil_iff]
  intro m hm
  obtain ⟨e, _, rfl⟩ := List.mem_map.mp hm
  simp only [hg, decide_eq_true_eq]
  exact hne e.1 b

/-- A name `"avg_…"` is never a name `"count_…"`. -/
theorem avg_ne_count (x y : Str) : "avg_".toList ++ x ≠ "count_".toList ++ y := by
  intro h
  have h2 : ("avg_".toList ++ x).head? = ("count_".toList ++ y).head? := by rw [h]
  have h3 : some 'a' = some 'c' := h2
  exact absurd h3 (by decide)

/-! ## Lemmas on `submit` -/

theorem submitCounters_calls (cfg : Config) (l : List (Str × Int)) (m : GoMap Int) :
    (submitCounters cfg l m).1 =
      l.map (fun e => (⟨"count_".toList ++ e.1, "count".toList,
        Flt.div binary64 (Flt.ofInt binary64 e.2)
          (Flt.ofInt binary64 cfg.calculationInterval)⟩ : Metric)) := by
  induction l generalizing m with
  | nil => rfl
  | cons hd t ih =>
    obtain ⟨name, value⟩ := hd
    simp only [submitCounters, List.map_cons, ih]

theorem submitCounters_get? (cfg : Config) (l : List (Str × Int)) (m : GoMap Int) (b : Str) :
    (submitCounters cfg l m).2.get? b = if b ∈ l.map Prod.fst then some 0 else m.get? b := by
  induction l generalizing m with
  | nil => simp only [submitCounters, List.map_nil, List.not_mem_nil, if_false]
  | cons hd t ih =>
    obtain ⟨name, value⟩ := hd
    simp only [submitCounters, List.map_cons, List.mem_cons, ih]
    by_cases h1 : b ∈ t.map Prod.fst
    · simp only [h1, or_true, if_true]
    · by_cases h2 : b = name
      · subst h2
        simp only [h1, if_false, true_or, if_true, GoMap.get?_set_self]
      · simp only [h1, h2, if_false, or_self, GoMap.get?_set_ne _ _ _ _ h2]

theorem submit_ok (cfg : Config) (resolves : Str → Bool) (st : State) (u : Bool)
    (h : setupGanglia cfg resolves = .ok u) :
    submit cfg resolves st =
      .ok (⟨u, (submitCounters cfg st.counters.entries st.counters).1 ++
              st.timers.entries.map (fun nt => submitTimer nt.1 nt.2)⟩,
           { st with counters := (submitCounters cfg st.counters.entries st.counters).2 }) := by
  simp only [submit, h]

theorem submit_inv (cfg : Config) (resolves : Str → Bool) (st st1 : State) (fl : Flush)
    (h : submit cfg resolves st = .ok (fl, st1)) :
    fl.calls = (submitCounters cfg st.counters.entries st.counters).1 ++
        st.timers.entries.map (fun nt => submitTimer nt.1 nt.2) ∧
      st1.counters = (submitCounters cfg st.counters.entries st.counters).2 ∧
      st1.timers = st.timers := by
  unfold submit at h
  cases hs : setupGanglia cfg resolves with
  | error e => rw [hs] at h; cases h
  | ok u =>
    rw [hs] at h
    simp only [Except.ok.injEq, Prod.mk.injEq] at h
    obtain ⟨h1, h2⟩ := h
    subst h1 h2
    exact ⟨rfl, rfl, rfl⟩

theorem submit_counters_get? (cfg : Config) (resolves : Str → Bool) (st st1 : State)
    (fl : Flush) (h : submit cfg resolves st = .ok (fl, st1)) (b : Str) :
    st1.counters.get? b = (st.counters.get? b).map (fun _ => 0) := by
  rw [(submit_inv cfg resolves st st1 fl h).2.1, submitCounters_get?]
  by_cases hb : b ∈ st.counters.entries.map Prod.fst
  · rw [if_pos hb]
    cases hg : st.counters.get? b with
    | none => exact absurd hb ((GoMap.get?_eq_none _ _).mp hg)
    | some v => rfl
  · rw [if_neg hb, (GoMap.get?_eq_none _ _).mpr hb]
    rfl

theorem submitTimer_name (e : Str × List Flt) :
    (submitTimer e.1 e.2).name = "avg_".toList ++ e.1 := by
  unfold submitTimer
  split <;> rfl

/-- A packet that is not a counter update for bucket `b` leaves `counters[b]`
as it is. -/
theorem applyPacket_counters_get? (P : Platform) (st : State) (s : Packet) (b : Str)
    (h : s.Modifier = ['m', 's'] ∨ s.Modifier = ['g'] ∨ s.Bucket ≠ b) :
    (applyPacket P st s).counters.get? b = st.counters.get? b := by
  unfold applyPacket
  by_cases hms : s.Modifier = ['m', 's']
  · simp only [hms, if_true]
  · by_cases hg : s.Modifier = ['g']
    · rw [if_neg hms, if_pos hg]
    · have hb : b ≠ s.Bucket := by
        rcases h with h | h | h
        · exact absurd h hms
        · exact absurd h hg
        · exact fun e => h e.symm
      simp only [hms, hg, if_false]
      rw [GoMap.get?_set_ne _ _ _ _ hb]
      cases hc : st.counters.get? s.Bucket with
      | none => exact GoMap.get?_set_ne _ _ _ _ hb
      | some v => rfl

/-- The `float32` product whose integer part the counter branch adds. -/
theorem applyPacket_counter (P : Platform) (st : State) (s : Packet)
    (hms : s.Modifier ≠ ['m', 's']) (hg : s.Modifier ≠ ['g']) :
    (applyPacket P st s).counters.get? s.Bucket =
      some (wrapInt64 (st.counters.getD s.Bucket 0 +
        Flt.toInt P (Flt.mul binary32 (Flt.convert binary32 (parseFloat binary32 s.Value).1)
          (Flt.div binary32 Flt.one s.Sampling)))) := by
  unfold applyPacket
  rw [if_neg hms, if_neg hg]
  simp only [GoMap.get?_set_self, Option.some.injEq]
  cases hc : st.counters.get? s.Bucket with
  | none => simp only [GoMap.getD, GoMap.get?_set_self, hc, Option.getD_some, Option.getD_none]
  | some v => simp only [GoMap.getD, hc, Option.getD_some]

/-- When the conversion to `int` is defined by the language, the platform
plays no role. -/
theorem Flt.toInt_platform (P Q : Platform) (x : Flt) (v : Int) (h : x.truncate? = some v) :
    x.toInt P = x.toInt Q := by
  simp only [Flt.toInt, h]

theorem applyPacket_platform (P Q : Platform) (st : State) (s : Packet) (v : Int)
    (h : (Flt.mul binary32 (Flt.convert binary32 (parseFloat binary32 s.Value).1)
      (Flt.div binary32 Flt.one s.Sampling)).truncate? = some v) :
    applyPacket P st s = applyPacket Q st s := by
  simp only [applyPacket, Flt.toInt_platform P Q _ v h]

theorem applyPacket_platform_timer (P Q : Platform) (st : State) (s : Packet)
    (h : s.Modifier = ['m', 's']) : applyPacket P st s = applyPacket Q st s := by
  simp only [applyPacket, h, if_true]

theorem run_cons (cfg : Config) (P : Platform) (st : State) (ev : Event) (rest : List Event) :
    run cfg P st (ev :: rest) =
      match monitorStep cfg P st ev with
      | .error e => .error e
      | .ok r =>
        match run cfg P r.2 rest with
        | .error e => .error e
        | .ok r2 => .ok (r.1 ++ r2.1, r2.2) := rfl

/-- Events that are not counter updates for bucket `b` keep `counters[b]` at
zero. -/
theorem run_keeps_zero (cfg : Config) (P : Platform) (b : Str) (evs : List Event) :
    ∀ (st st2 : State) (fls : List Flush),
      st.counters.get? b = some 0 →
      (∀ s, Event.packet s ∈ evs → s.Modifier = ['m', 's'] ∨ s.Modifier = ['g'] ∨ s.Bucket ≠ b) →
      run cfg P st evs = .ok (fls, st2) → st2.counters.get? b = some 0 := by
  induction evs with
  | nil =>
    intro st st2 fls h0 _ hrun
    simp only [run, Except.ok.injEq, Prod.mk.injEq] at hrun
    rw [← hrun.2]; exact h0
  | cons ev rest ih =>
    intro st st2 fls h0 hev hrun
    rw [run_cons] at hrun
    cases hstep : monitorStep cfg P st ev with
    | error e => rw [hstep] at hrun; cases hrun
    | ok r =>
      rw [hstep] at hrun
      dsimp only at hrun
      cases hrest : run cfg P r.2 rest with
      | error e => rw [hrest] at hrun; cases hrun
      | ok r2 =>
        rw [hrest] at hrun
        simp only [Except.ok.injEq, Prod.mk.injEq] at hrun
        have hr : r.2.counters.get? b = some 0 := by
          cases ev with
          | tick resolves =>
            simp only [monitorStep] at hstep
            cases hsub : submit cfg resolves st with
            | error e => rw [hsub] at hstep; cases hstep
            | ok x =>
              rw [hsub] at hstep
              simp only [Except.ok.injEq] at hstep
              rw [← hstep]
              rw [submit_counters_get? cfg resolves st x.2 x.1 hsub b, h0]
              rfl
          | packet s =>
            simp only [monitorStep, Except.ok.injEq] at hstep
            rw [← hstep]
            rw [applyPacket_counters_get? P st s b (hev s (List.mem_cons_self _ _))]
            exact h0
        rw [← hrun.2]
        exact ih r.2 r2.2 r2.1 hr (fun s hs => hev s (List.mem_cons_of_mem _ hs)) hrest

/-! ## Truncation -/

/-- The magnitude kept by truncation is the integer part of the exact value. -/
theorem truncMag_eq_floor (m : Nat) (e : Int) :
    (((if 0 ≤ e then m * 2 ^ e.toNat else m / 2 ^ (-e).toNat : Nat) : Nat) : Int) =
      ⌊(m : ℚ) * (2 : ℚ) ^ e⌋ := by
  by_cases he : 0 ≤ e
  · rw [if_pos he]
    obtain ⟨k, rfl⟩ := Int.eq_ofNat_of_zero_le he
    have : (m : ℚ) * (2 : ℚ) ^ (k : ℤ) = ((m * 2 ^ k : ℕ) : ℚ) := by
      push_cast; rw [zpow_natCast]
    rw [this, Int.floor_natCast, Int.toNat_ofNat]
  · rw [if_neg he]
    have hk : e = -(((-e).toNat : ℕ) : ℤ) := by omega
    generalize (-e).toNat = k at hk ⊢
    subst hk
    have : (m : ℚ) * (2 : ℚ) ^ (-(k : ℤ)) = (m : ℚ) / ((2 ^ k : ℕ) : ℚ) := by
      rw [zpow_neg, zpow_natCast]; push_cast; rfl
    rw [this, Rat.floor_natCast_div_natCast]
    norm_cast

theorem Flt.truncate?_of_toRat? (x : Flt) (q : ℚ) (hq : x.toRat? = some q)
    (h1 : -(2 ^ 63) ≤ q) (h2 : q < 2 ^ 63) :
    x.truncate? = some (if 0 ≤ q then ⌊q⌋ else ⌈q⌉) := by
  cases x with
  | inf s => simp [Flt.toRat?] at hq
  | nan => simp [Flt.toRat?] at hq
  | fin neg m e =>
    simp only [Flt.toRat?, Option.some.injEq] at hq
    have ha : (0 : ℚ) ≤ (m : ℚ) * (2 : ℚ) ^ e := by positivity
    have hmag := truncMag_eq_floor m e
    cases neg with
    | false =>
      have hq2 : q = (m : ℚ) * (2 : ℚ) ^ e := by rw [← hq]; simp
      have h0 : 0 ≤ q := hq2 ▸ ha
      have hv : ⌊q⌋ < 2 ^ 63 := by
        have := Int.floor_le q
        exact_mod_cast lt_of_le_of_lt this h2
      have hv0 : 0 ≤ ⌊q⌋ := Int.floor_nonneg.mpr h0
      simp only [Flt.truncate?, Bool.false_eq_true, if_false, hmag, ← hq2, h0, if_true]
      rw [if_pos ⟨by omega, hv⟩]
    | true =>
      have hq2 : q = -((m : ℚ) * (2 : ℚ) ^ e) := by rw [← hq]; simp
      have hc : ⌈q⌉ = -⌊(m : ℚ) * (2 : ℚ) ^ e⌋ := by rw [hq2, Int.ceil_neg]
      have hlo : -(2 ^ 63) ≤ ⌈q⌉ := by
        have := Int.le_ceil q
        exact_mod_cast le_trans h1 this
      have hhi : ⌈q⌉ ≤ 0 := by
        rw [hc]; simpa using Int.floor_nonneg.mpr ha
      simp only [Flt.truncate?, if_true, hmag, ← hc]
      rw [if_pos ⟨hlo, by omega⟩]
      by_cases h0 : 0 ≤ q
      · rw [if_pos h0]
        have hq0 : q = 0 := le_antisymm (by rw [hq2]; linarith) h0
        rw [hq0]; simp
      · rw [if_neg h0]

/-! ## Lemmas on the matcher -/

theorem exec_cls_cons (p : Char → Bool) (x : Char) (t : Str) (c : Caps)
    (k : Str → Caps → MatchResult) :
    (Re.cls p).exec (x :: t) c k = if p x then k t c else none := rfl

theorem exec_chr_cons (ch x : Char) (t : Str) (c : Caps) (k : Str → Caps → MatchResult) :
    (Re.chr ch).exec (x :: t) c k = if x = ch then k t c else none := rfl

theorem exec_seq (a b : Re) (s : Str) (c : Caps) (k : Str → Caps → MatchResult) :
    (Re.seq a b).exec s c k = a.exec s c (fun s1 c1 => b.exec s1 c1 k) := rfl

theorem exec_group (i : Nat) (a : Re) (s : Str) (c : Caps) (k : Str → Caps → MatchResult) :
    (Re.group i a).exec s c k =
      a.exec s c (fun s1 c1 => k s1 (c1.set i (s.take (s.length - s1.length)))) := rfl

/-- A greedy run over a character class takes the whole run `r` when the
continuation accepts the rest, and also when the continuation can accept no
text that starts inside the run. -/
theorem plusLoop_cls (p : Char → Bool) (k : Str → Caps → MatchResult) (c : Caps) (rest : Str)
    (hrest : ∀ x t, rest = x :: t → p x = false)
    (hk : (k rest c).isSome ∨ ∀ x t, p x = true → k (x :: t) c = none) :
    ∀ (r : Str) (n : Nat), r ≠ [] → (∀ x ∈ r, p x = true) → r.length ≤ n →
      plusLoop (Re.cls p).exec n (r ++ rest) c k = k rest c := by
  have hstop : ∀ n, plusLoop (Re.cls p).exec n rest c k = none := by
    intro n
    cases n with
    | zero => rfl
    | succ n =>
      cases hr : rest with
      | nil => rfl
      | cons x t =>
        simp only [plusLoop, exec_cls_cons, hrest x t hr, Bool.false_eq_true, if_false]
  intro r
  induction r with
  | nil => intro n h; exact absurd rfl h
  | cons x r ih =>
    intro n _ hall hn
    cases n with
    | zero => simp at hn
    | succ n =>
      have hx : p x = true := hall x (List.mem_cons_self _ _)
      simp only [plusLoop, List.cons_append, exec_cls_cons, hx, if_true, List.length_cons,
        Nat.lt_succ_self]
      cases r with
      | nil =>
        simp only [List.nil_append, hstop, Option.orElse]
      | cons y r2 =>
        have hall2 : ∀ z ∈ y :: r2, p z = true := fun z hz => hall z (List.mem_cons_of_mem _ hz)
        rw [ih n (by simp) hall2 (by simpa using hn)]
        rcases hk with hk | hk
        · cases hres : k rest c with
          | none => rw [hres] at hk; cases hk
          | some v => rfl
        · cases hres : k rest c with
          | none =>
            simp only [Option.orElse, List.cons_append]
            exact hk y _ (hall2 y (List.mem_cons_self _ _))
          | some v => rfl

theorem exec_plus_cls (p : Char → Bool) (k : Str → Caps → MatchResult) (c : Caps) (r rest : Str)
    (hr : r ≠ []) (hall : ∀ x ∈ r, p x = true)
    (hrest : ∀ x t, rest = x :: t → p x = false)
    (hk : (k rest c).isSome ∨ ∀ x t, p x = true → k (x :: t) c = none) :
    (Re.plus (Re.cls p)).exec (r ++ rest) c k = k rest c := by
  show plusLoop (Re.cls p).exec ((r ++ rest).length + 1) (r ++ rest) c k = k rest c
  exact plusLoop_cls p k c rest hrest hk r _ hr hall (by simp; omega)

/-- A run over a class cannot start on a character outside the class. -/
theorem exec_plus_cls_none (p : Char → Bool) (k : Str → Caps → MatchResult) (c : Caps)
    (s : Str) (hs : ∀ x t, s = x :: t → p x = false) :
    (Re.plus (Re.cls p)).exec s c k = none := by
  show plusLoop (Re.cls p).exec (s.length + 1) s c k = none
  cases hr : s with
  | nil => rfl
  | cons x t =>
    simp only [plusLoop, exec_cls_cons, hs x t hr, Bool.false_eq_true, if_false]

theorem take_length_sub (r rest : Str) :
    (r ++ rest).take ((r ++ rest).length - rest.length) = r := by
  rw [List.length_append, Nat.add_sub_cancel, List.take_left']
  rfl

theorem exec_opt (a : Re) (s : Str) (c : Caps) (k : Str → Caps → MatchResult) :
    (Re.opt a).exec s c k = (a.exec s c k).orElse (fun _ => k s c) := rfl

theorem exec_alt (a b : Re) (s : Str) (c : Caps) (k : Str → Caps → MatchResult) :
    (Re.alt a b).exec s c k = (a.exec s c k).orElse (fun _ => b.exec s c k) := rfl

theorem orElse_none_right {α : Type} (o : Option α) : o.orElse (fun _ => none) = o := by
  cases o <;> rfl

theorem none_orElse {α : Type} (f : Unit → Option α) : (none : Option α).orElse f = f () := rfl

theorem isValueChar_minus : isValueChar '-' = false := by decide

theorem exec_bucketGroup (b rest : Str) (c : Caps) (k : Str → Caps → MatchResult)
    (hb : b ≠ []) (hall : ∀ x ∈ b, isBucketChar x = true)
    (hrest : ∀ x t, rest = x :: t → isBucketChar x = false)
    (hk : ∀ x t c1, isBucketChar x = true → k (x :: t) c1 = none) :
    bucketGroup.exec (b ++ rest) c k = k rest (c.set 1 b) := by
  unfold bucketGroup
  rw [exec_group]
  rw [exec_plus_cls isBucketChar
    (fun s1 c1 => k s1 (c1.set 1 (List.take ((b ++ rest).length - s1.length) (b ++ rest))))
    c b rest hb hall hrest (Or.inr (fun x t hx => hk x t _ hx)), take_length_sub]

theorem exec_valueGroup (minus : Bool) (d rest : Str) (c : Caps)
    (k : Str → Caps → MatchResult)
    (hd : d ≠ []) (hall : ∀ x ∈ d, isValueChar x = true)
    (hrest : ∀ x t, rest = x :: t → isValueChar x = false)
    (hk : ∀ x t c1, isValueChar x = true → k (x :: t) c1 = none) :
    valueGroup.exec ((if minus then ['-'] else []) ++ d ++ rest) c k =
      k rest (c.set 2 ((if minus then ['-'] else []) ++ d)) := by
  unfold valueGroup
  rw [exec_group, exec_seq, exec_opt]
  cases minus with
  | true =>
    simp only [if_true, List.cons_append, List.nil_append, exec_chr_cons]
    rw [exec_plus_cls_none isValueChar _ c ('-' :: (d ++ rest))
      (fun x t h => by cases h; exact isValueChar_minus), orElse_none_right]
    rw [exec_plus_cls isValueChar
      (fun s1 c1 => k s1 (c1.set 2
        (List.take (('-' :: (d ++ rest)).length - s1.length) ('-' :: (d ++ rest)))))
      c d rest hd hall hrest (Or.inr (fun x t hx => hk x t _ hx))]
    have := take_length_sub ('-' :: d) rest
    simp only [List.cons_append] at this
    rw [this]
  | false =>
    simp only [Bool.false_eq_true, if_false, List.nil_append]
    obtain ⟨x, d2, rfl⟩ := List.exists_cons_of_ne_nil hd
    have hx : isValueChar x = true := hall x (List.mem_cons_self _ _)
    have hne : ¬ x = '-' := by
      intro h; rw [h, isValueChar_minus] at hx; cases hx
    rw [List.cons_append, exec_chr_cons, if_neg hne, none_orElse, ← List.cons_append]
    rw [exec_plus_cls isValueChar
      (fun s1 c1 => k s1 (c1.set 2
        (List.take ((x :: d2 ++ rest).length - s1.length) (x :: d2 ++ rest))))
      c (x :: d2) rest hd hall hrest (Or.inr (fun x t hx => hk x t _ hx)), take_length_sub]

theorem exec_kindGroup (kind rest : Str) (c : Caps) (k : Str → Caps → MatchResult)
    (hkind : kind = ['c'] ∨ kind = ['m', 's'] ∨ kind = ['g']) :
    kindGroup.exec (kind ++ rest) c k = k rest (c.set 3 kind) := by
  unfold kindGroup
  rw [exec_group, exec_alt, exec_alt, exec_seq]
  rcases hkind with h | h | h <;> subst h
  · simp only [List.cons_append, List.nil_append, exec_chr_cons, if_true,
      show ¬ ('c' = 'm') from by decide, show ¬ ('c' = 'g') from by decide, if_false,
      orElse_none_right]
    have := take_length_sub ['c'] rest
    simp only [List.cons_append, List.nil_append] at this
    rw [this]
  · simp only [List.cons_append, List.nil_append, exec_chr_cons, if_true,
      show ¬ ('m' = 'c') from by decide, show ¬ ('m' = 'g') from by decide, if_false,
      orElse_none_right, none_orElse]
    have := take_length_sub ['m', 's'] rest
    simp only [List.cons_append, List.nil_append] at this
    rw [this]
  · simp only [List.cons_append, List.nil_append, exec_chr_cons, if_true,
      show ¬ ('g' = 'c') from by decide, show ¬ ('g' = 'm') from by decide, if_false,
      none_orElse]
    have := take_length_sub ['g'] rest
    simp only [List.cons_append, List.nil_append] at this
    rw [this]

theorem exec_opt_rateGroup_some (r tail : Str) (c : Caps) (k : Str → Caps → MatchResult)
    (hr : r ≠ []) (hall : ∀ x ∈ r, isValueChar x = true)
    (htail : ∀ x t, tail = x :: t → isValueChar x = false)
    (hk : (k tail ((c.set 5 r).set 4 ('|' :: '@' :: r))).isSome) :
    (Re.opt rateGroup).exec ('|' :: '@' :: (r ++ tail)) c k =
      k tail ((c.set 5 r).set 4 ('|' :: '@' :: r)) := by
  have e4 : List.take (('|' :: '@' :: (r ++ tail)).length - tail.length)
      ('|' :: '@' :: (r ++ tail)) = '|' :: '@' :: r := by
    have := take_length_sub ('|' :: '@' :: r) tail
    simpa only [List.cons_append] using this
  have key := exec_plus_cls isValueChar
    (fun s2 c2 => k s2 ((c2.set 5 (List.take ((r ++ tail).length - s2.length) (r ++ tail))).set 4
      (List.take (('|' :: '@' :: (r ++ tail)).length - s2.length) ('|' :: '@' :: (r ++ tail)))))
    c r tail hr hall htail (Or.inl (by beta_reduce; rw [take_length_sub, e4]; exact hk))
  beta_reduce at key
  rw [take_length_sub, e4] at key
  rw [exec_opt]
  unfold rateGroup
  rw [exec_group, exec_seq, exec_chr_cons, if_pos rfl, exec_seq, exec_chr_cons, if_pos rfl,
    exec_group, key]
  cases hres : k tail ((c.set 5 r).set 4 ('|' :: '@' :: r)) with
  | none => rw [hres] at hk; cases hk
  | some v => rfl

theorem exec_rateGroup_none (tail : Str) (c : Caps) (k : Str → Caps → MatchResult)
    (htail : ∀ x t, tail = '|' :: '@' :: x :: t → isValueChar x = false) :
    rateGroup.exec tail c k = none := by
  unfold rateGroup
  rw [exec_group, exec_seq]
  cases tail with
  | nil => rfl
  | cons x t =>
    rw [exec_chr_cons]
    by_cases hx : x = '|'
    · subst hx
      rw [if_pos rfl, exec_seq]
      cases t with
      | nil => rfl
      | cons y t2 =>
        rw [exec_chr_cons]
        by_cases hy : y = '@'
        · subst hy
          rw [if_pos rfl, exec_group]
          exact exec_plus_cls_none isValueChar _ _ t2
            (fun z t3 h => htail z t3 (by rw [h]))
        · rw [if_neg hy]
    · rw [if_neg hx]

theorem exec_opt_rateGroup_none (tail : Str) (c : Caps) (k : Str → Caps → MatchResult)
    (htail : ∀ x t, tail = '|' :: '@' :: x :: t → isValueChar x = false) :
    (Re.opt rateGroup).exec tail c k = k tail c := by
  rw [exec_opt, exec_rateGroup_none tail c k htail, none_orElse]

theorem Encoding.valid_iff (e : Encoding) :
    e.valid = true ↔
      e.bucket ≠ [] ∧ (∀ x ∈ e.bucket, isBucketChar x = true) ∧
      e.digits ≠ [] ∧ (∀ x ∈ e.digits, isValueChar x = true) ∧
      (e.kind = ['c'] ∨ e.kind = ['m', 's'] ∨ e.kind = ['g']) ∧
      (∀ r, e.rate = some r → r ≠ [] ∧ ∀ x ∈ r, isValueChar x = true) := by
  unfold Encoding.valid
  cases hr : e.rate with
  | none =>
    simp only [Bool.and_eq_true, Bool.not_eq_true', List.isEmpty_eq_false, List.all_eq_true,
      Bool.or_eq_true, beq_iff_eq, and_true, ne_eq, reduceCtorEq, false_implies, implies_true,
      and_assoc, or_assoc]
  | some r =>
    simp only [Bool.and_eq_true, Bool.not_eq_true', List.isEmpty_eq_false, List.all_eq_true,
      Bool.or_eq_true, beq_iff_eq, ne_eq, Option.some.injEq, forall_eq', and_assoc, or_assoc]

theorem isBucketChar_colon : isBucketChar ':' = false := by decide

theorem isValueChar_bar : isValueChar '|' = false := by decide

/-- On an encoding followed by a delimiting tail, the pattern consumes exactly
the encoding and records its parts. -/
theorem exec_packetRegexp (e : Encoding) (tail : Str) (c : Caps)
    (k : Str → Caps → MatchResult) (hv : e.valid = true) (htail : e.delimitedBy tail)
    (hk : ∀ c1, (k tail c1).isSome) :
    packetRegexp.exec (e.text ++ tail) c k = k tail (e.groups c) := by
  obtain ⟨hb, hball, hd, hdall, hkind, hrate⟩ := (Encoding.valid_iff e).mp hv
  unfold packetRegexp
  have htext : e.text ++ tail =
      e.bucket ++ (':' :: ((if e.minus then ['-'] else []) ++ e.digits ++
        ('|' :: (e.kind ++ (e.rateText ++ tail))))) := by
    simp only [Encoding.text, Encoding.value, List.append_assoc, List.cons_append]
  rw [htext, exec_seq]
  rw [exec_bucketGroup e.bucket _ c _ hb hball
    (fun x t h => by cases h; exact isBucketChar_colon)
    (fun x t c1 hx => by
      rw [exec_seq, exec_chr_cons, if_neg]
      intro h; rw [h, isBucketChar_colon] at hx; cases hx)]
  rw [exec_seq, exec_chr_cons, if_pos rfl, exec_seq]
  rw [exec_valueGroup e.minus e.digits _ _ _ hd hdall
    (fun x t h => by cases h; exact isValueChar_bar)
    (fun x t c1 hx => by
      rw [exec_seq, exec_chr_cons, if_neg]
      intro h; rw [h, isValueChar_bar] at hx; cases hx)]
  rw [exec_seq, exec_chr_cons, if_pos rfl, exec_seq, exec_kindGroup e.kind _ _ _ hkind]
  unfold Encoding.groups Encoding.value
  unfold Encoding.delimitedBy at htail
  cases hr : e.rate with
  | none =>
    rw [hr] at htail
    simp only [Encoding.rateText, hr, List.nil_append]
    exact exec_opt_rateGroup_none tail _ k htail
  | some r =>
    rw [hr] at htail
    simp only [Encoding.rateText, hr, List.cons_append]
    exact exec_opt_rateGroup_some r tail _ k (hrate r hr).1 (hrate r hr).2 htail (hk _)

theorem matchAt_encoding (e : Encoding) (tail : Str) (hv : e.valid = true)
    (htail : e.delimitedBy tail) :
    packetRegexp.matchAt (e.text ++ tail) = some (e.caps, tail) := by
  unfold Re.matchAt
  rw [exec_group, exec_packetRegexp e tail Caps.none
    (fun s1 c1 => some (c1.set 0 (List.take ((e.text ++ tail).length - s1.length)
      (e.text ++ tail)), s1)) hv htail (fun _ => rfl), take_length_sub]
  rfl

theorem matchAt_nil : packetRegexp.matchAt [] = none := rfl

theorem Encoding.text_ne_nil (e : Encoding) (hv : e.valid = true) : e.text ≠ [] := by
  obtain ⟨hb, -⟩ := (Encoding.valid_iff e).mp hv
  obtain ⟨x, t, hx⟩ := List.exists_cons_of_ne_nil hb
  simp [Encoding.text, hx]

theorem find_encoding (e : Encoding) (tail : Str) (hv : e.valid = true)
    (htail : e.delimitedBy tail) :
    packetRegexp.find (e.text ++ tail) = some ([], e.caps, tail) := by
  obtain ⟨x, t, hx⟩ := List.exists_cons_of_ne_nil (Encoding.text_ne_nil e hv)
  have h := matchAt_encoding e tail hv htail
  rw [hx, List.cons_append] at h ⊢
  simp only [Re.find, h]

theorem findAllFuel_nil (n : Nat) : packetRegexp.findAllFuel n [] = [] := by
  cases n with
  | zero => rfl
  | succ n => simp only [Re.findAllFuel, Re.find, matchAt_nil, Option.map_none']

theorem findAllFuel_encoding (e : Encoding) (tail : Str) (n : Nat) (hv : e.valid = true)
    (htail : e.delimitedBy tail) :
    packetRegexp.findAllFuel (n + 1) (e.text ++ tail) =
      e.caps :: packetRegexp.findAllFuel n tail := by
  have hlen : tail.length < (e.text ++ tail).length := by
    have := List.length_pos.mpr (Encoding.text_ne_nil e hv)
    rw [List.length_append]; omega
  simp only [Re.findAllFuel, find_encoding e tail hv htail, hlen, if_true]

theorem delimitedBy_nil (e : Encoding) : e.delimitedBy [] := by
  unfold Encoding.delimitedBy
  cases e.rate with
  | none => intro x t h; cases h
  | some r => intro x t h; cases h

theorem findAll_encoding (e : Encoding) (hv : e.valid = true) :
    packetRegexp.findAllStringSubmatch e.text = [e.caps] := by
  unfold Re.findAllStringSubmatch
  have h := findAllFuel_encoding e [] e.text.length hv (delimitedBy_nil e)
  rw [List.append_nil] at h
  rw [h, findAllFuel_nil]

theorem findAll_two_encodings (e1 e2 : Encoding) (h1 : e1.valid = true) (h2 : e2.valid = true)
    (hsep : e1.delimitedBy e2.text) :
    packetRegexp.findAllStringSubmatch (e1.text ++ e2.text) = [e1.caps, e2.caps] := by
  unfold Re.findAllStringSubmatch
  rw [findAllFuel_encoding e1 e2.text _ h1 hsep]
  have hpos : 0 < (e1.text ++ e2.text).length := by
    have := List.length_pos.mpr (Encoding.text_ne_nil e1 h1)
    rw [List.length_append]; omega
  obtain ⟨n, hn⟩ := Nat.exists_eq_succ_of_ne_zero (Nat.pos_iff_ne_zero.mp hpos)
  rw [hn]
  have h := findAllFuel_encoding e2 [] n h2 (delimitedBy_nil e2)
  rw [List.append_nil] at h
  rw [h, findAllFuel_nil]

theorem orElse_eq_some {α : Type} (a : Option α) (b : Unit → Option α) (r : α)
    (h : a.orElse b = some r) : a = some r ∨ b () = some r := by
  cases a with
  | none => exact Or.inr h
  | some v => exact Or.inl h

theorem plusLoop_sound (m : Str → Caps → (Str → Caps → MatchResult) → MatchResult)
    (R : Str → Caps → Caps → Prop)
    (hm : ∀ s c k r, m s c k = some r → ∃ w s1 c1, s = w ++ s1 ∧ R w c c1 ∧ k s1 c1 = some r) :
    ∀ (n : Nat) (s : Str) (c : Caps) (k : Str → Caps → MatchResult) (r : Caps × Str),
      plusLoop m n s c k = some r →
        ∃ w s1 c1, s = w ++ s1 ∧ Iter R w c c1 ∧ k s1 c1 = some r := by
  intro n
  induction n with
  | zero => intro s c k r h; cases h
  | succ n ih =>
    intro s c k r h
    unfold plusLoop at h
    obtain ⟨w, s1, c1, hs, hR, hk⟩ := hm s c _ r h
    by_cases hlt : s1.length < s.length
    · rw [if_pos hlt] at hk
      rcases orElse_eq_some _ _ _ hk with h1 | h1
      · obtain ⟨w2, s2, c2, hs2, hI, hk2⟩ := ih s1 c1 k r h1
        refine ⟨w ++ w2, s2, c2, ?_, Iter.more w w2 c c1 c2 hR hI, hk2⟩
        rw [hs, hs2, List.append_assoc]
      · exact ⟨w, s1, c1, hs, Iter.one w c c1 hR, h1⟩
    · rw [if_neg hlt] at hk
      exact ⟨w, s1, c1, hs, Iter.one w c c1 hR, hk⟩

/-- Soundness of the matcher: a successful run consumed a text of the
language and handed the rest to the continuation. -/
theorem exec_sound (re : Re) :
    ∀ (s : Str) (c : Caps) (k : Str → Caps → MatchResult) (r : Caps × Str),
      re.exec s c k = some r →
        ∃ w s1 c1, s = w ++ s1 ∧ re.Matches w c c1 ∧ k s1 c1 = some r := by
  induction re with
  | chr ch =>
    intro s c k r h
    cases s with
    | nil => cases h
    | cons x t =>
      simp only [Re.exec] at h
      by_cases hx : x = ch
      · rw [if_pos hx] at h
        exact ⟨[ch], t, c, by rw [hx]; rfl, ⟨rfl, rfl⟩, h⟩
      · rw [if_neg hx] at h; cases h
  | cls p =>
    intro s c k r h
    cases s with
    | nil => cases h
    | cons x t =>
      simp only [Re.exec] at h
      by_cases hx : p x = true
      · rw [if_pos hx] at h
        exact ⟨[x], t, c, rfl, ⟨x, hx, rfl, rfl⟩, h⟩
      · rw [if_neg hx] at h; cases h
  | seq a b iha ihb =>
    intro s c k r h
    simp only [Re.exec] at h
    obtain ⟨w1, s1, c1, hs1, hm1, hk1⟩ := iha s c _ r h
    obtain ⟨w2, s2, c2, hs2, hm2, hk2⟩ := ihb s1 c1 k r hk1
    exact ⟨w1 ++ w2, s2, c2, by rw [hs1, hs2, List.append_assoc], ⟨w1, w2, c1, rfl, hm1, hm2⟩, hk2⟩
  | alt a b iha ihb =>
    intro s c k r h
    simp only [Re.exec] at h
    rcases orElse_eq_some _ _ _ h with h1 | h1
    · obtain ⟨w, s1, c1, hs, hm, hk⟩ := iha s c k r h1
      exact ⟨w, s1, c1, hs, Or.inl hm, hk⟩
    · obtain ⟨w, s1, c1, hs, hm, hk⟩ := ihb s c k r h1
      exact ⟨w, s1, c1, hs, Or.inr hm, hk⟩
  | opt a iha =>
    intro s c k r h
    simp only [Re.exec] at h
    rcases orElse_eq_some _ _ _ h with h1 | h1
    · obtain ⟨w, s1, c1, hs, hm, hk⟩ := iha s c k r h1
      exact ⟨w, s1, c1, hs, Or.inl hm, hk⟩
    · exact ⟨[], s, c, rfl, Or.inr ⟨rfl, rfl⟩, h1⟩
  | plus a iha =>
    intro s c k r h
    simp only [Re.exec] at h
    exact plusLoop_sound a.exec a.Matches iha _ s c k r h
  | group i a iha =>
    intro s c k r h
    simp only [Re.exec] at h
    obtain ⟨w, s1, c1, hs, hm, hk⟩ := iha s c _ r h
    rw [hs, take_length_sub] at hk
    exact ⟨w, s1, c1.set i w, hs, ⟨c1, hm, rfl⟩, hk⟩

theorem iter_cls (p : Char → Bool) (w : Str) (c c1 : Caps)
    (h : Iter (Re.cls p).Matches w c c1) :
    w ≠ [] ∧ (∀ x ∈ w, p x = true) ∧ c1 = c := by
  induction h with
  | one w c c1 h =>
    obtain ⟨x, hx, hw, hc⟩ := h
    subst hw
    refine ⟨List.cons_ne_nil _ _, ?_, hc⟩
    intro y hy
    rw [List.mem_singleton] at hy
    rw [hy]; exact hx
  | more w1 w2 c c2 c1 h _ ih =>
    obtain ⟨x, hx, hw, hc⟩ := h
    obtain ⟨_, hall, hc1⟩ := ih
    subst hw
    refine ⟨List.cons_ne_nil _ _, ?_, by rw [hc1, hc]⟩
    intro y hy
    rcases List.mem_cons.mp hy with rfl | hy
    · exact hx
    · exact hall y hy

/-- Every text the packet pattern matches is a valid encoding, and the
captures are those of the encoding. -/
theorem matches_packetRegexp (w : Str) (c c1 : Caps) (h : packetRegexp.Matches w c c1) :
    ∃ e : Encoding, e.valid = true ∧ w = e.text ∧ c1 = e.groups c := by
  simp only [packetRegexp, bucketGroup, valueGroup, kindGroup, rateGroup, Re.Matches] at h
  obtain ⟨wb, w1, cb, rfl, ⟨cb0, hb, rfl⟩, wc, w2, cc, rfl, ⟨rfl, rfl⟩, wv, w3, cv, rfl,
    ⟨cv0, ⟨wm, wd, cm, rfl, hminus, hd⟩, rfl⟩, wbar, w4, cbar, rfl, ⟨rfl, rfl⟩,
    wk, wr, ck, rfl, ⟨ck0, hk, rfl⟩, hr⟩ := h
  obtain ⟨hb1, hb2, rfl⟩ := iter_cls _ _ _ _ hb
  obtain ⟨hd1, hd2, rfl⟩ := iter_cls _ _ _ _ hd
  have hm : ∃ b : Bool, wm = (if b = true then ['-'] else []) ∧ cv0 = cb0.set 1 wb := by
    rcases hminus with ⟨h1, h2⟩ | ⟨h1, h2⟩
    · exact ⟨true, h1, h2⟩
    · exact ⟨false, h1, h2⟩
  obtain ⟨b, rfl, rfl⟩ := hm
  have hkind : (wk = ['c'] ∨ wk = ['m', 's'] ∨ wk = ['g']) ∧
      ck0 = (cb0.set 1 wb).set 2 ((if b = true then ['-'] else []) ++ wd) := by
    rcases hk with ⟨h1, h2⟩ | ⟨w1, w2, c2, h1, ⟨h2, h3⟩, h4, h5⟩ | ⟨h1, h2⟩
    · exact ⟨Or.inl h1, h2⟩
    · subst h2 h3 h4 h5
      exact ⟨Or.inr (Or.inl h1), rfl⟩
    · exact ⟨Or.inr (Or.inr h1), h2⟩
  obtain ⟨hk1, rfl⟩ := hkind
  rcases hr with ⟨c2, ⟨w1, w2, c3, rfl, ⟨rfl, rfl⟩, w3, r, c4, rfl, ⟨rfl, rfl⟩, c5, hi, rfl⟩, rfl⟩ |
    ⟨rfl, rfl⟩
  · obtain ⟨hr1, hr2, rfl⟩ := iter_cls _ _ _ _ hi
    refine ⟨⟨wb, b, wd, wk, some r⟩, ?_, ?_, ?_⟩
    · rw [Encoding.valid_iff]
      refine ⟨hb1, hb2, hd1, hd2, hk1, ?_⟩
      intro r1 h1
      cases h1
      exact ⟨hr1, hr2⟩
    · simp only [Encoding.text, Encoding.value, Encoding.rateText, List.cons_append,
        List.nil_append, List.append_assoc]
    · rfl
  · refine ⟨⟨wb, b, wd, wk, none⟩, ?_, ?_, ?_⟩
    · rw [Encoding.valid_iff]
      refine ⟨hb1, hb2, hd1, hd2, hk1, ?_⟩
      intro r1 h1
      cases h1
    · simp only [Encoding.text, Encoding.value, Encoding.rateText, List.cons_append,
        List.nil_append, List.append_assoc]
    · rfl

/-- An anchored match of the packet pattern is a valid encoding at the head of
the input. -/
theorem matchAt_sound (s : Str) (c : Caps) (rest : Str)
    (h : packetRegexp.matchAt s = some (c, rest)) :
    ∃ e : Encoding, e.valid = true ∧ s = e.text ++ rest ∧ c = e.caps := by
  unfold Re.matchAt at h
  obtain ⟨w, s1, c1, hs, ⟨c2, hm, hc⟩, hk⟩ := exec_sound _ s Caps.none _ _ h
  obtain ⟨e, hv, hw, hg⟩ := matches_packetRegexp w _ _ hm
  simp only [Option.some.injEq, Prod.mk.injEq] at hk
  obtain ⟨hk1, hk2⟩ := hk
  refine ⟨e, hv, ?_, ?_⟩
  · rw [hs, hw, hk2]
  · rw [← hk1, hc, hg, hw]; rfl

/-- What `find` returns is an anchored match at the end of the skipped text. -/
theorem find_sound (re : Re) : ∀ (s pre : Str) (c : Caps) (rest : Str),
    re.find s = some (pre, c, rest) →
      ∃ s1, s = pre ++ s1 ∧ re.matchAt s1 = some (c, rest) := by
  intro s
  induction s with
  | nil =>
    intro pre c rest h
    simp only [Re.find, Option.map_eq_some'] at h
    obtain ⟨⟨c1, r1⟩, hm, he⟩ := h
    simp only [Prod.mk.injEq] at he
    obtain ⟨h1, h2, h3⟩ := he
    exact ⟨[], by rw [← h1]; rfl, by rw [hm, ← h2, ← h3]⟩
  | cons x t ih =>
    intro pre c rest h
    unfold Re.find at h
    cases hm : re.matchAt (x :: t) with
    | some m =>
      rw [hm] at h
      simp only [Option.some.injEq, Prod.mk.injEq] at h
      obtain ⟨h1, h2, h3⟩ := h
      exact ⟨x :: t, by rw [← h1]; rfl, by rw [hm, ← h2, ← h3]⟩
    | none =>
      rw [hm] at h
      simp only [Option.map_eq_some'] at h
      obtain ⟨⟨p1, c1, r1⟩, hr, he⟩ := h
      simp only [Prod.mk.injEq] at he
      obtain ⟨h1, h2, h3⟩ := he
      obtain ⟨s1, hs1, hm1⟩ := ih p1 c1 r1 hr
      refine ⟨s1, ?_, ?_⟩
      · rw [← h1, hs1]; rfl
      · rw [hm1, ← h2, ← h3]

/-- A match of the packet pattern found in `s`: skipped text, a valid
encoding, and the rest. -/
theorem find_packet_sound (s pre : Str) (c : Caps) (rest : Str)
    (h : packetRegexp.find s = some (pre, c, rest)) :
    ∃ e : Encoding, e.valid = true ∧ s = pre ++ e.text ++ rest ∧ c = e.caps := by
  obtain ⟨s1, hs, hm⟩ := find_sound _ s pre c rest h
  obtain ⟨e, hv, he, hc⟩ := matchAt_sound s1 c rest hm
  exact ⟨e, hv, by rw [hs, he, List.append_assoc], hc⟩

/-- Every submatch of the packet pattern is the capture of a valid encoding
that occurs in the text. -/
theorem findAllFuel_sound : ∀ (n : Nat) (s : Str) (c : Caps),
    c ∈ packetRegexp.findAllFuel n s →
      ∃ (e : Encoding) (pre rest : Str), e.valid = true ∧ s = pre ++ e.text ++ rest ∧
        c = e.caps := by
  intro n
  induction n with
  | zero => intro s c h; cases h
  | succ n ih =>
    intro s c h
    unfold Re.findAllFuel at h
    cases hf : packetRegexp.find s with
    | none => rw [hf] at h; cases h
    | some r =>
      rw [hf] at h
      obtain ⟨pre, c0, rest⟩ := r
      obtain ⟨e, hv, hs, hc⟩ := find_packet_sound s pre c0 rest hf
      dsimp only at h
      have hhead : c = c0 → ∃ (e : Encoding) (pre rest : Str), e.valid = true ∧
          s = pre ++ e.text ++ rest ∧ c = e.caps := fun h0 => ⟨e, pre, rest, hv, hs, by rw [h0, hc]⟩
      by_cases hlt : rest.length < s.length
      · rw [if_pos hlt] at h
        rcases List.mem_cons.mp h with h0 | h1
        · exact hhead h0
        · obtain ⟨e2, pre2, rest2, hv2, hs2, hc2⟩ := ih rest c h1
          refine ⟨e2, pre ++ e.text ++ pre2, rest2, hv2, ?_, hc2⟩
          rw [hs, hs2]
          simp only [List.append_assoc]
      · rw [if_neg hlt] at h
        rw [List.mem_singleton] at h
        exact hhead h

/-! ## Lemmas on `handleMessage` -/

theorem matchAt_cls_cons (p : Char → Bool) (x : Char) (t : Str) :
    (Re.cls p).matchAt (x :: t) =
      if p x then some (Caps.none.set 0 [x], t) else none := by
  unfold Re.matchAt
  rw [exec_group, exec_cls_cons]
  have := take_length_sub [x] t
  simp only [List.cons_append, List.nil_append] at this
  rw [this]

theorem find_cls (p : Char → Bool) (s : Str) :
    ((Re.cls p).find s = none ∧ s.filter (fun c => !p c) = s) ∨
    ∃ r, (Re.cls p).find s = some r ∧ r.2.2.length < s.length ∧
      s.filter (fun c => !p c) = r.1 ++ r.2.2.filter (fun c => !p c) := by
  induction s with
  | nil => exact Or.inl ⟨rfl, rfl⟩
  | cons x t ih =>
    by_cases hx : p x = true
    · refine Or.inr ⟨([], Caps.none.set 0 [x], t), ?_, ?_, ?_⟩
      · simp only [Re.find, matchAt_cls_cons, hx, if_true]
      · simp
      · simp only [List.filter_cons, hx, Bool.not_true, Bool.false_eq_true, if_false,
          List.nil_append]
    · have hx2 : p x = false := by simpa using hx
      have hfil : (x :: t).filter (fun c => !p c) = x :: t.filter (fun c => !p c) := by
        simp only [List.filter_cons, hx2, Bool.not_false, if_true]
      rcases ih with ⟨hnone, hf⟩ | ⟨r, hsome, hlen, hf⟩
      · refine Or.inl ⟨?_, ?_⟩
        · simp only [Re.find, matchAt_cls_cons, hx2, Bool.false_eq_true, if_false, hnone,
            Option.map_none']
        · rw [hfil, hf]
      · refine Or.inr ⟨(x :: r.1, r.2), ?_, ?_, ?_⟩
        · simp only [Re.find, matchAt_cls_cons, hx2, Bool.false_eq_true, if_false, hsome,
            Option.map_some']
        · simp only [List.length_cons]; omega
        · rw [hfil, hf]; rfl

theorem replaceAllFuel_cls (p : Char → Bool) :
    ∀ (n : Nat) (s : Str), s.length < n →
      (Re.cls p).replaceAllFuel [] n s = s.filter (fun c => !p c) := by
  intro n
  induction n with
  | zero => intro s h; omega
  | succ n ih =>
    intro s hs
    rcases find_cls p s with ⟨hnone, hf⟩ | ⟨r, hsome, hlen, hf⟩
    · simp only [Re.replaceAllFuel, hnone, hf]
    · simp only [Re.replaceAllFuel, hsome, hlen, if_true, List.append_nil]
      rw [ih r.2.2 (by omega), hf]

/-- The sanitising step keeps exactly the characters of the sanitary class. -/
theorem sanitize_eq_filter (s : Str) :
    sanitizeRegexp.replaceAllString s [] = s.filter isSanitary := by
  unfold Re.replaceAllString sanitizeRegexp
  rw [replaceAllFuel_cls _ _ s (Nat.lt_succ_self _)]
  congr 1
  funext c
  simp only [Bool.not_not]

theorem isSanitary_of_isBucketChar (x : Char) (h : isBucketChar x = true) :
    isSanitary x = true := by
  simp only [isBucketChar, isSanitary, Bool.or_eq_true] at h ⊢
  rcases h with ((h | h) | h) | h
  · exact Or.inl (Or.inl (Or.inl (Or.inl (Or.inl (Or.inl (Or.inl h))))))
  · exact Or.inl (Or.inl (Or.inl (Or.inl (Or.inl (Or.inl (Or.inr h))))))
  · exact Or.inl (Or.inl (Or.inl (Or.inl (Or.inr h))))
  · exact Or.inl (Or.inl (Or.inl (Or.inr h)))

theorem isSanitary_of_isValueChar (x : Char) (h : isValueChar x = true) :
    isSanitary x = true := by
  simp only [isValueChar, isSanitary, Bool.or_eq_true] at h ⊢
  rcases h with h | h
  · exact Or.inl (Or.inl (Or.inl (Or.inl (Or.inl (Or.inl (Or.inr h))))))
  · exact Or.inl (Or.inl (Or.inl (Or.inr h)))

theorem Encoding.text_sanitary (e : Encoding) (hv : e.valid = true) :
    ∀ x ∈ e.text, isSanitary x = true := by
  obtain ⟨_, hball, _, hdall, hkind, hrate⟩ := (Encoding.valid_iff e).mp hv
  intro x hx
  simp only [Encoding.text, Encoding.value, Encoding.rateText, List.mem_append, List.mem_cons]
    at hx
  rcases hx with hx | hx | (hx | hx) | hx | hx | hx
  · exact isSanitary_of_isBucketChar x (hball x hx)
  · subst hx; decide
  · have hm : x = '-' := by
      by_cases h : e.minus = true
      · rw [if_pos h] at hx
        exact List.mem_singleton.mp hx
      · rw [if_neg h] at hx
        cases hx
    subst hm
    decide
  · exact isSanitary_of_isValueChar x (hdall x hx)
  · subst hx; decide
  · rcases hkind with h | h | h <;> rw [h] at hx <;>
      simp only [List.mem_cons, List.mem_singleton, List.not_mem_nil, or_false] at hx
    · subst hx; decide
    · rcases hx with hx | hx <;> subst hx <;> decide
    · subst hx; decide
  · cases hr : e.rate with
    | none => rw [hr] at hx; simp at hx
    | some r =>
      rw [hr] at hx
      simp only [List.mem_cons] at hx
      rcases hx with hx | hx | hx
      · subst hx; decide
      · subst hx; decide
      · exact isSanitary_of_isValueChar x ((hrate r hr).2 x hx)

theorem sanitize_encoding (e : Encoding) (hv : e.valid = true) :
    sanitizeRegexp.replaceAllString e.text [] = e.text := by
  rw [sanitize_eq_filter, List.filter_eq_self]
  exact Encoding.text_sanitary e hv

theorem handleMessage_encoding (e : Encoding) (hv : e.valid = true) :
    handleMessage e.text = [packetOfItem e.caps.item] := by
  unfold handleMessage
  simp only [sanitize_encoding e hv, findAll_encoding e hv, List.map]

/-! ## Lemmas on rounding -/

theorem log2Step_inv (n k : Nat) (p : Nat × Nat) (h1 : p.1 = n / 2 ^ p.2)
    (h2 : p.1 < 2 ^ (2 * k)) (h3 : 0 < p.1) :
    (log2Step k p).1 = n / 2 ^ (log2Step k p).2 ∧ (log2Step k p).1 < 2 ^ k ∧
      0 < (log2Step k p).1 := by
  unfold log2Step
  by_cases h : 2 ^ k ≤ p.1
  · rw [if_pos h]
    refine ⟨?_, ?_, ?_⟩
    · show p.1 / 2 ^ k = n / 2 ^ (p.2 + k)
      rw [h1, Nat.div_div_eq_div_mul, pow_add]
    · show p.1 / 2 ^ k < 2 ^ k
      rw [Nat.div_lt_iff_lt_mul (by positivity)]
      calc p.1 < 2 ^ (2 * k) := h2
        _ = 2 ^ k * 2 ^ k := by rw [two_mul, pow_add]
    · exact Nat.div_pos h (by positivity)
  · rw [if_neg h]
    exact ⟨h1, by omega, h3⟩

theorem log2Word_eq (n : Nat) (hn : n < 2 ^ 64) : log2Word n = Nat.log 2 n := by
  by_cases h0 : n = 0
  · subst h0; rw [Nat.log_zero_right]; rfl
  unfold log2Word
  have s32 := log2Step_inv n 32 (n, 0) (by simp) (by simpa using hn) (by simpa using Nat.pos_of_ne_zero h0)
  have s16 := log2Step_inv n 16 _ s32.1 s32.2.1 s32.2.2
  have s8 := log2Step_inv n 8 _ s16.1 s16.2.1 s16.2.2
  have s4 := log2Step_inv n 4 _ s8.1 s8.2.1 s8.2.2
  have s2 := log2Step_inv n 2 _ s4.1 s4.2.1 s4.2.2
  have s1 := log2Step_inv n 1 _ s2.1 s2.2.1 s2.2.2
  generalize log2Step 1 (log2Step 2 (log2Step 4 (log2Step 8 (log2Step 16
    (log2Step 32 (n, 0)))))) = p at s1
  obtain ⟨h1, h2, h3⟩ := s1
  have hp : n / 2 ^ p.2 = 1 := by omega
  have hpos : 0 < 2 ^ p.2 := by positivity
  symm
  apply Nat.log_eq_of_pow_le_of_lt_pow
  · have := Nat.div_mul_le_self n (2 ^ p.2)
    rw [hp] at this; omega
  · have := Nat.lt_succ_self (n / 2 ^ p.2)
    rw [Nat.div_lt_iff_lt_mul hpos, hp] at this
    rw [pow_succ]; omega

theorem log2Fuel_eq (fuel : Nat) : ∀ n, n < 2 ^ (64 * fuel) → log2Fuel fuel n = Nat.log 2 n := by
  induction fuel with
  | zero =>
    intro n hn
    have : n = 0 := by simpa using hn
    subst this; rw [Nat.log_zero_right]; rfl
  | succ fuel ih =>
    intro n hn
    unfold log2Fuel
    by_cases h : n < 2 ^ 64
    · rw [if_pos h]; exact log2Word_eq n h
    · rw [if_neg h]
      have hpos : 0 < 2 ^ 64 := by positivity
      have hlt : n / 2 ^ 64 < 2 ^ (64 * fuel) := by
        rw [Nat.div_lt_iff_lt_mul hpos, ← pow_add]
        calc n < 2 ^ (64 * (fuel + 1)) := hn
          _ = 2 ^ (64 * fuel + 64) := by ring_nf
      rw [ih _ hlt]
      have hne : n / 2 ^ 64 ≠ 0 := by
        have := Nat.div_pos (Nat.le_of_not_lt h) hpos
        omega
      symm
      apply Nat.log_eq_of_pow_le_of_lt_pow
      · rw [pow_add]
        calc 2 ^ Nat.log 2 (n / 2 ^ 64) * 2 ^ 64 ≤ n / 2 ^ 64 * 2 ^ 64 :=
              Nat.mul_le_mul_right _ (Nat.pow_log_le_self 2 hne)
          _ ≤ n := Nat.div_mul_le_self n _
      · have h1 := Nat.lt_pow_succ_log_self (by decide : 1 < 2) (n / 2 ^ 64)
        rw [Nat.div_lt_iff_lt_mul hpos, ← pow_add] at h1
        have he : (Nat.log 2 (n / 2 ^ 64)).succ + 64 = Nat.log 2 (n / 2 ^ 64) + 64 + 1 := by
          omega
        rw [he] at h1
        exact h1

theorem log2_eq (n : Nat) : log2 n = Nat.log 2 n := by
  unfold log2
  apply log2Fuel_eq
  calc n < 2 ^ n := Nat.lt_two_pow n
    _ ≤ 2 ^ (64 * n) := Nat.pow_le_pow_right (by decide) (by omega)

theorem two_zpow_le_ratio (n d : Nat) (hd : 0 < d) (k : Int) :
    (if 0 ≤ k then d * 2 ^ k.toNat ≤ n else d ≤ n * 2 ^ (-k).toNat) ↔
      (2 : ℚ) ^ k ≤ (n : ℚ) / d := by
  have hdq : (0 : ℚ) < d := by exact_mod_cast hd
  by_cases hk : 0 ≤ k
  · rw [if_pos hk]
    obtain ⟨j, rfl⟩ := Int.eq_ofNat_of_zero_le hk
    rw [Int.toNat_ofNat, zpow_natCast, le_div_iff₀ hdq]
    constructor
    · intro h
      have : ((d * 2 ^ j : ℕ) : ℚ) ≤ (n : ℚ) := by exact_mod_cast h
      push_cast at this
      linarith
    · intro h
      have : ((d * 2 ^ j : ℕ) : ℚ) ≤ (n : ℚ) := by push_cast; linarith
      exact_mod_cast this
  · rw [if_neg hk]
    have hk2 : k = -(((-k).toNat : ℕ) : ℤ) := by omega
    generalize (-k).toNat = j at hk2
    subst hk2
    have hpow : (0 : ℚ) < 2 ^ j := by positivity
    rw [zpow_neg, zpow_natCast, le_div_iff₀ hdq, inv_mul_le_iff₀ hpow]
    constructor
    · intro h
      have : ((d : ℕ) : ℚ) ≤ ((n * 2 ^ j : ℕ) : ℚ) := by exact_mod_cast h
      push_cast at this
      linarith
    · intro h
      have : ((d : ℕ) : ℚ) ≤ ((n * 2 ^ j : ℕ) : ℚ) := by push_cast; linarith
      exact_mod_cast this

theorem natLog_bounds (n : Nat) (hn : 0 < n) :
    (2 : ℚ) ^ (Nat.log 2 n : ℤ) ≤ n ∧ (n : ℚ) < (2 : ℚ) ^ ((Nat.log 2 n : ℤ) + 1) := by
  constructor
  · rw [zpow_natCast]
    exact_mod_cast Nat.pow_log_le_self 2 (Nat.pos_iff_ne_zero.mp hn)
  · have h := Nat.lt_pow_succ_log_self (by decide : 1 < 2) n
    have h2 : (n : ℚ) < ((2 ^ (Nat.log 2 n).succ : ℕ) : ℚ) := by exact_mod_cast h
    push_cast at h2
    rw [show ((Nat.log 2 n : ℤ) + 1) = ((Nat.log 2 n + 1 : ℕ) : ℤ) from by push_cast; rfl,
      zpow_natCast]
    exact h2

theorem ilog2Ratio_eq (n d : Nat) (hn : 0 < n) (hd : 0 < d) :
    ilog2Ratio n d = Int.log 2 ((n : ℚ) / d) := by
  have hnq : (0 : ℚ) < n := by exact_mod_cast hn
  have hdq : (0 : ℚ) < d := by exact_mod_cast hd
  have hr : (0 : ℚ) < (n : ℚ) / d := div_pos hnq hdq
  obtain ⟨hn1, hn2⟩ := natLog_bounds n hn
  obtain ⟨hd1, hd2⟩ := natLog_bounds d hd
  have hb : (1 : ℕ) < 2 := by decide
  unfold ilog2Ratio
  simp only [log2_eq]
  generalize (Nat.log 2 n : ℤ) = a at hn1 hn2 ⊢
  generalize (Nat.log 2 d : ℤ) = b at hd1 hd2 ⊢
  have hup : (n : ℚ) / d < (2 : ℚ) ^ (a - b + 1) := by
    rw [div_lt_iff₀ hdq]
    calc (n : ℚ) < 2 ^ (a + 1) := hn2
      _ = 2 ^ (a - b + 1) * 2 ^ b := by rw [← zpow_add₀ (by norm_num)]; congr 1; ring
      _ ≤ 2 ^ (a - b + 1) * d := by
          apply mul_le_mul_of_nonneg_left hd1; positivity
  have hlo : (2 : ℚ) ^ (a - b - 1) ≤ (n : ℚ) / d := by
    rw [le_div_iff₀ hdq]
    calc (2 : ℚ) ^ (a - b - 1) * d ≤ 2 ^ (a - b - 1) * 2 ^ (b + 1) := by
          apply mul_le_mul_of_nonneg_left (le_of_lt hd2); positivity
      _ = 2 ^ a := by rw [← zpow_add₀ (by norm_num)]; congr 1; ring
      _ ≤ n := hn1
  have hL1 : Int.log 2 ((n : ℚ) / d) < a - b + 1 :=
    (Int.lt_zpow_iff_log_lt hb hr).mp (by exact_mod_cast hup)
  have hL2 : a - b - 1 ≤ Int.log 2 ((n : ℚ) / d) :=
    (Int.zpow_le_iff_le_log hb hr).mp (by exact_mod_cast hlo)
  have hge := two_zpow_le_ratio n d hd (a - b)
  by_cases hc : (2 : ℚ) ^ (a - b) ≤ (n : ℚ) / d
  · have h3 : a - b ≤ Int.log 2 ((n : ℚ) / d) :=
      (Int.zpow_le_iff_le_log hb hr).mp (by exact_mod_cast hc)
    have hge2 := hge.mpr hc
    by_cases hk : 0 ≤ a - b
    · rw [if_pos hk] at hge2
      simp only [hk, if_true, hge2, decide_True]
      omega
    · rw [if_neg hk] at hge2
      simp only [hk, if_false, hge2, decide_True, if_true]
      omega
  · have h3 : ¬ a - b ≤ Int.log 2 ((n : ℚ) / d) := by
      intro h
      exact hc (by exact_mod_cast (Int.zpow_le_iff_le_log hb hr).mpr h)
    have hge2 : ¬ (if 0 ≤ a - b then d * 2 ^ (a - b).toNat ≤ n
        else d ≤ n * 2 ^ (-(a - b)).toNat) := fun h => hc (hge.mp h)
    by_cases hk : 0 ≤ a - b
    · rw [if_pos hk] at hge2
      simp only [hk, if_true, decide_eq_true_eq, hge2, if_false]
      omega
    · rw [if_neg hk] at hge2
      simp only [hk, if_false, decide_eq_true_eq, hge2]
      omega

theorem stripZeros_odd_mul_pow (m : Nat) (hm : m % 2 = 1) :
    ∀ (j fuel : Nat) (e : Int), j ≤ fuel → stripZeros fuel (m * 2 ^ j) e = (m, e + j) := by
  intro j
  induction j with
  | zero =>
    intro fuel e _
    cases fuel with
    | zero => simp [stripZeros]
    | succ fuel =>
      have h : ¬ (m % 2 = 0 ∧ m ≠ 0) := by omega
      simp [stripZeros, h]
  | succ j ih =>
    intro fuel e hj
    cases fuel with
    | zero => omega
    | succ fuel =>
      have hpos : m * 2 ^ (j + 1) ≠ 0 := by
        have : 0 < m := by omega
        positivity
      have hev : m * 2 ^ (j + 1) % 2 = 0 := by
        rw [pow_succ, ← mul_assoc]; exact Nat.mul_mod_left _ _
      have hdiv : m * 2 ^ (j + 1) / 2 = m * 2 ^ j := by
        rw [pow_succ, ← mul_assoc]; exact Nat.mul_div_cancel _ (by decide)
      simp only [stripZeros, hev, hpos, ne_eq, not_false_eq_true, and_self, if_true, hdiv]
      rw [ih fuel (e + 1) (by omega)]
      push_cast
      congr 1
      ring

theorem natLog_mul_pow (m j : Nat) (hm : 0 < m) : Nat.log 2 (m * 2 ^ j) = Nat.log 2 m + j := by
  apply Nat.log_eq_of_pow_le_of_lt_pow
  · rw [pow_add]
    exact Nat.mul_le_mul_right _ (Nat.pow_log_le_self 2 (Nat.pos_iff_ne_zero.mp hm))
  · have h := Nat.lt_pow_succ_log_self (by decide : 1 < 2) m
    calc m * 2 ^ j < 2 ^ (Nat.log 2 m).succ * 2 ^ j :=
          Nat.mul_lt_mul_of_pos_right h (by positivity)
      _ = 2 ^ (Nat.log 2 m + j + 1) := by rw [← pow_add]; congr 1; omega

/-- When the scaled numerator is an exact multiple `q` of the scaled
denominator, rounding yields `q` itself. -/
theorem roundQ_exact (F : Fmt) (neg : Bool) (n d q : Nat) (e : Int) (hn : n ≠ 0)
    (he : max (ilog2Ratio n d - (F.prec - 1)) F.eminSub = e)
    (hden : 0 < (if 0 ≤ e then d * 2 ^ e.toNat else d))
    (hnum : (if 0 ≤ e then n else n * 2 ^ (-e).toNat) =
      q * (if 0 ≤ e then d * 2 ^ e.toNat else d))
    (hov : ¬ F.emax < (log2 q : Int) + e) :
    roundQ F neg n d = Flt.mk F neg q e := by
  unfold roundQ
  rw [if_neg hn]
  simp only [he, hnum]
  rw [Nat.mul_div_cancel _ hden, Nat.mul_mod_left]
  simp only [Nat.mul_zero, hden, if_true, hov, if_false]

theorem intLog_odd_mul_zpow (m : Nat) (hm : 0 < m) (e : Int) :
    Int.log 2 ((m : ℚ) * (2 : ℚ) ^ e) = (Nat.log 2 m : ℤ) + e := by
  have hb : (1 : ℕ) < 2 := by decide
  have hmq : (0 : ℚ) < m := by exact_mod_cast hm
  have hpos : (0 : ℚ) < (m : ℚ) * (2 : ℚ) ^ e := by positivity
  obtain ⟨h1, h2⟩ := natLog_bounds m hm
  have hlo : (2 : ℚ) ^ ((Nat.log 2 m : ℤ) + e) ≤ (m : ℚ) * (2 : ℚ) ^ e := by
    rw [zpow_add₀ (by norm_num)]
    apply mul_le_mul_of_nonneg_right h1; positivity
  have hhi : (m : ℚ) * (2 : ℚ) ^ e < (2 : ℚ) ^ ((Nat.log 2 m : ℤ) + e + 1) := by
    rw [show (Nat.log 2 m : ℤ) + e + 1 = ((Nat.log 2 m : ℤ) + 1) + e from by ring,
      zpow_add₀ (by norm_num)]
    apply mul_lt_mul_of_pos_right h2; positivity
  have hL1 := (Int.zpow_le_iff_le_log hb hpos).mp (by exact_mod_cast hlo)
  have hL2 := (Int.lt_zpow_iff_log_lt hb hpos).mp (by exact_mod_cast hhi)
  omega

/-- Rounding a datum of the format to the format gives it back. -/
theorem roundDyadic_of_inFormat (F : Fmt) (neg : Bool) (m : Nat) (e : Int)
    (h : (Flt.fin neg m e).inFormat F) : roundDyadic F neg m e = Flt.fin neg m e := by
  rcases h with ⟨rfl, rfl⟩ | ⟨hodd, hlt, hemin, hemax⟩
  · rfl
  have hm : 0 < m := by omega
  have hL : Nat.log 2 m < F.prec := (Nat.lt_pow_iff_log_lt (by decide) (by omega)).mp hlt
  rw [log2_eq] at hemax
  -- the exponent chosen by `roundQ`
  obtain ⟨e1, he1⟩ : ∃ e1 : ℤ, e1 = max ((Nat.log 2 m : ℤ) + e - (F.prec - 1)) F.eminSub :=
    ⟨_, rfl⟩
  have he1e : e1 ≤ e := by rw [he1]; omega
  have he1lo : (Nat.log 2 m : ℤ) + e - (F.prec - 1) ≤ e1 := by rw [he1]; omega
  obtain ⟨j, hj⟩ : ∃ j : ℕ, (j : ℤ) = e - e1 := ⟨(e - e1).toNat, by omega⟩
  have hjle : j ≤ F.prec + 1 := by omega
  have hres : Flt.mk F neg (m * 2 ^ j) e1 = Flt.fin neg m e := by
    unfold Flt.mk
    have hne : m * 2 ^ j ≠ 0 := by positivity
    rw [if_neg hne, stripZeros_odd_mul_pow m hodd j _ e1 hjle]
    simp only
    congr 1
    omega
  have hov : ¬ F.emax < (log2 (m * 2 ^ j) : ℤ) + e1 := by
    rw [log2_eq, natLog_mul_pow m j hm]
    push_cast
    omega
  unfold roundDyadic
  by_cases he : 0 ≤ e
  · rw [if_pos he, ← hres]
    obtain ⟨k, rfl⟩ := Int.eq_ofNat_of_zero_le he
    rw [Int.toNat_ofNat]
    have hil : ilog2Ratio (m * 2 ^ k) 1 = (Nat.log 2 m : ℤ) + k := by
      rw [ilog2Ratio_eq _ _ (by positivity) (by decide)]
      have := intLog_odd_mul_zpow m hm k
      rw [zpow_natCast] at this
      rw [← this]
      congr 1
      push_cast
      ring
    apply roundQ_exact F neg _ 1 _ e1 (by positivity) (by rw [hil, he1])
    · split <;> positivity
    · by_cases h1 : 0 ≤ e1
      · rw [if_pos h1, if_pos h1]
        have hk : k = j + e1.toNat := by omega
        rw [hk, pow_add]; ring
      · rw [if_neg h1, if_neg h1]
        have hk : j = k + (-e1).toNat := by omega
        rw [hk, pow_add]; ring
    · exact hov
  · rw [if_neg he, ← hres]
    have hil : ilog2Ratio m (2 ^ (-e).toNat) = (Nat.log 2 m : ℤ) + e := by
      rw [ilog2Ratio_eq _ _ hm (by positivity)]
      rw [← intLog_odd_mul_zpow m hm e]
      congr 1
      have he2 : e = -(((-e).toNat : ℕ) : ℤ) := by omega
      generalize (-e).toNat = k at he2
      subst he2
      rw [zpow_neg, zpow_natCast]
      push_cast
      rfl
    have h1 : ¬ 0 ≤ e1 := by omega
    apply roundQ_exact F neg _ _ _ e1 (by omega) (by rw [hil, he1])
    · rw [if_neg h1]; positivity
    · rw [if_neg h1, if_neg h1]
      have hk : (-e1).toNat = j + (-e).toNat := by omega
      rw [hk, pow_add]; ring
    · exact hov

theorem scaled_ratio (n d : Nat) (hd : 0 < d) (e : Int) :
    (((if 0 ≤ e then n else n * 2 ^ (-e).toNat : ℕ) : ℕ) : ℚ) /
      (((if 0 ≤ e then d * 2 ^ e.toNat else d : ℕ) : ℕ) : ℚ) = (n : ℚ) / d / (2 : ℚ) ^ e := by
  have hdq : (d : ℚ) ≠ 0 := by exact_mod_cast (Nat.pos_iff_ne_zero.mp hd)
  by_cases he : 0 ≤ e
  · rw [if_pos he, if_pos he]
    obtain ⟨k, rfl⟩ := Int.eq_ofNat_of_zero_le he
    rw [Int.toNat_ofNat, zpow_natCast]
    push_cast
    rw [div_div]
  · rw [if_neg he, if_neg he]
    have he2 : e = -(((-e).toNat : ℕ) : ℤ) := by omega
    generalize (-e).toNat = k at he2
    subst he2
    rw [zpow_neg, zpow_natCast]
    push_cast
    field_simp

/-- The quotient that `roundQ` rounds has at most `prec` bits. -/
theorem scaled_quotient_lt (F : Fmt) (n d : Nat) (hn : 0 < n) (hd : 0 < d) (e : Int)
    (he : ilog2Ratio n d - (F.prec - 1) ≤ e) :
    (if 0 ≤ e then n else n * 2 ^ (-e).toNat) / (if 0 ≤ e then d * 2 ^ e.toNat else d) <
      2 ^ F.prec := by
  have hnq : (0 : ℚ) < n := by exact_mod_cast hn
  have hdq : (0 : ℚ) < d := by exact_mod_cast hd
  have hr : (0 : ℚ) < (n : ℚ) / d := div_pos hnq hdq
  have hden : 0 < (if 0 ≤ e then d * 2 ^ e.toNat else d) := by split <;> positivity
  have hdenq : (0 : ℚ) < (((if 0 ≤ e then d * 2 ^ e.toNat else d : ℕ) : ℕ) : ℚ) := by
    exact_mod_cast hden
  rw [Nat.div_lt_iff_lt_mul hden]
  have hlog := Int.lt_zpow_succ_log_self (by decide : 1 < 2) ((n : ℚ) / d)
  rw [← ilog2Ratio_eq n d hn hd] at hlog
  have hpow : (2 : ℚ) ^ (ilog2Ratio n d + 1) ≤ (2 : ℚ) ^ (e + F.prec) :=
    zpow_le_zpow_right₀ (by norm_num) (by omega)
  have hlt : (n : ℚ) / d / (2 : ℚ) ^ e < (2 : ℚ) ^ F.prec := by
    rw [div_lt_iff₀ (by positivity)]
    calc (n : ℚ) / d < (2 : ℚ) ^ (ilog2Ratio n d + 1) := by exact_mod_cast hlog
      _ ≤ (2 : ℚ) ^ (e + F.prec) := hpow
      _ = (2 : ℚ) ^ F.prec * (2 : ℚ) ^ e := by
          rw [zpow_add₀ (by norm_num), zpow_natCast]; ring
  rw [← scaled_ratio n d hd e, div_lt_iff₀ hdenq] at hlt
  exact_mod_cast hlt

theorem inFormat_mk (F : Fmt) (hp : 1 ≤ F.prec) (neg : Bool) (m : Nat) (e : Int)
    (hm : m ≤ 2 ^ F.prec) (he : F.eminSub ≤ e) (hov : ¬ F.emax < (log2 m : ℤ) + e) :
    (Flt.mk F neg m e).inFormat F := by
  unfold Flt.mk
  by_cases h0 : m = 0
  · rw [if_pos h0]; exact Or.inl ⟨rfl, rfl⟩
  rw [if_neg h0]
  obtain ⟨j, m1, hodd, hmj⟩ := Nat.exists_eq_two_pow_mul_odd h0
  have hodd1 : m1 % 2 = 1 := Nat.odd_iff.mp hodd
  have hm1 : 0 < m1 := by omega
  have hmj2 : m = m1 * 2 ^ j := by rw [hmj, mul_comm]
  have hjp : j ≤ F.prec := by
    have h1 : 2 ^ j ≤ 2 ^ F.prec := by
      calc 2 ^ j ≤ m1 * 2 ^ j := Nat.le_mul_of_pos_left _ hm1
        _ = m := hmj2.symm
        _ ≤ 2 ^ F.prec := hm
    exact (Nat.pow_le_pow_iff_right (by decide)).mp h1
  rw [hmj2, stripZeros_odd_mul_pow m1 hodd1 j _ e (by omega)]
  refine Or.inr ⟨hodd1, ?_, by omega, ?_⟩
  · by_cases hj0 : j = 0
    · subst hj0
      rw [pow_zero, mul_one] at hmj2
      have hne : m1 ≠ 2 ^ F.prec := by
        intro h
        have : (2 ^ F.prec) % 2 = 0 := by
          obtain ⟨p, hp2⟩ := Nat.exists_eq_succ_of_ne_zero (by omega : F.prec ≠ 0)
          rw [hp2, pow_succ]; exact Nat.mul_mod_left _ _
        omega
      omega
    · obtain ⟨j1, rfl⟩ := Nat.exists_eq_succ_of_ne_zero hj0
      have h2 : m1 * 2 ≤ 2 ^ F.prec := by
        calc m1 * 2 ≤ m1 * 2 ^ (j1 + 1) := by
              apply Nat.mul_le_mul_left
              calc 2 = 2 ^ 1 := rfl
                _ ≤ 2 ^ (j1 + 1) := Nat.pow_le_pow_right (by decide) (by omega)
          _ = m := hmj2.symm
          _ ≤ 2 ^ F.prec := hm
      have : 0 < 2 ^ F.prec := by positivity
      omega
  · rw [hmj2, log2_eq, natLog_mul_pow m1 j hm1] at hov
    rw [log2_eq]
    push_cast at hov ⊢
    omega

/-- Every result of rounding is a datum of the format. -/
theorem roundQ_inFormat (F : Fmt) (hp : 1 ≤ F.prec) (neg : Bool) (n d : Nat) (hd : 0 < d) :
    (roundQ F neg n d).inFormat F := by
  unfold roundQ
  by_cases hn : n = 0
  · rw [if_pos hn]; exact Or.inl ⟨rfl, rfl⟩
  rw [if_neg hn]
  lift_lets
  intro e num den q r m
  by_cases hov : F.emax < (log2 m : ℤ) + e
  · rw [if_pos hov]; trivial
  · rw [if_neg hov]
    have hq : q < 2 ^ F.prec := scaled_quotient_lt F n d (Nat.pos_of_ne_zero hn) hd
      (max (ilog2Ratio n d - (F.prec - 1)) F.eminSub) (le_max_left _ _)
    apply inFormat_mk F hp neg m e ?_ (le_max_right _ _) hov
    show (if 2 * r < den then q else if den < 2 * r then q + 1
      else if q % 2 = 0 then q else q + 1) ≤ 2 ^ F.prec
    split_ifs <;> omega

theorem parseFloat_inFormat (F : Fmt) (hp : 1 ≤ F.prec) (s : Str) :
    (parseFloat F s).1.inFormat F := by
  unfold parseFloat
  cases readFloat s with
  | none => exact Or.inl ⟨rfl, rfl⟩
  | some r =>
    obtain ⟨neg, digits, scale⟩ := r
    have h := roundQ_inFormat F hp neg digits (10 ^ scale) (by positivity)
    simp only
    cases hv : roundQ F neg digits (10 ^ scale) with
    | inf sg => trivial
    | nan => rw [hv] at h; exact h
    | fin a m e => rw [hv] at h; exact h

theorem convert_of_inFormat (F : Fmt) (x : Flt) (h : x.inFormat F) : Flt.convert F x = x := by
  cases x with
  | fin neg m e => exact roundDyadic_of_inFormat F neg m e h
  | inf s => rfl
  | nan => rfl

/-- `float32(f)` is `f` when `f` is the result of `ParseFloat(s, 32)`. -/
theorem convert_parseFloat (s : Str) :
    Flt.convert binary32 (parseFloat binary32 s).1 = (parseFloat binary32 s).1 :=
  convert_of_inFormat binary32 _ (parseFloat_inFormat binary32 (by decide) s)

/-- Known values of the two formats: `0.1`, the largest finite `float32`, the
smallest subnormal, overflow, ties to even, and `0.1 + 0.2` in `float64`. -/
theorem float_known_values :
    parseFloat binary32 "0.1".toList = (Flt.fin false 13421773 (-27), false) ∧
    parseFloat binary64 "0.1".toList = (Flt.fin false 3602879701896397 (-55), false) ∧
    parseFloat binary32 "340282346638528859811704183484516925440".toList =
      (Flt.fin false 16777215 104, false) ∧
    parseFloat binary32 "340282356779733661637539395458142568447".toList =
      (Flt.fin false 16777215 104, false) ∧
    parseFloat binary32 "340282356779733661637539395458142568448".toList =
      (Flt.inf false, true) ∧
    parseFloat binary32 "0.0000000000000000000000000000000000000000000014".toList =
      (Flt.fin false 1 (-149), false) ∧
    parseFloat binary32 "0.0000000000000000000000000000000000000000000007".toList =
      (Flt.fin false 0 0, false) ∧
    parseFloat binary32 "16777217".toList = (Flt.fin false 1 24, false) ∧
    parseFloat binary32 "16777219".toList = (Flt.fin false 4194305 2, false) ∧
    parseFloat binary32 "-0".toList = (Flt.fin true 0 0, false) ∧
    Flt.add binary64 (parseFloat binary64 "0.1".toList).1 (parseFloat binary64 "0.2".toList).1 =
      Flt.fin false 1351079888211149 (-52) ∧
    Flt.div binary32 Flt.one (parseFloat binary32 "3".toList).1 =
      Flt.fin false 11184811 (-25) ∧
    Flt.ofInt binary64 9007199254740993 = Flt.fin false 1 53 := by
  refine ⟨by decide, by decide, by decide, by decide, by decide, by decide, by decide,
    by decide, by decide, by decide, by decide, by decide, by decide⟩

theorem stripZeros_value (fuel : Nat) :
    ∀ (m : Nat) (e : Int),
      ((stripZeros fuel m e).1 : ℚ) * (2 : ℚ) ^ (stripZeros fuel m e).2 = (m : ℚ) * (2 : ℚ) ^ e := by
  induction fuel with
  | zero => intro m e; rfl
  | succ fuel ih =>
    intro m e
    unfold stripZeros
    by_cases h : m % 2 = 0 ∧ m ≠ 0
    · rw [if_pos h, ih]
      have hm : m = 2 * (m / 2) := by omega
      rw [zpow_add₀ (by norm_num), zpow_one]
      conv_rhs => rw [hm]
      push_cast
      ring
    · rw [if_neg h]

theorem mk_value (F : Fmt) (neg : Bool) (m0 : Nat) (e0 : Int) (m : Nat) (e : Int) (s : Bool)
    (h : Flt.mk F neg m0 e0 = Flt.fin s m e) :
    s = neg ∧ (m : ℚ) * (2 : ℚ) ^ e = (m0 : ℚ) * (2 : ℚ) ^ e0 := by
  unfold Flt.mk at h
  by_cases h0 : m0 = 0
  · rw [if_pos h0] at h
    simp only [Flt.fin.injEq] at h
    obtain ⟨h1, h2, h3⟩ := h
    subst h0
    rw [← h2]
    simp [h1]
  · rw [if_neg h0] at h
    simp only [Flt.fin.injEq] at h
    obtain ⟨h1, h2, h3⟩ := h
    rw [← h2, ← h3]
    exact ⟨h1.symm, stripZeros_value _ m0 e0⟩

/-- The integer chosen between `q` and `q + 1` is within one half of the
exact quotient. -/
theorem nearest_quotient (num den : Nat) (hden : 0 < den) :
    |(((if 2 * (num % den) < den then num / den
        else if den < 2 * (num % den) then num / den + 1
        else if num / den % 2 = 0 then num / den else num / den + 1 : ℕ) : ℕ) : ℚ) -
      (num : ℚ) / den| * 2 ≤ 1 := by
  have hdq : (0 : ℚ) < den := by exact_mod_cast hden
  have hsplit : (num : ℚ) = ((num / den : ℕ) : ℚ) * den + ((num % den : ℕ) : ℚ) := by
    have := Nat.div_add_mod num den
    have h2 : ((den * (num / den) + num % den : ℕ) : ℚ) = num := by rw [this]
    push_cast at h2
    linarith
  have hr0 : (0 : ℚ) ≤ ((num % den : ℕ) : ℚ) := by positivity
  have hrq : ((num % den : ℕ) : ℚ) < den := by exact_mod_cast Nat.mod_lt num hden
  have key : ∀ x : ℚ, |x * den - num| * 2 ≤ den → |x - (num : ℚ) / den| * 2 ≤ 1 := by
    intro x hx
    have : x - (num : ℚ) / den = (x * den - num) / den := by field_simp
    rw [this, abs_div, abs_of_pos hdq, div_mul_eq_mul_div, div_le_one hdq]
    exact hx
  have hlow : (2 : ℚ) * ((num % den : ℕ) : ℚ) ≤ den →
      |((num / den : ℕ) : ℚ) * den - num| * 2 ≤ den := by
    intro h
    rw [hsplit, show ((num / den : ℕ) : ℚ) * den - (((num / den : ℕ) : ℚ) * den +
      ((num % den : ℕ) : ℚ)) = -((num % den : ℕ) : ℚ) from by ring, abs_neg, abs_of_nonneg hr0]
    linarith
  have hhigh : (den : ℚ) ≤ 2 * ((num % den : ℕ) : ℚ) →
      |((num / den + 1 : ℕ) : ℚ) * den - num| * 2 ≤ den := by
    intro h
    have : ((num / den + 1 : ℕ) : ℚ) * den - num = den - ((num % den : ℕ) : ℚ) := by
      push_cast
      linarith
    rw [this, abs_of_nonneg (by linarith)]
    linarith
  by_cases h1 : 2 * (num % den) < den
  · rw [if_pos h1]
    have : (2 : ℚ) * ((num % den : ℕ) : ℚ) ≤ den := by exact_mod_cast (le_of_lt h1)
    exact key _ (hlow this)
  · rw [if_neg h1]
    have h1q : (den : ℚ) ≤ 2 * ((num % den : ℕ) : ℚ) := by exact_mod_cast (Nat.le_of_not_lt h1)
    by_cases h2 : den < 2 * (num % den)
    · rw [if_pos h2]
      exact key _ (hhigh h1q)
    · rw [if_neg h2]
      have h2q : (2 : ℚ) * ((num % den : ℕ) : ℚ) ≤ den := by
        exact_mod_cast (Nat.le_of_not_lt h2)
      split
      · exact key _ (hlow h2q)
      · exact key _ (hhigh h1q)

/-- A finite result of rounding `n / d` lies within half a unit in the last
place of `n / d`, the last place being that of the binade of `n / d` (or the
subnormal one). -/
theorem roundQ_half_ulp (F : Fmt) (neg : Bool) (n d : Nat) (hn : 0 < n) (hd : 0 < d)
    (s : Bool) (m : Nat) (e : Int) (h : roundQ F neg n d = Flt.fin s m e) :
    s = neg ∧
    |(m : ℚ) * (2 : ℚ) ^ e - (n : ℚ) / d| * 2 ≤
      (2 : ℚ) ^ (max (Int.log 2 ((n : ℚ) / d) - (F.prec - 1)) F.eminSub) := by
  revert h
  unfold roundQ
  rw [if_neg (by omega)]
  lift_lets
  intro e0 num den q r mr h
  have he0 : e0 = max (Int.log 2 ((n : ℚ) / d) - (F.prec - 1)) F.eminSub := by
    show max (ilog2Ratio n d - (F.prec - 1)) F.eminSub = _
    rw [ilog2Ratio_eq n d hn hd]
  rw [← he0]
  have hden : 0 < den := by
    show 0 < (if 0 ≤ e0 then d * 2 ^ e0.toNat else d)
    split <;> positivity
  have hnear : |(mr : ℚ) - (num : ℚ) / den| * 2 ≤ 1 := nearest_quotient num den hden
  have hsc : (num : ℚ) / den = (n : ℚ) / d / (2 : ℚ) ^ e0 := scaled_ratio n d hd e0
  rw [hsc] at hnear
  by_cases hov : F.emax < (log2 mr : ℤ) + e0
  · rw [if_pos hov] at h; cases h
  · rw [if_neg hov] at h
    obtain ⟨hs, hv⟩ := mk_value F neg mr e0 m e s h
    refine ⟨hs, ?_⟩
    rw [hv]
    have hpow : (0 : ℚ) < (2 : ℚ) ^ e0 := by positivity
    have hx : (mr : ℚ) * (2 : ℚ) ^ e0 - (n : ℚ) / d =
        ((mr : ℚ) - (n : ℚ) / d / (2 : ℚ) ^ e0) * 2 ^ e0 := by
      rw [sub_mul, div_mul_cancel₀ _ (ne_of_gt hpow)]
    rw [hx, abs_mul, abs_of_pos hpow]
    calc |(mr : ℚ) - (n : ℚ) / d / (2 : ℚ) ^ e0| * 2 ^ e0 * 2
        = (|(mr : ℚ) - (n : ℚ) / d / (2 : ℚ) ^ e0| * 2) * 2 ^ e0 := by ring
      _ ≤ 1 * 2 ^ e0 := mul_le_mul_of_nonneg_right hnear (le_of_lt hpow)
      _ = 2 ^ e0 := one_mul _

/-! ## Lemmas on encodings and packets -/

theorem Encoding.item_one (e : Encoding) : e.caps.item 1 = e.bucket := by
  unfold Encoding.caps Encoding.groups
  cases e.rate <;> rfl

theorem Encoding.item_two (e : Encoding) : e.caps.item 2 = e.value := by
  unfold Encoding.caps Encoding.groups
  cases e.rate <;> rfl

theorem Encoding.item_three (e : Encoding) : e.caps.item 3 = e.kind := by
  unfold Encoding.caps Encoding.groups
  cases e.rate <;> rfl

theorem Encoding.item_five (e : Encoding) : e.caps.item 5 = e.rate.getD [] := by
  unfold Encoding.caps Encoding.groups
  cases e.rate <;> rfl

theorem Encoding.caps_five (e : Encoding) : e.caps 5 = e.rate := by
  unfold Encoding.caps Encoding.groups
  cases e.rate <;> rfl

/-- The timer branch appends the parsed value to the samples of the bucket. -/
theorem applyPacket_timer (P : Platform) (st : State) (s : Packet)
    (hms : s.Modifier = ['m', 's']) :
    (applyPacket P st s).timers.get? s.Bucket =
      some (st.timers.getD s.Bucket [] ++ [(parseFloat binary64 s.Value).1]) := by
  unfold applyPacket
  rw [if_pos hms]
  simp only [GoMap.get?_set_self, Option.some.injEq]
  cases hc : st.timers.get? s.Bucket with
  | none => simp only [GoMap.getD, GoMap.get?_set_self, hc, Option.getD_some, Option.getD_none]
  | some v => simp only [GoMap.getD, hc, Option.getD_some]

theorem Encoding.text_head (e : Encoding) (x : Char) (t : Str) (h : e.bucket = x :: t) :
    e.text = x :: (t ++ ':' :: (e.value ++ '|' :: (e.kind ++ e.rateText))) := by
  simp only [Encoding.text, h, List.cons_append]

theorem delimitedBy_encoding (e1 e2 : Encoding) (h2 : e2.valid = true)
    (hsep : e1.rate = none ∨ ∀ x t, e2.bucket = x :: t → isValueChar x = false) :
    e1.delimitedBy e2.text := by
  obtain ⟨hb, hball, -⟩ := (Encoding.valid_iff e2).mp h2
  obtain ⟨x, t, hx⟩ := List.exists_cons_of_ne_nil hb
  have hxb : isBucketChar x = true := hball x (by rw [hx]; exact List.mem_cons_self _ _)
  rw [Encoding.text_head e2 x t hx]
  unfold Encoding.delimitedBy
  cases hr : e1.rate with
  | none =>
    intro y t2 h
    simp only [List.cons.injEq] at h
    rw [h.1] at hxb
    exact absurd hxb (by decide)
  | some r =>
    rcases hsep with h | h
    · rw [hr] at h; cases h
    · intro y t2 hy
      simp only [List.cons.injEq] at hy
      rw [← hy.1]
      exact h x t hx

theorem handleMessage_two_encodings (e1 e2 : Encoding) (h1 : e1.valid = true)
    (h2 : e2.valid = true)
    (hsep : e1.rate = none ∨ ∀ x t, e2.bucket = x :: t → isValueChar x = false) :
    handleMessage (e1.text ++ e2.text) =
      [packetOfItem e1.caps.item, packetOfItem e2.caps.item] := by
  unfold handleMessage
  have hs : sanitizeRegexp.replaceAllString (e1.text ++ e2.text) [] = e1.text ++ e2.text := by
    rw [sanitize_eq_filter, List.filter_eq_self]
    intro x hx
    rcases List.mem_append.mp hx with h | h
    · exact Encoding.text_sanitary e1 h1 x h
    · exact Encoding.text_sanitary e2 h2 x h
  simp only [hs, findAll_two_encodings e1 e2 h1 h2 (delimitedBy_encoding e1 e2 h2 hsep),
    List.map]

/-- A newline between two encodings is removed by the sanitising step. -/
theorem handleMessage_newline (a b : Str) :
    handleMessage (a ++ '\n' :: b) = handleMessage (a ++ b) := by
  unfold handleMessage
  have h : sanitizeRegexp.replaceAllString (a ++ '\n' :: b) [] =
      sanitizeRegexp.replaceAllString (a ++ b) [] := by
    rw [sanitize_eq_filter, sanitize_eq_filter, List.filter_append, List.filter_append,
      List.filter_cons]
    rfl
  rw [h]

/-! ## Lemmas on the sink set-up -/

theorem addServers_error (resolves : Str → Bool) (l : List Str)
    (h : ∃ seg ∈ l, resolves seg = false) : ∃ e, addServers resolves l = .error e := by
  induction l with
  | nil => obtain ⟨seg, hs, _⟩ := h; cases hs
  | cons x t ih =>
    unfold addServers
    by_cases hx : resolves x = true
    · rw [if_pos hx]
      obtain ⟨seg, hs, hf⟩ := h
      rcases List.mem_cons.mp hs with rfl | hs
      · rw [hf] at hx; cases hx
      · exact ih ⟨seg, hs, hf⟩
    · rw [if_neg hx]; exact ⟨x, rfl⟩

theorem splitOn_of_not_mem (sep : Char) (s : Str) (h : sep ∉ s) : splitOn sep s = [s] := by
  induction s with
  | nil => rfl
  | cons c t ih =>
    have hc : ¬ c = sep := fun e => h (e ▸ List.mem_cons_self _ _)
    have ht : sep ∉ t := fun e => h (List.mem_cons_of_mem _ e)
    simp only [splitOn, hc, if_false, ih ht]

theorem setupGanglia_error (cfg : Config) (resolves : Str → Bool)
    (hne : cfg.gangliaAddress ≠ [])
    (hfail : ∃ seg ∈ splitOn ',' cfg.gangliaAddress, resolves seg = false) :
    ∃ e, setupGanglia cfg resolves = .error e := by
  unfold setupGanglia
  rw [if_pos hne]
  by_cases hc : ',' ∈ cfg.gangliaAddress
  · rw [if_pos hc]
    obtain ⟨e, he⟩ := addServers_error resolves _ hfail
    rw [he]
    exact ⟨e, rfl⟩
  · rw [if_neg hc]
    rw [splitOn_of_not_mem ',' _ hc] at hfail
    obtain ⟨seg, hs, hf⟩ := hfail
    rw [List.mem_singleton] at hs
    subst hs
    rw [hf]
    exact ⟨_, rfl⟩

/-! ## Lemmas on `applyPacket` -/

theorem applyPacket_timers_get? (P : Platform) (st : State) (s : Packet) (b : Str)
    (h : s.Modifier ≠ ['m', 's'] ∨ s.Bucket ≠ b) :
    (applyPacket P st s).timers.get? b = st.timers.get? b := by
  unfold applyPacket
  by_cases hms : s.Modifier = ['m', 's']
  · have hb : b ≠ s.Bucket := by
      rcases h with h | h
      · exact absurd hms h
      · exact fun e => h e.symm
    simp only [hms, if_true]
    rw [GoMap.get?_set_ne _ _ _ _ hb]
    cases hc : st.timers.get? s.Bucket with
    | none => simp only [GoMap.get?_set_ne _ _ _ _ hb]
    | some v => rfl
  · by_cases hg : s.Modifier = ['g']
    · rw [if_neg hms, if_pos hg]
    · rw [if_neg hms, if_neg hg]

theorem applyPacket_timers_of_ne (P : Platform) (st : State) (s : Packet)
    (h : s.Modifier ≠ ['m', 's']) : (applyPacket P st s).timers = st.timers := by
  unfold applyPacket
  by_cases hg : s.Modifier = ['g']
  · rw [if_neg h, if_pos hg]
  · rw [if_neg h, if_neg hg]

theorem applyPacket_counters_of_timer (P : Platform) (st : State) (s : Packet)
    (h : s.Modifier = ['m', 's']) : (applyPacket P st s).counters = st.counters := by
  unfold applyPacket
  rw [if_pos h]

/-- The counter delta of a packet: `int(float32(floatValue) * (1 / s.Sampling))`. -/
theorem applyPacket_counter_get? (P : Platform) (st : State) (s : Packet) (k : Str)
    (hms : s.Modifier ≠ ['m', 's']) (hg : s.Modifier ≠ ['g']) :
    (applyPacket P st s).counters.get? k =
      if k = s.Bucket then
        some (wrapInt64 (st.counters.getD s.Bucket 0 +
          Flt.toInt P (Flt.mul binary32 (Flt.convert binary32 (parseFloat binary32 s.Value).1)
            (Flt.div binary32 Flt.one s.Sampling))))
      else st.counters.get? k := by
  by_cases hk : k = s.Bucket
  · rw [if_pos hk, hk]; exact applyPacket_counter P st s hms hg
  · rw [if_neg hk]
    exact applyPacket_counters_get? P st s k (Or.inr (Or.inr (fun e => hk e.symm)))

theorem wrapInt64_add_comm (a x y : Int) :
    wrapInt64 (wrapInt64 (a + x) + y) = wrapInt64 (wrapInt64 (a + y) + x) := by
  unfold wrapInt64
  omega

/-! ## Lemmas on the totality of the parser -/

/-- The repetition never runs out of fuel: any bound above the length of the
input gives the same result. -/
theorem plusLoop_fuel (m : Str → Caps → (Str → Caps → MatchResult) → MatchResult) :
    ∀ (n1 n2 : Nat) (s : Str) (c : Caps) (k : Str → Caps → MatchResult),
      s.length < n1 → s.length < n2 → plusLoop m n1 s c k = plusLoop m n2 s c k := by
  intro n1
  induction n1 with
  | zero => intro n2 s c k h; omega
  | succ n1 ih =>
    intro n2 s c k h1 h2
    cases n2 with
    | zero => omega
    | succ n2 =>
      unfold plusLoop
      congr 1
      funext s1 c1
      by_cases hlt : s1.length < s.length
      · rw [if_pos hlt, if_pos hlt, ih n2 s1 c1 k (by omega) (by omega)]
      · rw [if_neg hlt, if_neg hlt]

/-- The scan for successive matches never runs out of fuel. -/
theorem findAllFuel_fuel (re : Re) :
    ∀ (n1 n2 : Nat) (s : Str), s.length < n1 → s.length < n2 →
      re.findAllFuel n1 s = re.findAllFuel n2 s := by
  intro n1
  induction n1 with
  | zero => intro n2 s h; omega
  | succ n1 ih =>
    intro n2 s h1 h2
    cases n2 with
    | zero => omega
    | succ n2 =>
      unfold Re.findAllFuel
      cases re.find s with
      | none => rfl
      | some r =>
        dsimp only
        by_cases hlt : r.2.2.length < s.length
        · rw [if_pos hlt, if_pos hlt, ih n2 r.2.2 (by omega) (by omega)]
        · rw [if_neg hlt, if_neg hlt]

/-- The replacement loop never runs out of fuel. -/
theorem replaceAllFuel_fuel (re : Re) (repl : Str) :
    ∀ (n1 n2 : Nat) (s : Str), s.length < n1 → s.length < n2 →
      re.replaceAllFuel repl n1 s = re.replaceAllFuel repl n2 s := by
  intro n1
  induction n1 with
  | zero => intro n2 s h; omega
  | succ n1 ih =>
    intro n2 s h1 h2
    cases n2 with
    | zero => omega
    | succ n2 =>
      unfold Re.replaceAllFuel
      cases re.find s with
      | none => rfl
      | some r =>
        dsimp only
        by_cases hlt : r.2.2.length < s.length
        · rw [if_pos hlt, if_pos hlt, ih n2 r.2.2 (by omega) (by omega)]
        · rw [if_neg hlt, if_neg hlt]

theorem findAllFuel_length (re : Re) : ∀ (n : Nat) (s : Str), (re.findAllFuel n s).length ≤ n := by
  intro n
  induction n with
  | zero => intro s; exact Nat.le_refl 0
  | succ n ih =>
    intro s
    unfold Re.findAllFuel
    cases re.find s with
    | none => exact Nat.zero_le _
    | some r =>
      dsimp only
      by_cases hlt : r.2.2.length < s.length
      · rw [if_pos hlt, List.length_cons]
        exact Nat.succ_le_succ (ih r.2.2)
      · rw [if_neg hlt]
        exact Nat.succ_le_succ (Nat.zero_le _)

/-- A match of the packet pattern is never empty, so each search of the scan
resumes on a shorter text. -/
theorem find_packet_progress (s : Str) (r : Str × Caps × Str)
    (h : packetRegexp.find s = some r) : r.2.2.length < s.length := by
  obtain ⟨pre, c, rest⟩ := r
  obtain ⟨e, hv, hs, _⟩ := find_packet_sound s pre c rest h
  have hne := Encoding.text_ne_nil e hv
  have hpos : 0 < e.text.length := List.length_pos.mpr hne
  rw [hs]
  simp only [List.length_append]
  omega

/-- Every packet `handleMessage` sends comes from a valid encoding that occurs
in the sanitised text. -/
theorem handleMessage_sound (buf : Str) (s : Packet) (hs : s ∈ handleMessage buf) :
    ∃ (e : Encoding) (pre rest : Str), e.valid = true ∧
      buf.filter isSanitary = pre ++ e.text ++ rest ∧ s = packetOfItem e.caps.item := by
  unfold handleMessage at hs
  rw [List.mem_map] at hs
  obtain ⟨c, hc, rfl⟩ := hs
  obtain ⟨e, pre, rest, hv, htxt, rfl⟩ := findAllFuel_sound _ _ c hc
  rw [sanitize_eq_filter] at htxt
  exact ⟨e, pre, rest, hv, htxt, rfl⟩

theorem Encoding.colon_mem_text (e : Encoding) : ':' ∈ e.text := by
  unfold Encoding.text
  exact List.mem_append_right _ (List.mem_cons_self _ _)

theorem Encoding.bar_mem_text (e : Encoding) : '|' ∈ e.text := by
  unfold Encoding.text
  exact List.mem_append_right _ (List.mem_cons_of_mem _
    (List.mem_append_right _ (List.mem_cons_self _ _)))

/-- A datagram that yields a packet contains the character `x` of every
encoding. -/
theorem handleMessage_nil_of_not_mem (buf : Str) (x : Char)
    (hx : ∀ e : Encoding, x ∈ e.text) (h : x ∉ buf) : handleMessage buf = [] := by
  cases hm : handleMessage buf with
  | nil => rfl
  | cons s t =>
    exfalso
    obtain ⟨e, pre, rest, _, htxt, _⟩ := handleMessage_sound buf s (by rw [hm]; exact List.mem_cons_self _ _)
    have h1 : x ∈ buf.filter isSanitary := by
      rw [htxt]
      exact List.mem_append_left _ (List.mem_append_right _ (hx e))
    exact h (List.mem_filter.mp h1).1

/-! ## Lemmas on the sampling rate of a packet -/

theorem sign_of_no_minus (s : Str) :
    (∀ t, s ≠ '-' :: t) →
      (match s with
        | '-' :: t => (true, t)
        | '+' :: t => (false, t)
        | _ => (false, s) : Bool × Str).1 = false := by
  intro hs
  split
  · rename_i t
    exact absurd rfl (hs t)
  · rfl
  · rfl

/-- The sign `readFloat` reports is that of a leading `-`. -/
theorem readFloat_sign (s : Str) (neg : Bool) (d sc : Nat)
    (h : readFloat s = some (neg, d, sc)) (hs : ∀ t, s ≠ '-' :: t) : neg = false := by
  have hsg := sign_of_no_minus s hs
  unfold readFloat at h
  revert h
  lift_lets
  intro signed ip fp h
  by_cases h1 : ip.2.1 + fp.2.1 = 0
  · rw [if_pos h1] at h; cases h
  · rw [if_neg h1] at h
    by_cases h2 : fp.2.2 ≠ []
    · rw [if_pos h2] at h; cases h
    · rw [if_neg h2] at h
      simp only [Option.some.injEq, Prod.mk.injEq] at h
      rw [← h.1]; exact hsg

/-- Rounding yields an infinity or a finite number, of the sign asked for. -/
theorem roundQ_cases (F : Fmt) (neg : Bool) (n d : Nat) :
    roundQ F neg n d = .inf neg ∨ ∃ m e, roundQ F neg n d = .fin neg m e := by
  unfold roundQ
  by_cases hn : n = 0
  · rw [if_pos hn]; exact Or.inr ⟨0, 0, rfl⟩
  rw [if_neg hn]
  lift_lets
  intro e num den q r m
  by_cases hov : F.emax < (log2 m : ℤ) + e
  · rw [if_pos hov]; exact Or.inl rfl
  · rw [if_neg hov]
    unfold Flt.mk
    by_cases hm : m = 0
    · rw [if_pos hm]; exact Or.inr ⟨0, 0, rfl⟩
    · rw [if_neg hm]; exact Or.inr ⟨_, _, rfl⟩

/-- A text without a leading `-` that `ParseFloat` accepts is a finite number
that is not negative. -/
theorem parseFloat_nonneg (F : Fmt) (s : Str) (hs : ∀ t, s ≠ '-' :: t)
    (h : (parseFloat F s).2 = false) : ∃ m e, (parseFloat F s).1 = .fin false m e := by
  unfold parseFloat at h ⊢
  cases hr : readFloat s with
  | none => rw [hr] at h; cases h
  | some r =>
    obtain ⟨neg, d, sc⟩ := r
    have hneg := readFloat_sign s neg d sc hr hs
    subst hneg
    rw [hr] at h
    dsimp only at h ⊢
    rcases roundQ_cases F false d (10 ^ sc) with h1 | ⟨m, e, h1⟩
    · rw [h1] at h; cases h
    · rw [h1]; exact ⟨m, e, rfl⟩

theorem rate_no_minus (e : Encoding) (hv : e.valid = true) (t : Str) :
    e.rate.getD [] ≠ '-' :: t := by
  intro h
  cases hr : e.rate with
  | none => rw [hr] at h; cases h
  | some r =>
    rw [hr] at h
    simp only [Option.getD_some] at h
    have := ((Encoding.valid_iff e).mp hv).2.2.2.2.2 r hr
    have h2 := this.2 '-' (by rw [h]; exact List.mem_cons_self _ _)
    rw [isValueChar_minus] at h2
    cases h2

/-- The sampling rate of a parsed packet is a finite `float32` that is not
negative. -/
theorem handleMessage_sampling (buf : Str) (s : Packet) (hs : s ∈ handleMessage buf) :
    (∃ m e, s.Sampling = .fin false m e) ∧ s.Sampling.inFormat binary32 := by
  obtain ⟨e, pre, rest, hv, _, rfl⟩ := handleMessage_sound buf s hs
  unfold packetOfItem
  dsimp only
  rw [Encoding.item_five]
  by_cases herr : (parseFloat binary32 (e.rate.getD [])).2 = true
  · rw [if_pos herr]
    have h1 : Flt.convert binary32 Flt.one = Flt.one := by decide
    rw [h1]
    exact ⟨⟨1, 0, rfl⟩, Or.inr ⟨by decide, by decide, by decide, by decide⟩⟩
  · rw [if_neg herr, convert_parseFloat]
    refine ⟨parseFloat_nonneg binary32 _ (rate_no_minus e hv) ?_,
      parseFloat_inFormat binary32 (by decide) _⟩
    cases hp : (parseFloat binary32 (e.rate.getD [])).2 with
    | true => exact absurd hp herr
    | false => rfl

/-! ## Lemmas on the keys of `counters` -/

theorem run_tick_inv (cfg : Config) (P : Platform) (st st2 : State) (r : Str → Bool)
    (rest : List Event) (fls : List Flush)
    (h : run cfg P st (Event.tick r :: rest) = .ok (fls, st2)) :
    ∃ fl st1 fls2, submit cfg r st = .ok (fl, st1) ∧ run cfg P st1 rest = .ok (fls2, st2) := by
  rw [run_cons] at h
  simp only [monitorStep] at h
  cases hsub : submit cfg r st with
  | error e => rw [hsub] at h; cases h
  | ok x =>
    rw [hsub] at h
    dsimp only at h
    cases hrest : run cfg P x.2 rest with
    | error e => rw [hrest] at h; cases h
    | ok r2 =>
      rw [hrest] at h
      simp only [Except.ok.injEq, Prod.mk.injEq] at h
      exact ⟨x.1, x.2, r2.1, rfl, h.2 ▸ hrest⟩

theorem run_packet_inv (cfg : Config) (P : Platform) (st st2 : State) (s : Packet)
    (rest : List Event) (fls : List Flush)
    (h : run cfg P st (Event.packet s :: rest) = .ok (fls, st2)) :
    ∃ fls2, run cfg P (applyPacket P st s) rest = .ok (fls2, st2) := by
  rw [run_cons] at h
  simp only [monitorStep] at h
  cases hrest : run cfg P (applyPacket P st s) rest with
  | error e => rw [hrest] at h; cases h
  | ok r2 =>
    rw [hrest] at h
    simp only [Except.ok.injEq, Prod.mk.injEq] at h
    exact ⟨r2.1, h.2 ▸ rfl⟩

theorem GoMap.mem_keys_iff {α : Type} (m : GoMap α) (k : Str) :
    k ∈ m.keys ↔ ∃ v, m.get? k = some v := by
  constructor
  · intro h
    cases hg : m.get? k with
    | none => exact absurd h ((GoMap.get?_eq_none m k).mp hg)
    | some v => exact ⟨v, rfl⟩
  · intro ⟨v, hv⟩
    by_contra hk
    rw [(GoMap.get?_eq_none m k).mpr hk] at hv
    cases hv

/-- The keys of `counters` after one packet. -/
theorem applyPacket_counters_keys (P : Platform) (st : State) (s : Packet) (b : Str) :
    b ∈ (applyPacket P st s).counters.keys ↔
      b ∈ st.counters.keys ∨
        (s.Modifier ≠ ['m', 's'] ∧ s.Modifier ≠ ['g'] ∧ s.Bucket = b) := by
  rw [GoMap.mem_keys_iff, GoMap.mem_keys_iff]
  by_cases hms : s.Modifier = ['m', 's']
  · rw [applyPacket_counters_get? P st s b (Or.inl hms)]
    exact ⟨Or.inl, fun h => h.elim id (fun h2 => absurd hms h2.1)⟩
  · by_cases hg : s.Modifier = ['g']
    · rw [applyPacket_counters_get? P st s b (Or.inr (Or.inl hg))]
      exact ⟨Or.inl, fun h => h.elim id (fun h2 => absurd hg h2.2.1)⟩
    · rw [applyPacket_counter_get? P st s b hms hg]
      by_cases hb : b = s.Bucket
      · rw [if_pos hb]
        exact ⟨fun _ => Or.inr ⟨hms, hg, hb.symm⟩, fun _ => ⟨_, rfl⟩⟩
      · rw [if_neg hb]
        exact ⟨Or.inl, fun h => h.elim id (fun h2 => absurd h2.2.2.symm hb)⟩

/-- A flush keeps the keys of `counters`. -/
theorem submit_counters_keys (cfg : Config) (resolves : Str → Bool) (st st1 : State)
    (fl : Flush) (h : submit cfg resolves st = .ok (fl, st1)) (b : Str) :
    b ∈ st1.counters.keys ↔ b ∈ st.counters.keys := by
  rw [GoMap.mem_keys_iff, GoMap.mem_keys_iff, submit_counters_get? cfg resolves st st1 fl h b]
  cases st.counters.get? b with
  | none => exact ⟨fun ⟨v, hv⟩ => (by cases hv), fun ⟨v, hv⟩ => (by cases hv)⟩
  | some v => exact ⟨fun _ => ⟨v, rfl⟩, fun _ => ⟨0, rfl⟩⟩

/-- The keys of `counters` after a run: those at its start and the buckets of
the counter packets received. -/
theorem run_counters_keys (cfg : Config) (P : Platform) (b : Str) (evs : List Event) :
    ∀ (st st2 : State) (fls : List Flush), run cfg P st evs = .ok (fls, st2) →
      (b ∈ st2.counters.keys ↔ b ∈ st.counters.keys ∨
        ∃ s, Event.packet s ∈ evs ∧ s.Modifier ≠ ['m', 's'] ∧ s.Modifier ≠ ['g'] ∧
          s.Bucket = b) := by
  induction evs with
  | nil =>
    intro st st2 fls h
    simp only [run, Except.ok.injEq, Prod.mk.injEq] at h
    rw [← h.2]
    exact ⟨Or.inl, fun h => h.elim id (fun ⟨s, hs, _⟩ => by cases hs)⟩
  | cons ev rest ih =>
    intro st st2 fls h
    cases ev with
    | tick r =>
      obtain ⟨fl, st1, fls2, hsub, hrest⟩ := run_tick_inv cfg P st st2 r rest fls h
      rw [ih st1 st2 fls2 hrest, submit_counters_keys cfg r st st1 fl hsub b]
      constructor
      · rintro (h1 | ⟨s, hs, h2⟩)
        · exact Or.inl h1
        · exact Or.inr ⟨s, List.mem_cons_of_mem _ hs, h2⟩
      · rintro (h1 | ⟨s, hs, h2⟩)
        · exact Or.inl h1
        · rcases List.mem_cons.mp hs with h3 | h3
          · cases h3
          · exact Or.inr ⟨s, h3, h2⟩
    | packet p =>
      obtain ⟨fls2, hrest⟩ := run_packet_inv cfg P st st2 p rest fls h
      rw [ih _ st2 fls2 hrest, applyPacket_counters_keys]
      constructor
      · rintro ((h1 | h1) | ⟨s, hs, h2⟩)
        · exact Or.inl h1
        · exact Or.inr ⟨p, List.mem_cons_self _ _, h1⟩
        · exact Or.inr ⟨s, List.mem_cons_of_mem _ hs, h2⟩
      · rintro (h1 | ⟨s, hs, h2⟩)
        · exact Or.inl (Or.inl h1)
        · rcases List.mem_cons.mp hs with h3 | h3
          · cases h3
            exact Or.inl (Or.inr h2)
          · exact Or.inr ⟨s, h3, h2⟩

theorem mem_updatesSinceFlush (evs : List Event) (hno : evs.any Event.isTick = false)
    (s : Packet) (hs : Event.packet s ∈ evs) : s ∈ updatesSinceFlush evs := by
  induction evs with
  | nil => cases hs
  | cons ev rest ih =>
    rw [List.any_cons, Bool.or_eq_false_iff] at hno
    cases ev with
    | tick r => cases hno.1
    | packet p =>
      unfold updatesSinceFlush
      rw [hno.2]
      simp only [Bool.false_eq_true, if_false]
      rcases List.mem_cons.mp hs with h3 | h3
      · cases h3; exact List.mem_cons_self _ _
      · exact List.mem_cons_of_mem _ (ih hno.2 h3)

/-- After a flush, a key of `counters` whose bucket received no counter packet
since the most recent flush holds zero. -/
theorem run_zero_since_flush (cfg : Config) (P : Platform) (b : Str) (evs : List Event) :
    ∀ (st st2 : State) (fls : List Flush), run cfg P st evs = .ok (fls, st2) →
      evs.any Event.isTick = true →
      (∀ s ∈ updatesSinceFlush evs,
        s.Modifier = ['m', 's'] ∨ s.Modifier = ['g'] ∨ s.Bucket ≠ b) →
      b ∈ st2.counters.keys → st2.counters.get? b = some 0 := by
  induction evs with
  | nil => intro st st2 fls _ h; cases h
  | cons ev rest ih =>
    intro st st2 fls h hany hno hb
    cases ev with
    | tick r =>
      obtain ⟨fl, st1, fls2, hsub, hrest⟩ := run_tick_inv cfg P st st2 r rest fls h
      have hno2 : ∀ s ∈ updatesSinceFlush rest,
          s.Modifier = ['m', 's'] ∨ s.Modifier = ['g'] ∨ s.Bucket ≠ b := hno
      cases hrt : rest.any Event.isTick with
      | true => exact ih st1 st2 fls2 hrest hrt hno2 hb
      | false =>
        have hall : ∀ s, Event.packet s ∈ rest →
            s.Modifier = ['m', 's'] ∨ s.Modifier = ['g'] ∨ s.Bucket ≠ b :=
          fun s hs => hno2 s (mem_updatesSinceFlush rest hrt s hs)
        cases hg : st.counters.get? b with
        | some v =>
          have h1 : st1.counters.get? b = some 0 := by
            rw [submit_counters_get? cfg r st st1 fl hsub b, hg]; rfl
          exact run_keeps_zero cfg P b rest st1 st2 fls2 h1 hall hrest
        | none =>
          exfalso
          rcases (run_counters_keys cfg P b rest st1 st2 fls2 hrest).mp hb with h1 | ⟨s, hs, h2⟩
          · rw [submit_counters_keys cfg r st st1 fl hsub b] at h1
            exact (GoMap.get?_eq_none _ _).mp hg h1
          · rcases hall s hs with h3 | h3 | h3
            · exact h2.1 h3
            · exact h2.2.1 h3
            · exact h3 h2.2.2
    | packet p =>
      obtain ⟨fls2, hrest⟩ := run_packet_inv cfg P st st2 p rest fls h
      have hrt : rest.any Event.isTick = true := by
        rw [List.any_cons] at hany
        exact hany
      have hno2 : ∀ s ∈ updatesSinceFlush rest,
          s.Modifier = ['m', 's'] ∨ s.Modifier = ['g'] ∨ s.Bucket ≠ b := by
        intro s hs
        apply hno
        unfold updatesSinceFlush
        rw [if_pos hrt]
        exact hs
      exact ih _ st2 fls2 hrest hrt hno2 hb

/-- The calls of a flush for one bucket of `counters`. -/
theorem submit_count_calls (cfg : Config) (resolves : Str → Bool) (st st1 : State) (fl : Flush)
    (h : submit cfg resolves st = .ok (fl, st1)) (b : Str) (v : Int)
    (hget : st.counters.get? b = some v) :
    fl.calls.filter (fun m => decide (m.name = "count_".toList ++ b)) =
      [⟨"count_".toList ++ b, "count".toList,
        Flt.div binary64 (Flt.ofInt binary64 v) (Flt.ofInt binary64 cfg.calculationInterval)⟩] := by
  rw [(submit_inv cfg resolves st st1 fl h).1]
  rw [List.filter_append, submitCounters_calls]
  rw [filter_name_of_entries "count_".toList _ (fun _ => rfl) b v st.counters.entries
    st.counters.nodup hget]
  rw [filter_name_disjoint "avg_".toList "count_".toList
    (fun nt : Str × List Flt => submitTimer nt.1 nt.2) submitTimer_name avg_ne_count b]
  rfl

/-! ## Lemmas on a counter value that is a syntax error -/

theorem parseFloat_syntax_error (F : Fmt) (s : Str) (h : readFloat s = none) :
    parseFloat F s = (Flt.zero, true) := by
  unfold parseFloat
  rw [h]

theorem roundDyadic_zero (F : Fmt) (neg : Bool) (e : Int) :
    roundDyadic F neg 0 e = .fin neg 0 0 := by
  unfold roundDyadic roundQ
  by_cases he : 0 ≤ e
  · rw [if_pos he]; simp only [Nat.zero_mul, if_true]
  · rw [if_neg he]; simp only [if_true]

/-- A syntax error in the value of a counter packet makes the delta zero,
provided the reciprocal of the sampling rate is finite. -/
theorem counter_delta_zero (P : Platform) (s : Packet) (sg : Bool) (m : Nat) (e : Int)
    (hval : readFloat s.Value = none)
    (hrate : Flt.div binary32 Flt.one s.Sampling = .fin sg m e) :
    Flt.toInt P (Flt.mul binary32 (Flt.convert binary32 (parseFloat binary32 s.Value).1)
      (Flt.div binary32 Flt.one s.Sampling)) = 0 := by
  rw [parseFloat_syntax_error binary32 s.Value hval, hrate]
  have h1 : Flt.convert binary32 (Flt.zero, true).1 = .fin false 0 0 := by decide
  rw [h1]
  have h2 : Flt.mul binary32 (.fin false 0 0) (.fin sg m e) = .fin (xor false sg) 0 0 := by
    simp only [Flt.mul, Nat.zero_mul, roundDyadic_zero]
  rw [h2]
  cases sg <;> rfl

/-- The conversion of a positive integer to a float is not zero. -/
theorem ofInt_pos (F : Fmt) (hp : 1 ≤ F.prec) (he : F.eminSub ≤ 0) (n : Int) (hn : 0 < n) :
    Flt.ofInt F n = .inf false ∨ ∃ m e, Flt.ofInt F n = .fin false m e ∧ m ≠ 0 := by
  unfold Flt.ofInt
  have hneg : decide (n < 0) = false := by
    rw [decide_eq_false_iff_not]; omega
  rw [hneg]
  have hpos : 0 < n.natAbs := by omega
  rcases roundQ_cases F false n.natAbs 1 with h | ⟨m, e, h⟩
  · exact Or.inl h
  · refine Or.inr ⟨m, e, h, ?_⟩
    intro hm
    subst hm
    have hu := (roundQ_half_ulp F false n.natAbs 1 hpos Nat.one_pos false 0 e h).2
    simp only [Nat.cast_zero, zero_mul, Nat.cast_one, div_one, zero_sub, abs_neg] at hu
    have hq : (1 : ℚ) ≤ (n.natAbs : ℚ) := by exact_mod_cast hpos
    have habs : |(n.natAbs : ℚ)| = (n.natAbs : ℚ) := abs_of_nonneg (by linarith)
    rw [habs] at hu
    have hlog : (2 : ℚ) ^ (Int.log 2 (n.natAbs : ℚ)) ≤ (n.natAbs : ℚ) :=
      Int.zpow_log_le_self (by norm_num) (by linarith)
    have hmax : (2 : ℚ) ^ (max (Int.log 2 (n.natAbs : ℚ) - ((F.prec : ℤ) - 1)) F.eminSub) ≤
        (n.natAbs : ℚ) := by
      rcases max_cases (Int.log 2 (n.natAbs : ℚ) - ((F.prec : ℤ) - 1)) F.eminSub with
        ⟨h1, _⟩ | ⟨h1, _⟩
      · rw [h1]
        have hk : Int.log 2 (n.natAbs : ℚ) - ((F.prec : ℤ) - 1) ≤ Int.log 2 (n.natAbs : ℚ) := by
          have : (1 : ℤ) ≤ (F.prec : ℤ) := by exact_mod_cast hp
          omega
        exact le_trans (zpow_le_zpow_right₀ (by norm_num) hk) hlog
      · rw [h1]
        have h0 : (2 : ℚ) ^ F.eminSub ≤ (2 : ℚ) ^ (0 : ℤ) :=
          zpow_le_zpow_right₀ (by norm_num) he
        rw [zpow_zero] at h0
        linarith
    linarith

/-- The average of a zero count over a positive interval is `+0`. -/
theorem zero_div_ofInt (n : Int) (hn : 0 < n) :
    Flt.div binary64 (Flt.ofInt binary64 0) (Flt.ofInt binary64 n) = Flt.zero := by
  have h0 : Flt.ofInt binary64 0 = .fin false 0 0 := by decide
  rw [h0]
  rcases ofInt_pos binary64 (by decide) (by decide) n hn with h | ⟨m, e, h, hm⟩
  · rw [h]; rfl
  · rw [h]
    simp only [Flt.div, hm, if_false]
    split
    · simp only [Nat.zero_mul, roundQ, if_true, Bool.xor_false]; rfl
    · simp only [roundQ, if_true, Bool.xor_false]; rfl

/-! ## Lemmas on the range of rounding -/

/-- Rounding a quotient that is at most the integer `N` gives at most `N`. -/
theorem nearest_le (num den N : Nat) (hden : 0 < den) (h : num ≤ N * den) :
    (if 2 * (num % den) < den then num / den
      else if den < 2 * (num % den) then num / den + 1
      else if num / den % 2 = 0 then num / den else num / den + 1) ≤ N := by
  have hq : num / den ≤ N := Nat.div_le_of_le_mul (by rw [Nat.mul_comm]; exact h)
  have hsplit := Nat.div_add_mod num den
  by_cases hN : num / den = N
  · have hr : num % den = 0 := by
      rw [hN] at hsplit
      have : den * N + num % den ≤ N * den := by rw [hsplit]; exact h
      rw [Nat.mul_comm] at this
      omega
    rw [hr]
    simp only [Nat.mul_zero, hden, if_true]
    exact hq
  · have hlt : num / den + 1 ≤ N := by omega
    split
    · exact hq
    · split
      · exact hlt
      · split
        · exact hq
        · exact hlt

/-- Rounding does not overflow on a number that is at most a power of two
within the range of the format. -/
theorem roundQ_finite_of_le (F : Fmt) (hp : 1 ≤ F.prec) (neg : Bool) (n d : Nat)
    (hn : 0 < n) (hd : 0 < d) (k : Int) (hk : (n : ℚ) / d ≤ (2 : ℚ) ^ k)
    (hkmax : k ≤ F.emax) (hkmin : F.eminSub ≤ k) :
    ∃ m e, roundQ F neg n d = .fin neg m e := by
  have hnq : (0 : ℚ) < n := by exact_mod_cast hn
  have hdq : (0 : ℚ) < d := by exact_mod_cast hd
  have hr : (0 : ℚ) < (n : ℚ) / d := div_pos hnq hdq
  have hlog : ilog2Ratio n d ≤ k := by
    rw [ilog2Ratio_eq n d hn hd]
    have h1 : (n : ℚ) / d < (2 : ℚ) ^ (k + 1) :=
      lt_of_le_of_lt hk (zpow_lt_zpow_right₀ (by norm_num) (by omega))
    have h2 := (Int.lt_zpow_iff_log_lt (by decide : 1 < 2) hr).mp (by exact_mod_cast h1)
    omega
  rcases roundQ_cases F neg n d with h | h
  · exfalso
    revert h
    unfold roundQ
    rw [if_neg (by omega)]
    lift_lets
    intro e num den q r m
    have hek : e ≤ k := by
      show max (ilog2Ratio n d - ((F.prec : ℤ) - 1)) F.eminSub ≤ k
      have : (1 : ℤ) ≤ (F.prec : ℤ) := by exact_mod_cast hp
      omega
    obtain ⟨j, hj⟩ : ∃ j : ℕ, (j : ℤ) = k - e := ⟨(k - e).toNat, by omega⟩
    have hden : 0 < den := by
      show 0 < (if 0 ≤ e then d * 2 ^ e.toNat else d)
      split <;> positivity
    have hdenq : (0 : ℚ) < (den : ℚ) := by exact_mod_cast hden
    have hratio : (num : ℚ) / den = (n : ℚ) / d / (2 : ℚ) ^ e := scaled_ratio n d hd e
    have hle : num ≤ 2 ^ j * den := by
      have h1 : (num : ℚ) / den ≤ (2 : ℚ) ^ j := by
        rw [hratio, div_le_iff₀ (by positivity), ← zpow_natCast, hj, ← zpow_add₀ (by norm_num)]
        rw [show k - e + e = k from by ring]
        exact hk
      rw [div_le_iff₀ hdenq] at h1
      exact_mod_cast h1
    have hm : m ≤ 2 ^ j := nearest_le num den (2 ^ j) hden hle
    have hlm : log2 m ≤ j := by
      rw [log2_eq]
      calc Nat.log 2 m ≤ Nat.log 2 (2 ^ j) := Nat.log_mono_right hm
        _ = j := Nat.log_pow (by decide) j
    have hov : ¬ F.emax < (log2 m : ℤ) + e := by
      have : (log2 m : ℤ) ≤ (j : ℤ) := by exact_mod_cast hlm
      omega
    rw [if_neg hov]
    unfold Flt.mk
    split
    · intro h; cases h
    · intro h; cases h
  · exact h

/-- The reciprocal of a `float32` that is at least `2^-127` is finite. -/
theorem reciprocal_finite (m : Nat) (e : Int) (hm : 0 < m)
    (hR : (2 : ℚ) ^ (-127 : ℤ) ≤ (m : ℚ) * (2 : ℚ) ^ e) :
    ∃ m1 e1, Flt.div binary32 Flt.one (.fin false m e) = .fin false m1 e1 := by
  have hmq : (0 : ℚ) < m := by exact_mod_cast hm
  have h2e : (0 : ℚ) < (2 : ℚ) ^ e := by positivity
  have hinv : (1 : ℚ) / ((m : ℚ) * (2 : ℚ) ^ e) ≤ (2 : ℚ) ^ (127 : ℤ) := by
    rw [div_le_iff₀ (by positivity)]
    calc (1 : ℚ) = (2 : ℚ) ^ (127 : ℤ) * (2 : ℚ) ^ (-127 : ℤ) := by
          rw [← zpow_add₀ (by norm_num)]; norm_num
      _ ≤ (2 : ℚ) ^ (127 : ℤ) * ((m : ℚ) * (2 : ℚ) ^ e) :=
          mul_le_mul_of_nonneg_left hR (by positivity)
  unfold Flt.div Flt.one
  simp only [Nat.pos_iff_ne_zero.mp hm, if_false, Bool.xor_false]
  by_cases hk : 0 ≤ 0 - e
  · rw [if_pos hk]
    obtain ⟨j, hj⟩ : ∃ j : ℕ, (j : ℤ) = -e := ⟨(0 - e).toNat, by omega⟩
    have hjt : (0 - e).toNat = j := by omega
    rw [hjt]
    apply roundQ_finite_of_le binary32 (by decide) false (1 * 2 ^ j) m (by positivity) hm 127
    · have : (((1 * 2 ^ j : ℕ) : ℚ)) / m = 1 / ((m : ℚ) * (2 : ℚ) ^ e) := by
        have he : e = -(j : ℤ) := by omega
        rw [he, zpow_neg, zpow_natCast]
        push_cast
        field_simp
      rw [this]; exact hinv
    · decide
    · decide
  · rw [if_neg hk]
    obtain ⟨j, hj⟩ : ∃ j : ℕ, (j : ℤ) = e := ⟨e.toNat, by omega⟩
    have hjt : (-(0 - e)).toNat = j := by omega
    rw [hjt]
    apply roundQ_finite_of_le binary32 (by decide) false 1 (m * 2 ^ j) Nat.one_pos
      (by positivity) 127
    · have : ((1 : ℕ) : ℚ) / ((m * 2 ^ j : ℕ) : ℚ) = 1 / ((m : ℚ) * (2 : ℚ) ^ e) := by
        rw [← hj, zpow_natCast]
        push_cast
        rfl
      rw [this]; exact hinv
    · decide
    · decide

/-- A number that rounds to a finite datum is below twice the largest power
of two of the format. -/
theorem roundQ_le_of_finite (F : Fmt) (neg : Bool) (n d : Nat) (hn : 0 < n) (hd : 0 < d)
    (s : Bool) (m : Nat) (e : Int) (h : roundQ F neg n d = .fin s m e) :
    (n : ℚ) / d ≤ (2 : ℚ) ^ (F.emax + 1) := by
  revert h
  unfold roundQ
  rw [if_neg (by omega)]
  lift_lets
  intro e0 num den q r mr h
  by_cases hov : F.emax < (log2 mr : ℤ) + e0
  · rw [if_pos hov] at h; cases h
  · have hden : 0 < den := by
      show 0 < (if 0 ≤ e0 then d * 2 ^ e0.toNat else d)
      split <;> positivity
    have hdenq : (0 : ℚ) < (den : ℚ) := by exact_mod_cast hden
    have hratio : (num : ℚ) / den = (n : ℚ) / d / (2 : ℚ) ^ e0 := scaled_ratio n d hd e0
    have hqm : q ≤ mr := by
      show num / den ≤ (if 2 * (num % den) < den then num / den
        else if den < 2 * (num % den) then num / den + 1
        else if num / den % 2 = 0 then num / den else num / den + 1)
      split
      · exact Nat.le_refl _
      · split
        · exact Nat.le_succ _
        · split
          · exact Nat.le_refl _
          · exact Nat.le_succ _
    have h1 : num < den * (q + 1) := Nat.lt_mul_div_succ num hden
    have h2 : mr < 2 ^ (log2 mr + 1) := by
      rw [log2_eq]; exact Nat.lt_pow_succ_log_self (by decide) mr
    have h3 : num < den * 2 ^ (log2 mr + 1) :=
      lt_of_lt_of_le h1 (Nat.mul_le_mul_left _ (by omega))
    have h4 : (num : ℚ) / den < (2 : ℚ) ^ ((log2 mr : ℤ) + 1) := by
      rw [div_lt_iff₀ hdenq]
      have : ((num : ℕ) : ℚ) < ((den * 2 ^ (log2 mr + 1) : ℕ) : ℚ) := by exact_mod_cast h3
      push_cast at this
      rw [show ((log2 mr : ℤ) + 1) = ((log2 mr + 1 : ℕ) : ℤ) from by push_cast; rfl, zpow_natCast]
      linarith
    have h5 : (n : ℚ) / d = (num : ℚ) / den * (2 : ℚ) ^ e0 := by
      rw [hratio]; field_simp; ring
    rw [h5]
    calc (num : ℚ) / den * (2 : ℚ) ^ e0 ≤ (2 : ℚ) ^ ((log2 mr : ℤ) + 1) * (2 : ℚ) ^ e0 :=
          mul_le_mul_of_nonneg_right (le_of_lt h4) (by positivity)
      _ = (2 : ℚ) ^ ((log2 mr : ℤ) + 1 + e0) := (zpow_add₀ (by norm_num) _ _).symm
      _ ≤ (2 : ℚ) ^ (F.emax + 1) := zpow_le_zpow_right₀ (by norm_num) (by omega)

/-- A text that `ParseFloat` accepts at 32 bits is accepted at 64 bits. -/
theorem parseFloat_wider (s : Str) (h : (parseFloat binary32 s).2 = false) :
    (parseFloat binary64 s).2 = false := by
  unfold parseFloat at h ⊢
  cases hr : readFloat s with
  | none => rw [hr] at h; cases h
  | some r =>
    obtain ⟨neg, dg, sc⟩ := r
    rw [hr] at h
    dsimp only at h ⊢
    have hd : 0 < 10 ^ sc := by positivity
    by_cases h0 : dg = 0
    · subst h0
      have : roundQ binary64 neg 0 (10 ^ sc) = .fin neg 0 0 := by
        unfold roundQ; rw [if_pos rfl]
      rw [this]
    · rcases roundQ_cases binary32 neg dg (10 ^ sc) with h1 | ⟨m, e, h1⟩
      · rw [h1] at h; cases h
      · have hb := roundQ_le_of_finite binary32 neg dg (10 ^ sc) (by omega) hd neg m e h1
        obtain ⟨m2, e2, h2⟩ := roundQ_finite_of_le binary64 (by decide) neg dg (10 ^ sc)
          (by omega) hd 128 hb (by decide) (by decide)
        rw [h2]
/-- The value text of a timer packet that `handleMessage` sends is one that
`ParseFloat` accepts at 64 bits. -/
theorem handleMessage_timer_value (buf : Str) (s : Packet) (hs : s ∈ handleMessage buf)
    (hms : s.Modifier = ['m', 's']) : (parseFloat binary64 s.Value).2 = false := by
  obtain ⟨e, pre, rest, _, _, rfl⟩ := handleMessage_sound buf s hs
  unfold packetOfItem at hms ⊢
  dsimp only at hms ⊢
  rw [if_pos hms]
  cases hb : (parseFloat binary32 (e.caps.item 2)).2 with
  | true =>
    simp only [if_true]
    decide
  | false =>
    simp only [Bool.false_eq_true, if_false]
    exact parseFloat_wider _ hb

/-! ## The statements of the specification -/

/-- C1 (as amended): a counter update `s` that the parser emits (for any
datagram `buf`) adds to `counters[bucket]`, modulo `2^64`, the `float32` product
`float32(V) * (1 / R)` truncated towards zero (not rounded to the nearest
integer), whenever that product is finite and within the range of `int`. -/
theorem C1_counter_delta_is_truncated (P : Platform) (st : State) (buf : Str) (s : Packet)
    (q : ℚ) (_hs : s ∈ handleMessage buf) (hc : s.Modifier = ['c'])
    (hq : (Flt.mul binary32 (Flt.convert binary32 (parseFloat binary32 s.Value).1)
      (Flt.div binary32 Flt.one s.Sampling)).toRat? = some q)
    (hlo : -(2 ^ 63) ≤ q) (hhi : q < 2 ^ 63) :
    (applyPacket P st s).counters.get? s.Bucket =
      some (wrapInt64 (st.counters.getD s.Bucket 0 + (if 0 ≤ q then ⌊q⌋ else ⌈q⌉))) := by
  rw [applyPacket_counter P st s (by rw [hc]; decide) (by rw [hc]; decide)]
  simp only [Flt.toInt, Flt.truncate?_of_toRat? _ q hq hlo hhi]

/-- C1 (as amended) at a concrete input: `foo:2.75|c` on the empty window. -/
theorem C1_counter_delta_is_truncated_witness :
    (⟨"foo".toList, "2.75".toList, "c".toList, Flt.one⟩ : Packet) ∈
      handleMessage "foo:2.75|c".toList ∧
    (Flt.mul binary32 (Flt.convert binary32 (parseFloat binary32 "2.75".toList).1)
      (Flt.div binary32 Flt.one Flt.one)).toRat? = some (11 / 4) ∧
    (applyPacket amd64 State.init
      ⟨"foo".toList, "2.75".toList, "c".toList, Flt.one⟩).counters.get? "foo".toList =
      some (wrapInt64 (State.init.counters.getD "foo".toList 0 +
        (if (0 : ℚ) ≤ 11 / 4 then ⌊(11 / 4 : ℚ)⌋ else ⌈(11 / 4 : ℚ)⌉))) :=
  have hq : (Flt.mul binary32 (Flt.convert binary32 (parseFloat binary32 "2.75".toList).1)
      (Flt.div binary32 Flt.one Flt.one)).toRat? = some (11 / 4) := by
    rw [show Flt.mul binary32 (Flt.convert binary32 (parseFloat binary32 "2.75".toList).1)
      (Flt.div binary32 Flt.one Flt.one) = Flt.fin false 11 (-2) from by decide]
    norm_num [Flt.toRat?]
  ⟨by decide, hq, C1_counter_delta_is_truncated amd64 State.init "foo:2.75|c".toList
    ⟨"foo".toList, "2.75".toList, "c".toList, Flt.one⟩ (11 / 4) (by decide) rfl hq
    (by norm_num) (by norm_num)⟩

/-- C1 as stated fails, in two ways.  `foo:2.75|c` is a counter update with
value `2.75` and sampling rate `1`; `round(2.75 / 1)` is `3`, and the counter
grows by `2`.  `foo:17|c|@0.85` has value `17` and a sampling rate in `(0,1]`
(the `float32` nearest to `0.85`); `17 / 0.85` is `20`, so is `round(V / R)` for
the `float32` rate `R`, and the counter grows by `19`. -/
theorem C1_rounding_counterexample :
    (handleMessage "foo:2.75|c".toList =
        [⟨"foo".toList, "2.75".toList, "c".toList, Flt.one⟩] ∧
      (parseFloat binary32 "2.75".toList).1.toRat? = some (11 / 4) ∧
      Flt.one.toRat? = some 1 ∧
      round ((11 / 4 : ℚ) / 1) = 3 ∧
      State.init.counters.getD "foo".toList 0 = 0 ∧
      ∀ P : Platform, (applyPacket P State.init
        ⟨"foo".toList, "2.75".toList, "c".toList, Flt.one⟩).counters.getD "foo".toList 0 = 2) ∧
    (handleMessage "foo:17|c|@0.85".toList =
        [⟨"foo".toList, "17".toList, "c".toList, Flt.fin false 7130317 (-23)⟩] ∧
      (parseFloat binary32 "17".toList).1.toRat? = some 17 ∧
      (Flt.fin false 7130317 (-23)).toRat? = some (7130317 / 8388608) ∧
      round ((17 : ℚ) / (7130317 / 8388608)) = 20 ∧
      round ((17 : ℚ) / (85 / 100)) = 20 ∧
      ∀ P : Platform, (applyPacket P State.init
        ⟨"foo".toList, "17".toList, "c".toList,
          Flt.fin false 7130317 (-23)⟩).counters.getD "foo".toList 0 = 19) := by
  refine ⟨⟨by decide, ?_, ?_, ?_, by decide, ?_⟩, ⟨by decide, ?_, ?_, ?_, ?_, ?_⟩⟩
  · rw [show (parseFloat binary32 "2.75".toList).1 = Flt.fin false 11 (-2) from by decide]
    norm_num [Flt.toRat?]
  · norm_num [Flt.toRat?, Flt.one]
  · norm_num [round_eq]
  · intro P
    rw [applyPacket_platform P amd64 State.init _ 2 (by decide)]
    decide
  · rw [show (parseFloat binary32 "17".toList).1 = Flt.fin false 17 0 from by decide]
    norm_num [Flt.toRat?]
  · norm_num [Flt.toRat?]
  · rw [round_eq, Int.floor_eq_iff]; norm_num
  · rw [round_eq, Int.floor_eq_iff]; norm_num
  · intro P
    rw [applyPacket_platform P amd64 State.init _ 19 (by decide)]
    decide

set_option maxRecDepth 100000 in
/-- C2: whenever the sink set-up of `submit` succeeds, `submit` returns and, for
each bucket `b` of `counters`, the calls named `"count_" ++ b` are exactly one,
with unit `"count"` and value `float64(counters[b]) / float64(n)` (for every
interval `n`, in particular `n > 0`).  Scenario: `foo:100|c`, `foo:50|c|@0.5`
and a flush with `n = 10` emit `count_foo = 20.0`. -/
theorem C2_submit_emits_counter_averages (cfg : Config) (resolves : Str → Bool) (st : State)
    (u : Bool) (hsetup : setupGanglia cfg resolves = .ok u) :
    (∃ fl st1, submit cfg resolves st = .ok (fl, st1) ∧
      ∀ b v, st.counters.get? b = some v →
        fl.calls.filter (fun m => decide (m.name = "count_".toList ++ b)) =
          [⟨"count_".toList ++ b, "count".toList,
            Flt.div binary64 (Flt.ofInt binary64 v)
              (Flt.ofInt binary64 cfg.calculationInterval)⟩]) ∧
    (∀ (P : Platform) (r : Str → Bool),
      (run ⟨[], 10⟩ P State.init
        ((handleMessage "foo:100|c".toList ++ handleMessage "foo:50|c|@0.5".toList).map
          Event.packet ++ [Event.tick r])).map Prod.fst =
        .ok [⟨false, [⟨"count_foo".toList, "count".toList, Flt.fin false 5 2⟩]⟩]) ∧
    (Flt.fin false 5 2).toRat? = some 20 := by
  refine ⟨⟨_, _, submit_ok cfg resolves st u hsetup, ?_⟩, ?_, ?_⟩
  · intro b v hget
    rw [List.filter_append, submitCounters_calls]
    rw [filter_name_of_entries "count_".toList _ (fun _ => rfl) b v st.counters.entries
      st.counters.nodup hget]
    rw [filter_name_disjoint "avg_".toList "count_".toList
      (fun nt : Str × List Flt => submitTimer nt.1 nt.2) submitTimer_name avg_ne_count b]
    rfl
  · intro P r
    have hp : handleMessage "foo:100|c".toList ++ handleMessage "foo:50|c|@0.5".toList =
        [⟨"foo".toList, "100".toList, "c".toList, Flt.one⟩,
         ⟨"foo".toList, "50".toList, "c".toList, Flt.fin false 1 (-1)⟩] := by decide
    have h1 : ∀ s0, applyPacket P s0 ⟨"foo".toList, "100".toList, "c".toList, Flt.one⟩ =
        applyPacket amd64 s0 ⟨"foo".toList, "100".toList, "c".toList, Flt.one⟩ :=
      fun s0 => applyPacket_platform P amd64 s0 _ 100 (by decide)
    have h2 : ∀ s0, applyPacket P s0 ⟨"foo".toList, "50".toList, "c".toList, Flt.fin false 1 (-1)⟩ =
        applyPacket amd64 s0 ⟨"foo".toList, "50".toList, "c".toList, Flt.fin false 1 (-1)⟩ :=
      fun s0 => applyPacket_platform P amd64 s0 _ 100 (by decide)
    rw [hp]
    simp only [List.map, List.cons_append, List.nil_append, run, monitorStep, h1, h2]
    rfl
  · norm_num [Flt.toRat?]

/-- C2 at a concrete input: one counter `foo = 200`, no gmond address, `n = 10`. -/
theorem C2_submit_emits_counter_averages_witness :
    setupGanglia ⟨[], 10⟩ (fun _ => true) = .ok false ∧
    ∃ fl st1,
      submit ⟨[], 10⟩ (fun _ => true)
        (applyPacket amd64 State.init ⟨"foo".toList, "200".toList, "c".toList, Flt.one⟩) =
          .ok (fl, st1) ∧
      ∀ b v,
        (applyPacket amd64 State.init
          ⟨"foo".toList, "200".toList, "c".toList, Flt.one⟩).counters.get? b = some v →
        fl.calls.filter (fun m => decide (m.name = "count_".toList ++ b)) =
          [⟨"count_".toList ++ b, "count".toList,
            Flt.div binary64 (Flt.ofInt binary64 v) (Flt.ofInt binary64 10)⟩] :=
  ⟨rfl, (C2_submit_emits_counter_averages ⟨[], 10⟩ (fun _ => true)
    (applyPacket amd64 State.init ⟨"foo".toList, "200".toList, "c".toList, Flt.one⟩)
    false rfl).1⟩

set_option maxRecDepth 100000 in
/-- C3: whenever the sink set-up of `submit` succeeds, `submit` returns and, for
each bucket `b` of `timers`, the calls named `"avg_" ++ b` are exactly one, with
unit `"ms"` and value `0` for an empty sample list and otherwise the `float64`
sum of the samples divided by their number.  The samples `[10, 20, 30]` give
`20`, and `bar:5|ms`, `bar:15|ms` followed by a flush give `avg_bar = 10.0`. -/
theorem C3_submit_emits_timer_means (cfg : Config) (resolves : Str → Bool) (st : State)
    (u : Bool) (hsetup : setupGanglia cfg resolves = .ok u) :
    (∃ fl st1, submit cfg resolves st = .ok (fl, st1) ∧
      ∀ b samples, st.timers.get? b = some samples →
        fl.calls.filter (fun m => decide (m.name = "avg_".toList ++ b)) =
          [⟨"avg_".toList ++ b, "ms".toList,
            if samples = [] then Flt.zero
            else Flt.div binary64 (samples.foldl (Flt.add binary64) Flt.zero)
              (Flt.ofInt binary64 samples.length)⟩]) ∧
    (submitTimer "t".toList [Flt.ofInt binary64 10, Flt.ofInt binary64 20, Flt.ofInt binary64 30]).value
        = Flt.ofInt binary64 20 ∧
    (∀ (P : Platform) (r : Str → Bool),
      (run ⟨[], 10⟩ P State.init
        ((handleMessage "bar:5|ms".toList ++ handleMessage "bar:15|ms".toList).map
          Event.packet ++ [Event.tick r])).map Prod.fst =
        .ok [⟨false, [⟨"avg_bar".toList, "ms".toList, Flt.fin false 5 1⟩]⟩]) ∧
    (Flt.fin false 5 1).toRat? = some 10 := by
  refine ⟨⟨_, _, submit_ok cfg resolves st u hsetup, ?_⟩, ?_, ?_, ?_⟩
  · intro b samples hget
    rw [List.filter_append, submitCounters_calls]
    rw [filter_name_disjoint "count_".toList "avg_".toList _ (fun _ => rfl)
      (fun x y h => avg_ne_count y x h.symm) b]
    rw [filter_name_of_entries "avg_".toList (fun nt : Str × List Flt => submitTimer nt.1 nt.2)
      submitTimer_name b samples st.timers.entries st.timers.nodup hget]
    simp only [List.nil_append, submitTimer, List.length_eq_zero]
    split <;> rfl
  · decide
  · intro P r
    have hp : handleMessage "bar:5|ms".toList ++ handleMessage "bar:15|ms".toList =
        [⟨"bar".toList, "5".toList, "ms".toList, Flt.one⟩,
         ⟨"bar".toList, "15".toList, "ms".toList, Flt.one⟩] := by decide
    have h1 : ∀ s0, applyPacket P s0 ⟨"bar".toList, "5".toList, "ms".toList, Flt.one⟩ =
        applyPacket amd64 s0 ⟨"bar".toList, "5".toList, "ms".toList, Flt.one⟩ :=
      fun s0 => applyPacket_platform_timer P amd64 s0 _ rfl
    have h2 : ∀ s0, applyPacket P s0 ⟨"bar".toList, "15".toList, "ms".toList, Flt.one⟩ =
        applyPacket amd64 s0 ⟨"bar".toList, "15".toList, "ms".toList, Flt.one⟩ :=
      fun s0 => applyPacket_platform_timer P amd64 s0 _ rfl
    rw [hp]
    simp only [List.map, List.cons_append, List.nil_append, run, monitorStep, h1, h2]
    rfl
  · norm_num [Flt.toRat?]

/-- C3 at a concrete input: one timer `bar = [5, 15]`, no gmond address. -/
theorem C3_submit_emits_timer_means_witness :
    setupGanglia ⟨[], 10⟩ (fun _ => true) = .ok false ∧
    ∃ fl st1,
      submit ⟨[], 10⟩ (fun _ => true)
        ((handleMessage "bar:5|ms bar:15|ms".toList).foldl (applyPacket amd64) State.init) =
          .ok (fl, st1) ∧
      ∀ b samples,
        ((handleMessage "bar:5|ms bar:15|ms".toList).foldl (applyPacket amd64)
          State.init).timers.get? b = some samples →
        fl.calls.filter (fun m => decide (m.name = "avg_".toList ++ b)) =
          [⟨"avg_".toList ++ b, "ms".toList,
            if samples = [] then Flt.zero
            else Flt.div binary64 (samples.foldl (Flt.add binary64) Flt.zero)
              (Flt.ofInt binary64 samples.length)⟩] :=
  ⟨rfl, (C3_submit_emits_timer_means ⟨[], 10⟩ (fun _ => true)
    ((handleMessage "bar:5|ms bar:15|ms".toList).foldl (applyPacket amd64) State.init)
    false rfl).1⟩

/-- C4: right after a flush every bucket of `counters` holds `0`, and it still
holds `0` after any further events (flushes, timer updates, gauge updates,
counter updates for other buckets) that do not include a counter update for
that bucket. -/
theorem C4_counters_zero_after_flush (cfg : Config) (P : Platform) (resolves : Str → Bool)
    (st st1 st2 : State) (fl : Flush) (fls : List Flush) (b : Str) (evs : List Event)
    (hsub : submit cfg resolves st = .ok (fl, st1))
    (hb : b ∈ st1.counters.keys)
    (hev : ∀ s, Event.packet s ∈ evs →
      s.Modifier = ['m', 's'] ∨ s.Modifier = ['g'] ∨ s.Bucket ≠ b)
    (hrun : run cfg P st1 evs = .ok (fls, st2)) :
    st1.counters.get? b = some 0 ∧ st2.counters.get? b = some 0 := by
  have h1 : st1.counters.get? b = some 0 := by
    have h := submit_counters_get? cfg resolves st st1 fl hsub b
    cases hg : st.counters.get? b with
    | none =>
      rw [hg] at h
      exact absurd hb ((GoMap.get?_eq_none _ _).mp h)
    | some v => rw [hg] at h; exact h
  exact ⟨h1, run_keeps_zero cfg P b evs st1 st2 fls h1 hev hrun⟩

/-- C4 at a concrete input: the counter `foo` is flushed, then a timer update
and another flush follow. -/
theorem C4_counters_zero_after_flush_witness :
    ∃ fl st1 fls st2,
      submit ⟨[], 10⟩ (fun _ => true)
        (applyPacket amd64 State.init ⟨"foo".toList, "100".toList, "c".toList, Flt.one⟩) =
          .ok (fl, st1) ∧
      "foo".toList ∈ st1.counters.keys ∧
      run ⟨[], 10⟩ amd64 st1
        [Event.packet ⟨"bar".toList, "5".toList, "ms".toList, Flt.one⟩,
         Event.tick (fun _ => true)] = .ok (fls, st2) ∧
      st1.counters.get? "foo".toList = some 0 ∧ st2.counters.get? "foo".toList = some 0 :=
  have hsub := submit_ok ⟨[], 10⟩ (fun _ => true)
    (applyPacket amd64 State.init ⟨"foo".toList, "100".toList, "c".toList, Flt.one⟩) false rfl
  have hb : "foo".toList ∈ ({ applyPacket amd64 State.init
      ⟨"foo".toList, "100".toList, "c".toList, Flt.one⟩ with
      counters := (submitCounters ⟨[], 10⟩
        (applyPacket amd64 State.init
          ⟨"foo".toList, "100".toList, "c".toList, Flt.one⟩).counters.entries
        (applyPacket amd64 State.init
          ⟨"foo".toList, "100".toList, "c".toList, Flt.one⟩).counters).2 } : State).counters.keys := by
    decide
  have hev : ∀ s, Event.packet s ∈
      [Event.packet ⟨"bar".toList, "5".toList, "ms".toList, Flt.one⟩,
       Event.tick (fun _ => true)] →
      s.Modifier = ['m', 's'] ∨ s.Modifier = ['g'] ∨ s.Bucket ≠ "foo".toList := by
    intro s hs
    simp only [List.mem_cons, Event.packet.injEq, reduceCtorEq, List.mem_singleton, or_false,
      List.not_mem_nil] at hs
    subst hs
    exact Or.inl rfl
  ⟨_, _, _, _, hsub, hb, rfl,
    C4_counters_zero_after_flush ⟨[], 10⟩ amd64 (fun _ => true) _ _ _ _ _ "foo".toList _
      hsub hb hev rfl⟩

/-- C5 (evaluation of the code): `submit` never changes `timers`; after
`bar:5|ms` and a flush the sample `5` is still held, and a second flush with no
update in between reports `avg_bar = 5` again. -/
theorem C5_timer_samples_survive_flush :
    (∀ (cfg : Config) (resolves : Str → Bool) (st : State),
      (submit cfg resolves st).map (fun x => x.2.timers.entries) =
        (setupGanglia cfg resolves).map (fun _ => st.timers.entries)) ∧
    (∀ r1 r2 : Str → Bool,
      (run ⟨[], 10⟩ amd64 State.init
        ((handleMessage "bar:5|ms".toList).map Event.packet ++
          [Event.tick r1, Event.tick r2])).map (fun x => (x.1, x.2.timers.entries)) =
        .ok ([⟨false, [⟨"avg_bar".toList, "ms".toList, Flt.fin false 5 0⟩]⟩,
              ⟨false, [⟨"avg_bar".toList, "ms".toList, Flt.fin false 5 0⟩]⟩],
             [("bar".toList, [Flt.fin false 5 0])])) := by
  constructor
  · intro cfg resolves st
    unfold submit
    cases setupGanglia cfg resolves <;> rfl
  · intro r1 r2
    rfl

/-- C6 (as amended): for a datagram `bucket:V|ms` whose `V` has the shape the
pattern asks of a value (an optional `-`, then digits and points) but is
rejected by `ParseFloat(V, 32)` — such as `1.2.3` — the parser emits exactly
one timer update, with value text `0`, and applying it appends the sample `0`
to `timers[bucket]`. -/
theorem C6_unparseable_timer_value_becomes_zero (e : Encoding) (P : Platform) (st : State)
    (hv : e.valid = true) (hkind : e.kind = ['m', 's']) (hrate : e.rate = none)
    (hbad : (parseFloat binary32 e.value).2 = true) :
    handleMessage e.text = [⟨e.bucket, ['0'], ['m', 's'], Flt.one⟩] ∧
    (applyPacket P st ⟨e.bucket, ['0'], ['m', 's'], Flt.one⟩).timers.get? e.bucket =
      some (st.timers.getD e.bucket [] ++ [Flt.zero]) := by
  constructor
  · rw [handleMessage_encoding e hv]
    simp only [packetOfItem, Encoding.item_one, Encoding.item_two, Encoding.item_three,
      Encoding.item_five, hkind, hrate, hbad, if_true, Option.getD_none]
    rfl
  · exact applyPacket_timer P st ⟨e.bucket, ['0'], ['m', 's'], Flt.one⟩ rfl

/-- C6 (as amended) at a concrete input: the datagram `bucket:1.2.3|ms`. -/
theorem C6_unparseable_timer_value_becomes_zero_witness :
    (parseFloat binary32 "1.2.3".toList).2 = true ∧
    handleMessage "bucket:1.2.3|ms".toList =
      [⟨"bucket".toList, ['0'], ['m', 's'], Flt.one⟩] ∧
    (applyPacket amd64 State.init ⟨"bucket".toList, ['0'], ['m', 's'], Flt.one⟩).timers.get?
      "bucket".toList = some (State.init.timers.getD "bucket".toList [] ++ [Flt.zero]) :=
  ⟨by decide,
   C6_unparseable_timer_value_becomes_zero
     ⟨"bucket".toList, false, "1.2.3".toList, "ms".toList, none⟩ amd64 State.init
     (by decide) rfl rfl (by decide)⟩

/-- C6 as stated fails: `abc` is not a numeric literal, and the datagram
`bucket:abc|ms` yields no update at all (the pattern admits only digits,
points and a leading `-` in a value), so nothing is appended to `timers`. -/
theorem C6_nonnumeric_value_counterexample :
    (parseFloat binary32 "abc".toList).2 = true ∧
    handleMessage "bucket:abc|ms".toList = [] ∧
    ∀ P : Platform,
      ((handleMessage "bucket:abc|ms".toList).foldl (applyPacket P) State.init).timers.get?
        "bucket".toList = none := by
  refine ⟨by decide, by decide, ?_⟩
  intro P
  rw [show handleMessage "bucket:abc|ms".toList = [] from by decide]
  rfl

/-- C7 (as amended): for two valid encodings such that the first has no
`|@samplingRate` part or the bucket of the second does not begin with a digit
or a point, the datagram made of the first followed by the second — back to
back or with a newline in between — yields exactly two updates, in that order,
each the single update obtained by parsing that encoding on its own. -/
theorem C7_two_encodings_in_one_datagram (e1 e2 : Encoding)
    (h1 : e1.valid = true) (h2 : e2.valid = true)
    (hsep : e1.rate = none ∨ ∀ x t, e2.bucket = x :: t → isValueChar x = false) :
    (handleMessage e1.text).length = 1 ∧ (handleMessage e2.text).length = 1 ∧
    handleMessage (e1.text ++ e2.text) = handleMessage e1.text ++ handleMessage e2.text ∧
    handleMessage (e1.text ++ '\n' :: e2.text) =
      handleMessage e1.text ++ handleMessage e2.text := by
  have hboth := handleMessage_two_encodings e1 e2 h1 h2 hsep
  rw [handleMessage_newline, hboth, handleMessage_encoding e1 h1, handleMessage_encoding e2 h2]
  exact ⟨rfl, rfl, rfl, rfl⟩

/-- C7 (as amended) at a concrete input: `a:1|c|@0.5` followed by `b:2|ms`. -/
theorem C7_two_encodings_in_one_datagram_witness :
    (⟨"a".toList, false, "1".toList, "c".toList, some "0.5".toList⟩ : Encoding).valid = true ∧
    (⟨"b".toList, false, "2".toList, "ms".toList, none⟩ : Encoding).valid = true ∧
    handleMessage ("a:1|c|@0.5".toList ++ "b:2|ms".toList) =
      handleMessage "a:1|c|@0.5".toList ++ handleMessage "b:2|ms".toList ∧
    handleMessage ("a:1|c|@0.5".toList ++ '\n' :: "b:2|ms".toList) =
      handleMessage "a:1|c|@0.5".toList ++ handleMessage "b:2|ms".toList :=
  ⟨by decide, by decide,
   (C7_two_encodings_in_one_datagram
     ⟨"a".toList, false, "1".toList, "c".toList, some "0.5".toList⟩
     ⟨"b".toList, false, "2".toList, "ms".toList, none⟩ (by decide) (by decide)
     (Or.inr (fun x t h => by cases h; decide))).2.2⟩

/-- C7 as stated fails: `a:1|c|@0.5` and `7:2|c` are valid encodings, each
parsed on its own gives one update, but the datagram `a:1|c|@0.57:2|c` (and
likewise the one with a newline in between, which sanitising removes) gives a
single update, with sampling rate `0.57`. -/
theorem C7_adjacent_rate_counterexample :
    (⟨"a".toList, false, "1".toList, "c".toList, some "0.5".toList⟩ : Encoding).valid = true ∧
    (⟨"a".toList, false, "1".toList, "c".toList, some "0.5".toList⟩ : Encoding).text =
      "a:1|c|@0.5".toList ∧
    (⟨"7".toList, false, "2".toList, "c".toList, none⟩ : Encoding).valid = true ∧
    (⟨"7".toList, false, "2".toList, "c".toList, none⟩ : Encoding).text = "7:2|c".toList ∧
    handleMessage "a:1|c|@0.5".toList =
      [⟨"a".toList, "1".toList, "c".toList, Flt.fin false 1 (-1)⟩] ∧
    handleMessage "7:2|c".toList = [⟨"7".toList, "2".toList, "c".toList, Flt.one⟩] ∧
    handleMessage ("a:1|c|@0.5".toList ++ "7:2|c".toList) =
      [⟨"a".toList, "1".toList, "c".toList, Flt.fin false 9563013 (-24)⟩] ∧
    handleMessage ("a:1|c|@0.5".toList ++ '\n' :: "7:2|c".toList) =
      [⟨"a".toList, "1".toList, "c".toList, Flt.fin false 9563013 (-24)⟩] := by
  refine ⟨by decide, by decide, by decide, by decide, by decide, by decide, by decide, by decide⟩

/-- C8: a gauge update leaves the whole state (both maps, keys and values) as
it was, so a following flush makes exactly the calls it would have made
without it. -/
theorem C8_gauge_update_is_noop (P : Platform) (st : State) (s : Packet)
    (hg : s.Modifier = ['g']) :
    applyPacket P st s = st ∧
    ∀ (cfg : Config) (resolves : Str → Bool),
      submit cfg resolves (applyPacket P st s) = submit cfg resolves st := by
  have h : applyPacket P st s = st := by
    unfold applyPacket
    rw [if_neg (by rw [hg]; decide), if_pos hg]
  exact ⟨h, fun cfg resolves => by rw [h]⟩

/-- C8 at a concrete input: the packet parsed from `x:1|g`. -/
theorem C8_gauge_update_is_noop_witness :
    (⟨"x".toList, "1".toList, "g".toList, Flt.one⟩ : Packet).Modifier = ['g'] ∧
    applyPacket amd64 State.init ⟨"x".toList, "1".toList, "g".toList, Flt.one⟩ = State.init :=
  ⟨rfl, (C8_gauge_update_is_noop amd64 State.init
    ⟨"x".toList, "1".toList, "g".toList, Flt.one⟩ rfl).1⟩

/-- C9 (evaluation of the code): `foo:5|c|@0` is parsed with sampling rate `0`;
`1 / 0` is `+Inf`, `5 * +Inf` is `+Inf`, and converting `+Inf` to `int` is
implementation-dependent: the counter becomes `-2^63` on amd64 and `2^63 - 1` on
arm64, whereas the same update with rate `1.0` adds `5`. -/
theorem C9_zero_rate_is_not_treated_as_one :
    handleMessage "foo:5|c|@0".toList = [⟨"foo".toList, "5".toList, "c".toList, Flt.zero⟩] ∧
    Flt.mul binary32 (Flt.convert binary32 (parseFloat binary32 "5".toList).1)
      (Flt.div binary32 Flt.one Flt.zero) = Flt.inf false ∧
    (applyPacket amd64 State.init
      ⟨"foo".toList, "5".toList, "c".toList, Flt.zero⟩).counters.entries =
        [("foo".toList, -(2 ^ 63))] ∧
    (applyPacket arm64 State.init
      ⟨"foo".toList, "5".toList, "c".toList, Flt.zero⟩).counters.entries =
        [("foo".toList, 2 ^ 63 - 1)] ∧
    (∀ P : Platform, (applyPacket P State.init
      ⟨"foo".toList, "5".toList, "c".toList, Flt.one⟩).counters.entries =
        [("foo".toList, 5)]) := by
  refine ⟨by decide, by decide, by decide, by decide, ?_⟩
  intro P
  rw [applyPacket_platform P amd64 State.init _ 5 (by decide)]
  decide

/-- C10: the update that `handleMessage` emits for the `i`-th pattern match of
a datagram has sampling rate `1.0` when the `|@samplingRate` group is absent
from the match or `ParseFloat` rejects its text, and the parsed number
otherwise.  Examples: no rate, the rate `1.2.3`, the rate `0.5`. -/
theorem C10_sampling_rate_defaults_to_one (buf : Str) (i : Nat) (c : Caps)
    (hc : (packetRegexp.findAllStringSubmatch
      (sanitizeRegexp.replaceAllString buf []))[i]? = some c) :
    ((handleMessage buf)[i]? = some (packetOfItem c.item) ∧
      (packetOfItem c.item).Sampling =
        match c 5 with
        | none => Flt.one
        | some t => if (parseFloat binary32 t).2 then Flt.one else (parseFloat binary32 t).1) ∧
    handleMessage "a:1|c".toList = [⟨"a".toList, "1".toList, "c".toList, Flt.one⟩] ∧
    (parseFloat binary32 "1.2.3".toList).2 = true ∧
    handleMessage "a:1|c|@1.2.3".toList = [⟨"a".toList, "1".toList, "c".toList, Flt.one⟩] ∧
    parseFloat binary32 "0.5".toList = (Flt.fin false 1 (-1), false) ∧
    handleMessage "a:1|c|@0.5".toList =
      [⟨"a".toList, "1".toList, "c".toList, Flt.fin false 1 (-1)⟩] := by
  refine ⟨⟨?_, ?_⟩, by decide, by decide, by decide, by decide, by decide⟩
  · unfold handleMessage
    simp only [List.getElem?_map, hc, Option.map_some']
  have hone : Flt.convert binary32 Flt.one = Flt.one := by decide
  cases h5 : c 5 with
  | none =>
    have hitem : c.item 5 = [] := by simp only [Caps.item, h5, Option.getD_none]
    simp only [packetOfItem, hitem]
    exact hone
  | some t =>
    have hitem : c.item 5 = t := by simp only [Caps.item, h5, Option.getD_some]
    simp only [packetOfItem, hitem]
    by_cases herr : (parseFloat binary32 t).2 = true
    · simp only [herr, if_true]
      exact hone
    · simp only [herr, Bool.false_eq_true, if_false]
      exact convert_parseFloat t

/-- C10 at a concrete input: the only match of the datagram `a:1|c|@0.5`. -/
theorem C10_sampling_rate_defaults_to_one_witness :
    (packetRegexp.findAllStringSubmatch
      (sanitizeRegexp.replaceAllString "a:1|c|@0.5".toList []))[0]? =
      some (Encoding.caps ⟨"a".toList, false, "1".toList, "c".toList, some "0.5".toList⟩) ∧
    (handleMessage "a:1|c|@0.5".toList)[0]? =
      some (packetOfItem
        (Encoding.caps ⟨"a".toList, false, "1".toList, "c".toList, some "0.5".toList⟩).item) ∧
    (packetOfItem
      (Encoding.caps ⟨"a".toList, false, "1".toList, "c".toList, some "0.5".toList⟩).item).Sampling
      = match (Encoding.caps ⟨"a".toList, false, "1".toList, "c".toList, some "0.5".toList⟩) 5 with
        | none => Flt.one
        | some t => if (parseFloat binary32 t).2 then Flt.one else (parseFloat binary32 t).1 :=
  ⟨rfl, (C10_sampling_rate_defaults_to_one "a:1|c|@0.5".toList 0
    (Encoding.caps ⟨"a".toList, false, "1".toList, "c".toList, some "0.5".toList⟩) rfl).1⟩

/-- C11 (as amended): when a configured sink address does not resolve during a
flush, `submit` panics: the flush and the loop of `monitor` end there, with no
counter reset and no timer summarised in that tick. -/
theorem C11_resolution_failure_panics (cfg : Config) (P : Platform) (resolves : Str → Bool)
    (st : State) (rest : List Event) (hne : cfg.gangliaAddress ≠ [])
    (hfail : ∃ seg ∈ splitOn ',' cfg.gangliaAddress, resolves seg = false) :
    ∃ e, submit cfg resolves st = .error e ∧
      run cfg P st (Event.tick resolves :: rest) = .error e := by
  obtain ⟨e, he⟩ := setupGanglia_error cfg resolves hne hfail
  have hs : submit cfg resolves st = .error e := by simp only [submit, he]
  refine ⟨e, hs, ?_⟩
  simp only [run, monitorStep, hs]

/-- C11 (as amended) at a concrete input: the addresses `a,b`, of which `b`
does not resolve, with one counter and one timer in the window. -/
theorem C11_resolution_failure_panics_witness :
    (⟨"a,b".toList, 10⟩ : Config).gangliaAddress ≠ [] ∧
    (∃ seg ∈ splitOn ',' (⟨"a,b".toList, 10⟩ : Config).gangliaAddress,
      (fun x => decide (x ≠ ['b'])) seg = false) ∧
    ∃ e, submit ⟨"a,b".toList, 10⟩ (fun x => decide (x ≠ ['b']))
        ((handleMessage "foo:1|c bar:5|ms".toList).foldl (applyPacket amd64) State.init) =
          .error e ∧
      run ⟨"a,b".toList, 10⟩ amd64
        ((handleMessage "foo:1|c bar:5|ms".toList).foldl (applyPacket amd64) State.init)
        (Event.tick (fun x => decide (x ≠ ['b'])) :: []) = .error e :=
  ⟨by decide, ⟨['b'], by decide, by decide⟩,
   C11_resolution_failure_panics ⟨"a,b".toList, 10⟩ amd64 (fun x => decide (x ≠ ['b'])) _ []
     (by decide) ⟨['b'], by decide, by decide⟩⟩

/-- C11 as stated fails: with the sink address `nohost` configured and not
resolving, `submit` on a window holding the counter `foo = 1` and the timer
`bar = [5]` does not return: it panics, so neither is `foo` reset nor `bar`
summarised. -/
theorem C11_panic_counterexample :
    ((handleMessage "foo:1|c bar:5|ms".toList).foldl (applyPacket amd64)
      State.init).counters.entries = [("foo".toList, 1)] ∧
    ((handleMessage "foo:1|c bar:5|ms".toList).foldl (applyPacket amd64)
      State.init).timers.entries = [("bar".toList, [Flt.fin false 5 0])] ∧
    submit ⟨"nohost".toList, 10⟩ (fun _ => false)
      ((handleMessage "foo:1|c bar:5|ms".toList).foldl (applyPacket amd64) State.init) =
        .error "nohost".toList := by
  refine ⟨by decide, by decide, rfl⟩

/-- C12 (as amended): every packet `handleMessage` sends whose sampling rate is
not zero has a finite `float32` sampling rate strictly greater than `0`; the
rate is not bounded by `1`. -/
theorem C12_sampling_rate_is_positive_and_finite (buf : Str) (s : Packet)
    (hs : s ∈ handleMessage buf) (h0 : s.Sampling ≠ Flt.zero) :
    (∃ q : ℚ, s.Sampling.toRat? = some q ∧ 0 < q) ∧ s.Sampling.inFormat binary32 := by
  obtain ⟨⟨m, e, hm⟩, hin⟩ := handleMessage_sampling buf s hs
  refine ⟨?_, hin⟩
  rw [hm] at hin h0 ⊢
  have hpos : 0 < m := by
    rcases hin with ⟨h1, h2⟩ | ⟨h1, _⟩
    · exact absurd (by rw [h1, h2]; rfl) h0
    · omega
  refine ⟨_, rfl, ?_⟩
  have h1 : (0 : ℚ) < (m : ℚ) := by exact_mod_cast hpos
  have h2 : (0 : ℚ) < (2 : ℚ) ^ e := by positivity
  simp only [Bool.false_eq_true, if_false, one_mul]
  exact mul_pos h1 h2

/-- C12 (as amended) at a concrete input: the packet of `foo:5|c|@0.5`. -/
theorem C12_sampling_rate_is_positive_and_finite_witness :
    (⟨"foo".toList, "5".toList, "c".toList, Flt.fin false 1 (-1)⟩ : Packet) ∈
      handleMessage "foo:5|c|@0.5".toList ∧
    (⟨"foo".toList, "5".toList, "c".toList, Flt.fin false 1 (-1)⟩ : Packet).Sampling ≠
      Flt.zero ∧
    ∃ q : ℚ, (Flt.fin false 1 (-1)).toRat? = some q ∧ 0 < q :=
  ⟨by decide, by decide,
   (C12_sampling_rate_is_positive_and_finite "foo:5|c|@0.5".toList
     ⟨"foo".toList, "5".toList, "c".toList, Flt.fin false 1 (-1)⟩ (by decide) (by decide)).1⟩

/-- C12 as stated fails: the datagram `foo:5|c|@5` yields a packet whose
sampling rate is `5`, which is greater than `1`. -/
theorem C12_rate_above_one_counterexample :
    handleMessage "foo:5|c|@5".toList =
      [⟨"foo".toList, "5".toList, "c".toList, Flt.fin false 5 0⟩] ∧
    (Flt.fin false 5 0).toRat? = some 5 ∧ ¬ ((5 : ℚ) ≤ 1) := by
  refine ⟨by decide, ?_, by norm_num⟩
  norm_num [Flt.toRat?]

/-- C13 (as amended): the datagram that consists of one valid encoding yields
exactly one packet, with the bucket and the kind of the encoding; its value is
the value text, except that a timer value that `ParseFloat(value, 32)` rejects
becomes `"0"`; its sampling rate is the `float32` parsed from the rate text, or
`1.0` when there is no rate or `ParseFloat(rate, 32)` rejects it. -/
theorem C13_single_encoding_yields_one_packet (e : Encoding) (hv : e.valid = true) :
    handleMessage e.text =
      [⟨e.bucket,
        if e.kind = ['m', 's'] ∧ (parseFloat binary32 e.value).2 = true then ['0'] else e.value,
        e.kind,
        match e.rate with
        | none => Flt.one
        | some r => if (parseFloat binary32 r).2 = true then Flt.one
                    else (parseFloat binary32 r).1⟩] := by
  rw [handleMessage_encoding e hv]
  unfold packetOfItem
  simp only [Encoding.item_one, Encoding.item_two, Encoding.item_three, Encoding.item_five]
  congr 1
  congr 1
  · by_cases hk : e.kind = ['m', 's']
    · by_cases hp : (parseFloat binary32 e.value).2 = true
      · simp only [hk, hp, if_true, and_self]
      · simp only [hk, hp, if_true, if_false, and_false, Bool.false_eq_true]
    · simp only [hk, if_false, false_and]
  · cases hr : e.rate with
    | none =>
      simp only [Option.getD_none]
      decide
    | some r =>
      simp only [Option.getD_some]
      cases hb : (parseFloat binary32 r).2 with
      | true =>
        simp only [if_true]
        decide
      | false =>
        simp only [Bool.false_eq_true, if_false]
        exact convert_parseFloat r

/-- C13 (as amended) at a concrete input: `foo:-1.5|ms|@0.5`. -/
theorem C13_single_encoding_yields_one_packet_witness :
    (⟨"foo".toList, true, "1.5".toList, "ms".toList, some "0.5".toList⟩ : Encoding).valid =
      true ∧
    (⟨"foo".toList, true, "1.5".toList, "ms".toList, some "0.5".toList⟩ : Encoding).text =
      "foo:-1.5|ms|@0.5".toList ∧
    handleMessage
      (⟨"foo".toList, true, "1.5".toList, "ms".toList, some "0.5".toList⟩ : Encoding).text =
      [⟨"foo".toList, "-1.5".toList, "ms".toList, Flt.fin false 1 (-1)⟩] :=
  ⟨by decide, by decide,
   (C13_single_encoding_yields_one_packet
     ⟨"foo".toList, true, "1.5".toList, "ms".toList, some "0.5".toList⟩ (by decide)).trans
     (by decide)⟩

/-- C13 as stated fails: for the timer value `10^39`, a well-formed decimal
beyond the range of `float32`, the packet carries the value text `"0"`; and for
the sampling rate `10^39` the packet carries the rate `1.0`. -/
theorem C13_out_of_range_counterexample :
    handleMessage "a:1000000000000000000000000000000000000000|ms".toList =
      [⟨"a".toList, "0".toList, "ms".toList, Flt.one⟩] ∧
    handleMessage "a:1|c|@1000000000000000000000000000000000000000".toList =
      [⟨"a".toList, "1".toList, "c".toList, Flt.one⟩] ∧
    parseFloat binary32 "1000000000000000000000000000000000000000".toList =
      (Flt.inf false, true) := by
  refine ⟨by decide, by decide, by decide⟩

/-- C14: for every text, what `sanitizeRegexp.ReplaceAllString(raw, "")` returns
is `raw` filtered by the class `[A-Za-z0-9\-_.:|@]`: a subsequence of `raw`, in
the original order, that holds exactly the characters of `raw` that are in the
class; sanitising twice is sanitising once. -/
theorem C14_sanitize_is_character_filter (raw : Str) :
    sanitizeRegexp.replaceAllString raw [] = raw.filter isSanitary ∧
    (∀ x, isSanitary x = true ↔
      ('a' ≤ x ∧ x ≤ 'z') ∨ ('A' ≤ x ∧ x ≤ 'Z') ∨ ('0' ≤ x ∧ x ≤ '9') ∨
        x ∈ ['-', '_', '.', ':', '|', '@']) ∧
    (∀ x, x ∈ sanitizeRegexp.replaceAllString raw [] ↔ x ∈ raw ∧ isSanitary x = true) ∧
    (sanitizeRegexp.replaceAllString raw []).Sublist raw ∧
    sanitizeRegexp.replaceAllString (sanitizeRegexp.replaceAllString raw []) [] =
      sanitizeRegexp.replaceAllString raw [] := by
  refine ⟨sanitize_eq_filter raw, ?_, ?_, ?_, ?_⟩
  · intro x
    simp only [isSanitary, isLetter, isDigit, Bool.or_eq_true, Bool.and_eq_true, decide_eq_true_eq,
      List.mem_cons, List.mem_singleton, List.mem_nil_iff, or_false, beq_iff_eq]
    tauto
  · intro x
    rw [sanitize_eq_filter, List.mem_filter]
  · rw [sanitize_eq_filter]; exact List.filter_sublist _
  · rw [sanitize_eq_filter, sanitize_eq_filter, List.filter_filter]
    congr 1
    funext c
    simp only [Bool.and_self]

/-- C15: `handleMessage` is a total function of the datagram text: its loops
are bounded by the length of the text and never exhaust their bound, and it
sends no packet when the pattern has no match in the sanitised text, in
particular for a datagram without `:` or without `|`. -/
theorem C15_parser_is_total (buf : Str) :
    (∃ l : List Packet, handleMessage buf = l ∧
      l.length ≤ (sanitizeRegexp.replaceAllString buf []).length + 1) ∧
    (∀ n, buf.length < n →
      sanitizeRegexp.replaceAllFuel [] n buf = sanitizeRegexp.replaceAllString buf []) ∧
    (∀ n s, s.length < n →
      packetRegexp.findAllFuel n s = packetRegexp.findAllStringSubmatch s) ∧
    (∀ m n s c k, s.length < n → plusLoop m n s c k = plusLoop m (s.length + 1) s c k) ∧
    (packetRegexp.find (sanitizeRegexp.replaceAllString buf []) = none →
      handleMessage buf = []) ∧
    (':' ∉ buf → handleMessage buf = []) ∧
    ('|' ∉ buf → handleMessage buf = []) ∧
    (∀ s r, packetRegexp.find s = some r → r.2.2.length < s.length) := by
  refine ⟨⟨_, rfl, ?_⟩, ?_, ?_, ?_, ?_, ?_, ?_, find_packet_progress⟩
  · unfold handleMessage Re.findAllStringSubmatch
    rw [List.length_map]
    exact findAllFuel_length _ _ _
  · intro n hn
    exact replaceAllFuel_fuel _ _ n _ buf hn (Nat.lt_succ_self _)
  · intro n s hn
    exact findAllFuel_fuel _ n _ s hn (Nat.lt_succ_self _)
  · intro m n s c k hn
    exact plusLoop_fuel m n _ s c k hn (Nat.lt_succ_self _)
  · intro h
    unfold handleMessage Re.findAllStringSubmatch Re.findAllFuel
    simp only [h, List.map_nil]
  · exact handleMessage_nil_of_not_mem buf ':' Encoding.colon_mem_text
  · exact handleMessage_nil_of_not_mem buf '|' Encoding.bar_mem_text

/-- C15 at concrete inputs: a datagram without `:`, one without `|`, and one
with both in which the pattern has no match. -/
theorem C15_parser_is_total_witness :
    handleMessage "foo 12 c".toList = [] ∧
    handleMessage "foo:12".toList = [] ∧
    packetRegexp.find (sanitizeRegexp.replaceAllString "foo:bar|c".toList []) = none ∧
    handleMessage "foo:bar|c".toList = [] :=
  ⟨(C15_parser_is_total "foo 12 c".toList).2.2.2.2.2.1 (by decide),
   (C15_parser_is_total "foo:12".toList).2.2.2.2.2.2.1 (by decide),
   rfl,
   (C15_parser_is_total "foo:bar|c".toList).2.2.2.2.1 rfl⟩

/-- C17 (as amended): in every state reachable from the empty window, the keys
of `counters` are exactly the buckets that received a counter packet since the
start of `monitor` (a flush keeps every key); a key whose bucket received no
counter packet since the most recent flush holds `0`, and the next flush
reports it, as `float64(0) / float64(n)`. -/
theorem C17_counter_keys_persist_across_flushes (cfg : Config) (P : Platform)
    (evs : List Event) (fls : List Flush) (st : State)
    (hrun : run cfg P State.init evs = .ok (fls, st)) (b : Str) :
    (b ∈ st.counters.keys ↔
      ∃ s, Event.packet s ∈ evs ∧ s.Modifier ≠ ['m', 's'] ∧ s.Modifier ≠ ['g'] ∧
        s.Bucket = b) ∧
    (b ∈ st.counters.keys → evs.any Event.isTick = true →
      (∀ s ∈ updatesSinceFlush evs,
        s.Modifier = ['m', 's'] ∨ s.Modifier = ['g'] ∨ s.Bucket ≠ b) →
      st.counters.get? b = some 0 ∧
      ∀ (r : Str → Bool) (fl : Flush) (st2 : State), submit cfg r st = .ok (fl, st2) →
        fl.calls.filter (fun m => decide (m.name = "count_".toList ++ b)) =
          [⟨"count_".toList ++ b, "count".toList,
            Flt.div binary64 (Flt.ofInt binary64 0)
              (Flt.ofInt binary64 cfg.calculationInterval)⟩]) := by
  constructor
  · rw [run_counters_keys cfg P b evs State.init st fls hrun]
    constructor
    · rintro (h | h)
      · cases h
      · exact h
    · exact Or.inr
  · intro hb hany hno
    have h0 := run_zero_since_flush cfg P b evs State.init st fls hrun hany hno hb
    exact ⟨h0, fun r fl st2 hsub => submit_count_calls cfg r st st2 fl hsub b 0 h0⟩

/-- C17 (as amended) at a concrete input: `foo:1|c`, then a flush. -/
theorem C17_counter_keys_persist_across_flushes_witness :
    ∃ fls st,
      run ⟨[], 10⟩ amd64 State.init
        [Event.packet ⟨"foo".toList, "1".toList, "c".toList, Flt.one⟩,
         Event.tick (fun _ => true)] = .ok (fls, st) ∧
      ("foo".toList ∈ st.counters.keys ↔
        ∃ s, Event.packet s ∈
            [Event.packet ⟨"foo".toList, "1".toList, "c".toList, Flt.one⟩,
             Event.tick (fun _ => true)] ∧
          s.Modifier ≠ ['m', 's'] ∧ s.Modifier ≠ ['g'] ∧ s.Bucket = "foo".toList) :=
  ⟨_, _, rfl,
   (C17_counter_keys_persist_across_flushes ⟨[], 10⟩ amd64
     [Event.packet ⟨"foo".toList, "1".toList, "c".toList, Flt.one⟩,
      Event.tick (fun _ => true)] _ _ rfl "foo".toList).1⟩

/-- C17 as stated fails: after `foo:1|c` and a flush, `foo` is a key of
`counters` although no update was received since that flush, and the next
flush reports `count_foo = 0`. -/
theorem C17_flushed_counter_counterexample :
    handleMessage "foo:1|c".toList = [⟨"foo".toList, "1".toList, "c".toList, Flt.one⟩] ∧
    updatesSinceFlush
      [Event.packet ⟨"foo".toList, "1".toList, "c".toList, Flt.one⟩,
       Event.tick (fun _ => true)] = [] ∧
    ∃ fls st,
      run ⟨[], 10⟩ amd64 State.init
        [Event.packet ⟨"foo".toList, "1".toList, "c".toList, Flt.one⟩,
         Event.tick (fun _ => true)] = .ok (fls, st) ∧
      st.counters.keys = ["foo".toList] ∧
      ∃ st2, submit ⟨[], 10⟩ (fun _ => true) st =
        .ok (⟨false, [⟨"count_foo".toList, "count".toList, Flt.zero⟩]⟩, st2) :=
  ⟨by decide, by decide, _, _, rfl, by decide, _, rfl⟩

/-- C18: for every state and every packet of kind `ms` that `handleMessage`
sends, for bucket `b` with value text `v`, the text `v` is a number
(`ParseFloat(v, 64)` does not fail), and after the packet `timers[b]` is the
previous list of samples of `b` (empty when `b` was absent) followed by that
number; `counters` is unchanged, and so is the list of every other bucket. -/
theorem C18_timer_update_appends_sample (P : Platform) (st : State) (buf : Str) (s : Packet)
    (hs : s ∈ handleMessage buf) (hms : s.Modifier = ['m', 's']) :
    (parseFloat binary64 s.Value).2 = false ∧
    (applyPacket P st s).timers.get? s.Bucket =
      some (st.timers.getD s.Bucket [] ++ [(parseFloat binary64 s.Value).1]) ∧
    (applyPacket P st s).counters = st.counters ∧
    ∀ b, b ≠ s.Bucket → (applyPacket P st s).timers.get? b = st.timers.get? b :=
  ⟨handleMessage_timer_value buf s hs hms, applyPacket_timer P st s hms,
    applyPacket_counters_of_timer P st s hms,
    fun b hb => applyPacket_timers_get? P st s b (Or.inr (fun e => hb e.symm))⟩

/-- C18 at a concrete input: the timer update parsed from `bar:7|ms`, applied
to the window after `bar:5|ms foo:1|c`. -/
theorem C18_timer_update_appends_sample_witness :
    (⟨"bar".toList, "7".toList, "ms".toList, Flt.one⟩ : Packet) ∈
      handleMessage "bar:7|ms".toList ∧
    (⟨"bar".toList, "7".toList, "ms".toList, Flt.one⟩ : Packet).Modifier = ['m', 's'] ∧
    (applyPacket amd64
      ((handleMessage "bar:5|ms foo:1|c".toList).foldl (applyPacket amd64) State.init)
      ⟨"bar".toList, "7".toList, "ms".toList, Flt.one⟩).timers.get? "bar".toList =
        some (((handleMessage "bar:5|ms foo:1|c".toList).foldl (applyPacket amd64)
          State.init).timers.getD "bar".toList [] ++ [(parseFloat binary64 "7".toList).1]) :=
  ⟨by decide, rfl,
   (C18_timer_update_appends_sample amd64
     ((handleMessage "bar:5|ms foo:1|c".toList).foldl (applyPacket amd64) State.init)
     "bar:7|ms".toList ⟨"bar".toList, "7".toList, "ms".toList, Flt.one⟩ (by decide) rfl).2.1⟩

/-- C19: for every state and every two packets of kind `c`, for the same bucket
or for different ones, applying them in either order gives the same value at
every key of `counters` (Go maps have no order of their own: two maps are the
same when they give the same answer at every key) and the same `timers`. -/
theorem C19_counter_updates_commute (P : Platform) (st : State) (u1 u2 : Packet)
    (hc1 : u1.Modifier = ['c']) (hc2 : u2.Modifier = ['c']) :
    (∀ k, (applyPacket P (applyPacket P st u1) u2).counters.get? k =
      (applyPacket P (applyPacket P st u2) u1).counters.get? k) ∧
    (applyPacket P (applyPacket P st u1) u2).timers =
      (applyPacket P (applyPacket P st u2) u1).timers := by
  have hm1 : u1.Modifier ≠ ['m', 's'] := by rw [hc1]; decide
  have hm2 : u2.Modifier ≠ ['m', 's'] := by rw [hc2]; decide
  have hg1 : u1.Modifier ≠ ['g'] := by rw [hc1]; decide
  have hg2 : u2.Modifier ≠ ['g'] := by rw [hc2]; decide
  constructor
  · intro k
    rw [applyPacket_counter_get? P (applyPacket P st u1) u2 k hm2 hg2,
      applyPacket_counter_get? P (applyPacket P st u2) u1 k hm1 hg1,
      applyPacket_counter_get? P st u1 k hm1 hg1, applyPacket_counter_get? P st u2 k hm2 hg2]
    simp only [GoMap.getD]
    rw [applyPacket_counter_get? P st u1 u2.Bucket hm1 hg1,
      applyPacket_counter_get? P st u2 u1.Bucket hm2 hg2]
    by_cases h12 : u1.Bucket = u2.Bucket
    · rw [h12]
      by_cases hk : k = u2.Bucket
      · simp only [hk, if_true, Option.getD_some, Option.some.injEq]
        exact wrapInt64_add_comm _ _ _
      · simp only [hk, if_false]
    · have h21 : ¬ u2.Bucket = u1.Bucket := fun e => h12 e.symm
      by_cases hk2 : k = u2.Bucket
      · have hk1 : ¬ k = u1.Bucket := fun e => h12 (e.symm.trans hk2)
        simp only [hk2, h21, if_true, if_false]
      · by_cases hk1 : k = u1.Bucket
        · simp only [hk1, h12, if_true, if_false]
        · simp only [hk1, hk2, if_false]
  · rw [applyPacket_timers_of_ne P _ u2 hm2, applyPacket_timers_of_ne P _ u1 hm1,
      applyPacket_timers_of_ne P _ u1 hm1, applyPacket_timers_of_ne P _ u2 hm2]

/-- C19 at a concrete input: `a:1|c` and `b:2|c|@0.5` on the empty window. -/
theorem C19_counter_updates_commute_witness :
    (⟨"a".toList, "1".toList, "c".toList, Flt.one⟩ : Packet).Modifier = ['c'] ∧
    (⟨"b".toList, "2".toList, "c".toList, Flt.fin false 1 (-1)⟩ : Packet).Modifier = ['c'] ∧
    (∀ k, (applyPacket amd64 (applyPacket amd64 State.init
        ⟨"a".toList, "1".toList, "c".toList, Flt.one⟩)
        ⟨"b".toList, "2".toList, "c".toList, Flt.fin false 1 (-1)⟩).counters.get? k =
      (applyPacket amd64 (applyPacket amd64 State.init
        ⟨"b".toList, "2".toList, "c".toList, Flt.fin false 1 (-1)⟩)
        ⟨"a".toList, "1".toList, "c".toList, Flt.one⟩).counters.get? k) :=
  ⟨rfl, rfl,
   (C19_counter_updates_commute amd64 State.init
     ⟨"a".toList, "1".toList, "c".toList, Flt.one⟩
     ⟨"b".toList, "2".toList, "c".toList, Flt.fin false 1 (-1)⟩ rfl rfl).1⟩

/-- C20 (evaluation of the code, and the part of the claim that holds): the
datagram `foo:.|c|@0.000000000000000000000000000000000000000000001` is parsed
with the value `.`, which `ParseFloat` rejects, and the sampling rate `2^-149`,
which is greater than `0`; `1 / 2^-149` is `+Inf` in `float32`, `0 * +Inf` is NaN,
and converting NaN to `int` is implementation-dependent: `counters[foo]` becomes
`-2^63` on amd64 (`0` on arm64).  Whenever the reciprocal of the sampling rate
is finite, as it is for every rate that is at least `2^-127`, a counter packet
whose value is a syntax error adds `0`: it creates the bucket with count `0`
when it was absent, leaves a count within the range of `int` as it was, and the
next flush (interval `n > 0`) reports a created bucket as `+0`. -/
theorem C20_unparseable_counter_value_with_tiny_rate :
    (handleMessage "foo:.|c|@0.000000000000000000000000000000000000000000001".toList =
        [⟨"foo".toList, ".".toList, "c".toList, Flt.fin false 1 (-149)⟩] ∧
      parseFloat binary32 ".".toList = (Flt.zero, true) ∧
      Flt.div binary32 Flt.one (Flt.fin false 1 (-149)) = Flt.inf false ∧
      Flt.mul binary32 (Flt.convert binary32 (parseFloat binary32 ".".toList).1)
        (Flt.div binary32 Flt.one (Flt.fin false 1 (-149))) = Flt.nan ∧
      (applyPacket amd64 State.init
        ⟨"foo".toList, ".".toList, "c".toList, Flt.fin false 1 (-149)⟩).counters.entries =
          [("foo".toList, -(2 ^ 63))] ∧
      (applyPacket arm64 State.init
        ⟨"foo".toList, ".".toList, "c".toList, Flt.fin false 1 (-149)⟩).counters.entries =
          [("foo".toList, 0)]) ∧
    (∀ (P : Platform) (st : State) (s : Packet) (sg : Bool) (m : Nat) (e : Int),
      s.Modifier ≠ ['m', 's'] → s.Modifier ≠ ['g'] → readFloat s.Value = none →
      Flt.div binary32 Flt.one s.Sampling = Flt.fin sg m e →
        (applyPacket P st s).counters.get? s.Bucket =
          some (wrapInt64 (st.counters.getD s.Bucket 0)) ∧
        (st.counters.get? s.Bucket = none →
          (applyPacket P st s).counters.get? s.Bucket = some 0) ∧
        (∀ v, st.counters.get? s.Bucket = some v → -(2 ^ 63) ≤ v → v < 2 ^ 63 →
          (applyPacket P st s).counters.get? s.Bucket = some v) ∧
        (∀ (cfg : Config) (r : Str → Bool) (fl : Flush) (st2 : State),
          0 < cfg.calculationInterval → st.counters.get? s.Bucket = none →
          submit cfg r (applyPacket P st s) = .ok (fl, st2) →
          fl.calls.filter (fun c => decide (c.name = "count_".toList ++ s.Bucket)) =
            [⟨"count_".toList ++ s.Bucket, "count".toList, Flt.zero⟩])) ∧
    (∀ (m : Nat) (e : Int), 0 < m → (2 : ℚ) ^ (-127 : ℤ) ≤ (m : ℚ) * (2 : ℚ) ^ e →
      ∃ m1 e1, Flt.div binary32 Flt.one (Flt.fin false m e) = Flt.fin false m1 e1) := by
  refine ⟨⟨by decide, by decide, by decide, by decide, by decide, by decide⟩, ?_,
    reciprocal_finite⟩
  intro P st s sg m e hms hg hval hrate
  have hget : (applyPacket P st s).counters.get? s.Bucket =
      some (wrapInt64 (st.counters.getD s.Bucket 0)) := by
    rw [applyPacket_counter P st s hms hg, counter_delta_zero P s sg m e hval hrate, Int.add_zero]
  have hnone : st.counters.get? s.Bucket = none →
      (applyPacket P st s).counters.get? s.Bucket = some 0 := by
    intro hn
    rw [hget]
    simp only [GoMap.getD, hn, Option.getD_none]
    rfl
  refine ⟨hget, hnone, ?_, ?_⟩
  · intro v hv h1 h2
    rw [hget]
    simp only [GoMap.getD, hv, Option.getD_some, Option.some.injEq]
    unfold wrapInt64
    omega
  · intro cfg r fl st2 hn habs hsub
    rw [submit_count_calls cfg r _ st2 fl hsub s.Bucket 0 (hnone habs),
      zero_div_ofInt cfg.calculationInterval hn]

/-- C20 at a concrete input: the counter packet of `foo:1.2.3|c|@0.5` creates
the bucket `foo` with count `0` on the empty window. -/
theorem C20_unparseable_counter_value_with_tiny_rate_witness :
    handleMessage "foo:1.2.3|c|@0.5".toList =
      [⟨"foo".toList, "1.2.3".toList, "c".toList, Flt.fin false 1 (-1)⟩] ∧
    readFloat "1.2.3".toList = none ∧
    Flt.div binary32 Flt.one (Flt.fin false 1 (-1)) = Flt.fin false 1 1 ∧
    (applyPacket amd64 State.init
      ⟨"foo".toList, "1.2.3".toList, "c".toList, Flt.fin false 1 (-1)⟩).counters.get?
        "foo".toList = some 0 :=
  ⟨by decide, by decide, by decide,
   (C20_unparseable_counter_value_with_tiny_rate.2.1 amd64 State.init
     ⟨"foo".toList, "1.2.3".toList, "c".toList, Flt.fin false 1 (-1)⟩ false 1 1
     (by decide) (by decide) (by decide) (by decide)).2.1 rfl⟩

end StatsdMini
